import Mathlib

/-!
# Verification of the tickets-dashboard date-normalization and aggregation core

Shallow embedding of the date parsing, cleanup, bucketing and brand
normalization logic of the tickets dashboard:

* `src/app/page.tsx` — `parseDate`, `dateKey`, `isIsoUTC`, `dateKeyUTC`,
  `normalizeBrand`, `ticketsPerDay`, `ticketsToday`, `ticketsYesterday`,
  `ticketsByBrand`;
* `src/app/api/tickets/route.js` — `parseDateToMySQL`.

Modelling conventions:

* A JavaScript `Date` is its time value: milliseconds since the Unix epoch,
  an `Int`.  The host timezone is a fixed offset `tz` in minutes east of UTC
  (local time = UTC + `tz` minutes); daylight-saving transitions are outside
  the model.
* `new Date(string)` is modelled by `jsNativeParse`, which implements the
  ECMA-262 "Date Time String Format" (ISO-8601 forms, including expanded
  `±YYYYYY` years, date-only forms read as UTC, date-time forms without
  offset read as local time, fractional seconds of one or more digits).
  Strings outside this format have implementation-defined behaviour in
  JavaScript and are modelled as parse failures.  The hour `24:00` special
  case of the format is not modelled.
* Character case operations are ASCII (the data the dashboard handles is
  ASCII); `trim` and `\s` use the ASCII whitespace characters.
* JavaScript regular expressions used by the source are hand-compiled to
  explicit matching functions; each definition documents the regex it
  implements, including greedy/lazy alternative ordering, leftmost-match
  search, and replacement semantics.
* Scanning functions take an explicit fuel argument (always instantiated
  with at least the length of the input) so that every definition reduces
  inside `decide`/`rfl`.
-/

namespace TD

/-! ## ASCII character helpers -/
def asciiLower (c : Char) : Char :=
  if 'A' ≤ c ∧ c ≤ 'Z' then Char.ofNat (c.toNat + 32) else c

def asciiUpper (c : Char) : Char :=
  if 'a' ≤ c ∧ c ≤ 'z' then Char.ofNat (c.toNat - 32) else c

def isDigitC (c : Char) : Bool := decide ('0' ≤ c ∧ c ≤ '9')

def isAlphaC (c : Char) : Bool :=
  decide (('a' ≤ c ∧ c ≤ 'z') ∨ ('A' ≤ c ∧ c ≤ 'Z'))

/-- JavaScript `\s` / `trim` whitespace, restricted to the ASCII range. -/
def isWsC (c : Char) : Bool :=
  decide (c = ' ' ∨ c = '\t' ∨ c = '\n' ∨ c = '\r' ∨ c = Char.ofNat 11 ∨ c = Char.ofNat 12)

def digVal (c : Char) : Nat := c.toNat - 48

def lowerL (l : List Char) : List Char := l.map asciiLower

/-- `s₂` begins with `pat` up to ASCII case (`pat` given in lowercase). -/
def ciLeads (pat l : List Char) : Bool :=
  match pat, l with
  | [], _ => true
  | _ :: _, [] => false
  | p :: ps, c :: cs => asciiLower c = p && ciLeads ps cs

/-- JavaScript `String.prototype.trim` on a character list. -/
def jsTrimL (l : List Char) : List Char :=
  ((l.dropWhile isWsC).reverse.dropWhile isWsC).reverse

def jsTrim (s : String) : String := ⟨jsTrimL s.data⟩

/-! ## Gregorian calendar arithmetic

Days are counted from 1970-01-01 (day 0).  `daysFromCivil` is the standard
era-based conversion; `civilFromDays` inverts it with a century /
quadrennium / year ladder, and `daysFromCivil_civilFromDays` pins the two
together. -/
def isLeap (y : Int) : Bool := y % 4 = 0 && (y % 100 ≠ 0 || y % 400 = 0)

def daysInMonth (y m : Int) : Int :=
  if m = 1 then 31 else if m = 2 then (if isLeap y then 29 else 28)
  else if m = 3 then 31 else if m = 4 then 30 else if m = 5 then 31
  else if m = 6 then 30 else if m = 7 then 31 else if m = 8 then 31
  else if m = 9 then 30 else if m = 10 then 31 else if m = 11 then 30
  else 31

/-- Day number of the civil date `y-m-d` (month 1..12; `d` may be any `Int`:
the formula is linear in `d`, matching JavaScript day rollover). -/
def daysFromCivil (y m d : Int) : Int :=
  let y2 : Int := y - (if m ≤ 2 then 1 else 0)
  let era : Int := y2 / 400
  let yoe : Int := y2 - era * 400
  let doy : Int := (153 * (m + (if m > 2 then -3 else 9)) + 2) / 5 + d - 1
  let doe : Int := yoe * 365 + yoe / 4 - yoe / 100 + doy
  era * 146097 + doe - 719468

/-- Year-of-era and day-of-year from a day-of-era (`0 ≤ doe < 146097`):
century / quadrennium / year ladder with min-capping at the era boundaries. -/
def yearOfEra (doe : Int) : Int × Int :=
  let c : Int := min (doe / 36524) 3
  let doc : Int := doe - c * 36524
  let q : Int := doc / 1461
  let doq : Int := doc - q * 1461
  let r : Int := min (doq / 365) 3
  (100 * c + 4 * q + r, doq - r * 365)

/-- Civil date `(y, m, d)` of a day number (inverse of `daysFromCivil`). -/
def civilFromDays (z : Int) : Int × Int × Int :=
  let z2 : Int := z + 719468
  let era : Int := z2 / 146097
  let doe : Int := z2 - era * 146097
  let p := yearOfEra doe
  let doy : Int := p.2
  let mp : Int := (5 * doy + 2) / 153
  let d : Int := doy - (153 * mp + 2) / 5 + 1
  let m : Int := mp + (if mp < 10 then 3 else -9)
  (p.1 + era * 400 + (if m ≤ 2 then 1 else 0), m, d)

/-! ## The JavaScript `Date` model: time values, field getters, constructor -/
def msPerDay : Int := 86400000

/-- Day number containing a UTC time value. -/
def utcDayNum (ms : Int) : Int := ms / msPerDay

/-- Day number of a time value in local time at offset `tz` minutes. -/
def localDayNum (tz ms : Int) : Int := (ms + tz * 60000) / msPerDay

def getUTCFullYear (ms : Int) : Int := (civilFromDays (utcDayNum ms)).1

def getUTCMonth0 (ms : Int) : Int := (civilFromDays (utcDayNum ms)).2.1 - 1

def getUTCDate (ms : Int) : Int := (civilFromDays (utcDayNum ms)).2.2

def getFullYearL (tz ms : Int) : Int := (civilFromDays (localDayNum tz ms)).1

def getMonth0L (tz ms : Int) : Int := (civilFromDays (localDayNum tz ms)).2.1 - 1

def getDateL (tz ms : Int) : Int := (civilFromDays (localDayNum tz ms)).2.2

def getUTCHours (ms : Int) : Int := ms % msPerDay / 3600000

def getUTCMinutes (ms : Int) : Int := ms % 3600000 / 60000

def getUTCSeconds (ms : Int) : Int := ms % 60000 / 1000

def getUTCMillis (ms : Int) : Int := ms % 1000

/-- Time value of the local civil date-time `y-m-d h:mi:s` (no two-digit-year
adjustment; month `m` is 0-based as in the JavaScript `Date` constructor and
may be any integer, as may `d` — both roll over). -/
def msOfLocalCivil (tz y m d h mi s : Int) : Int :=
  daysFromCivil (y + m / 12) (m % 12 + 1) d * msPerDay +
    h * 3600000 + mi * 60000 + s * 1000 - tz * 60000

/-- `new Date(y, m, d, h, mi, s)`: local-time constructor with the
JavaScript rule mapping years 0..99 to 1900..1999. -/
def mkDateLocal (tz y m d h mi s : Int) : Int :=
  msOfLocalCivil tz (if 0 ≤ y ∧ y ≤ 99 then y + 1900 else y) m d h mi s

/-! ## Decimal rendering -/
/-- Digits of `n` (most significant first); fuel-driven, `fuel ≥ 1` and
`10 ^ fuel > n` make it exact. -/
def natDigits : Nat → Nat → List Char
  | 0, _ => []
  | fuel + 1, n =>
    if n < 10 then [Char.ofNat (48 + n)]
    else natDigits fuel (n / 10) ++ [Char.ofNat (48 + n % 10)]

/-- Decimal rendering of `n` like JavaScript `String(n)` for non-negative
integral numbers. -/
def natStr (n : Nat) : List Char := natDigits (n + 1) n

/-- Decimal rendering of an integer like JavaScript `String(i)`. -/
def intStr (i : Int) : List Char :=
  if i < 0 then '-' :: natStr (-i).toNat else natStr i.toNat

/-- JavaScript `String(n).padStart(w, "0")` for a non-negative width. -/
def padZ (w : Nat) (i : Int) : List Char :=
  let s := intStr i
  List.replicate (w - s.length) '0' ++ s

/-- Local `dateKey` of `src/app/page.tsx`:
`${getFullYear()}-${pad2 (getMonth()+1)}-${pad2 getDate()}`. -/
def dateKey (tz ms : Int) : String :=
  ⟨intStr (getFullYearL tz ms) ++ '-' :: padZ 2 (getMonth0L tz ms + 1) ++
    '-' :: padZ 2 (getDateL tz ms)⟩

/-- `dateKeyUTC` of `src/app/page.tsx`, using UTC calendar fields. -/
def dateKeyUTC (ms : Int) : String :=
  ⟨intStr (getUTCFullYear ms) ++ '-' :: padZ 2 (getUTCMonth0 ms + 1) ++
    '-' :: padZ 2 (getUTCDate ms)⟩

/-- `Date.prototype.toISOString`: `YYYY-MM-DDTHH:MM:SS.mmmZ`, with the
expanded `±YYYYYY` year form outside 0..9999. -/
def toISOStringM (ms : Int) : List Char :=
  let y := getUTCFullYear ms
  let yearStr :=
    if 0 ≤ y ∧ y ≤ 9999 then padZ 4 y
    else (if y < 0 then '-' :: padZ 6 (-y) else '+' :: padZ 6 y)
  yearStr ++ '-' :: padZ 2 (getUTCMonth0 ms + 1) ++ '-' :: padZ 2 (getUTCDate ms) ++
    'T' :: padZ 2 (getUTCHours ms) ++ ':' :: padZ 2 (getUTCMinutes ms) ++
    ':' :: padZ 2 (getUTCSeconds ms) ++ '.' :: padZ 3 (getUTCMillis ms) ++ ['Z']

/-- Replace the first occurrence of a character (JavaScript
`replace("T", " ")` with a plain-string pattern). -/
def replFirstChar (a b : Char) : List Char → List Char
  | [] => []
  | c :: t => if c = a then b :: t else c :: replFirstChar a b t

/-- `date.toISOString().slice(0, 19).replace("T", " ")` — the storage
timestamp rendering of `parseDateToMySQL`. -/
def mysqlFromMs (ms : Int) : String :=
  ⟨replFirstChar 'T' ' ' ((toISOStringM ms).take 19)⟩

/-! ## `new Date(string)`: the ECMA-262 Date Time String Format -/
/-- Exactly `n` decimal digits, returning their value and the rest. -/
def takeDigits (n : Nat) (acc : Nat) (l : List Char) : Option (Nat × List Char) :=
  match n, l with
  | 0, l => some (acc, l)
  | _ + 1, [] => none
  | n + 1, c :: t => if isDigitC c then takeDigits n (acc * 10 + digVal c) t else none

/-- Time-of-day and offset part after the `T`, as milliseconds-within-day
adjusted by the offset; `none` when the text is not a valid ECMA time part.
The result is `(msWithinDay, offsetKind)` with `offsetKind` `none` for a
local time, `some o` for an explicit offset of `o` minutes (0 for `Z`). -/
def isoTimePart (l : List Char) : Option (Int × Option Int) :=
  match takeDigits 2 0 l with
  | none => none
  | some (h, r1) =>
    match r1 with
    | ':' :: r2 =>
      match takeDigits 2 0 r2 with
      | none => none
      | some (mi, r3) =>
        let withSec : Option (Nat × Nat × List Char) :=
          match r3 with
          | ':' :: r4 =>
            match takeDigits 2 0 r4 with
            | none => none
            | some (ss, r5) =>
              match r5 with
              | '.' :: r6 =>
                let ds := r6.takeWhile isDigitC
                if ds.length = 0 then none
                else
                  let ms3 := (ds.take 3 ++ List.replicate (3 - ds.length) '0').foldl
                    (fun a c => a * 10 + digVal c) 0
                  some (ss, ms3, r6.dropWhile isDigitC)
              | _ => some (ss, 0, r5)
          | _ => some (0, 0, r3)
        match withSec with
        | none => none
        | some (ss, ms3, r7) =>
          if h ≤ 23 ∧ mi ≤ 59 ∧ ss ≤ 59 then
            let t : Int := (h : Int) * 3600000 + (mi : Int) * 60000 +
              (ss : Int) * 1000 + (ms3 : Int)
            match r7 with
            | [] => some (t, none)
            | ['Z'] => some (t, some 0)
            | sgn :: r8 =>
              if sgn = '+' ∨ sgn = '-' then
                match takeDigits 2 0 r8 with
                | none => none
                | some (oh, r9) =>
                  match r9 with
                  | ':' :: r10 =>
                    match takeDigits 2 0 r10 with
                    | some (om, []) =>
                      if oh ≤ 23 ∧ om ≤ 59 then
                        let o : Int := (oh : Int) * 60 + (om : Int)
                        some (t, some (if sgn = '-' then -o else o))
                      else none
                    | _ => none
                  | _ => none
              else none
          else none
    | _ => none

/-- Assemble a time value from civil date, time-of-day and offset kind; the
ECMA time-value range check rejects instants beyond ±8.64e15 ms. -/
def isoFinish (tz y m d : Int) (time : Int × Option Int) : Option Int :=
  let v : Int := daysFromCivil y m d * msPerDay + time.1 -
    (match time.2 with
     | some o => o * 60000
     | none => tz * 60000)
  if -8640000000000000 ≤ v ∧ v ≤ 8640000000000000 then some v else none

/-- Date-only forms denote midnight UTC. -/
def isoDateOnly (y m d : Int) : Option Int :=
  let v : Int := daysFromCivil y m d * msPerDay
  if -8640000000000000 ≤ v ∧ v ≤ 8640000000000000 then some v else none

/-- Continuation after the year: `[-MM[-DD]][THH:MM[:SS[.fff]][Z|±hh:mm]]`. -/
def isoAfterYear (tz y : Int) (l : List Char) : Option Int :=
  match l with
  | [] => isoDateOnly y 1 1
  | 'T' :: t => (isoTimePart t).bind (isoFinish tz y 1 1)
  | '-' :: t =>
    match takeDigits 2 0 t with
    | none => none
    | some (m, r) =>
      if 1 ≤ m ∧ m ≤ 12 then
        match r with
        | [] => isoDateOnly y (m : Int) 1
        | 'T' :: t2 => (isoTimePart t2).bind (isoFinish tz y (m : Int) 1)
        | '-' :: t2 =>
          match takeDigits 2 0 t2 with
          | none => none
          | some (d, r2) =>
            if 1 ≤ d ∧ (d : Int) ≤ daysInMonth y (m : Int) then
              match r2 with
              | [] => isoDateOnly y (m : Int) (d : Int)
              | 'T' :: t3 => (isoTimePart t3).bind (isoFinish tz y (m : Int) (d : Int))
              | _ => none
            else none
        | _ => none
      else none
  | _ => none

/-- `new Date(string)` on the ECMA-262 Date Time String Format; other
strings are implementation-defined and modelled as failures (see header). -/
def jsNativeParse (tz : Int) (l : List Char) : Option Int :=
  match l with
  | '+' :: t =>
    match takeDigits 6 0 t with
    | none => none
    | some (y, r) => isoAfterYear tz (y : Int) r
  | '-' :: t =>
    match takeDigits 6 0 t with
    | none => none
    | some (y, r) => if y = 0 then none else isoAfterYear tz (-(y : Int)) r
  | _ =>
    match takeDigits 4 0 l with
    | none => none
    | some (y, r) => isoAfterYear tz (y : Int) r

/-! ## `isIsoUTC` (src/app/page.tsx line 148):
`typeof s === "string" && /\d{4}-\d{2}-\d{2}T\d{2}:\d{2}:\d{2}(?:\.\d+)?Z$/.test(s.trim())` -/
/-- The digit shape `\d{4}-\d{2}-\d{2}T\d{2}:\d{2}:\d{2}(?:\.\d+)?Z`,
required to reach the end of the input (the regex is `$`-anchored on the
right but not anchored on the left). -/
def isoZShapeAt (l : List Char) : Bool :=
  match l with
  | a :: b :: c :: d :: '-' :: e :: f :: '-' :: g :: h :: 'T' ::
      i :: j :: ':' :: k :: m :: ':' :: n :: o :: rest =>
    isDigitC a && isDigitC b && isDigitC c && isDigitC d && isDigitC e &&
    isDigitC f && isDigitC g && isDigitC h && isDigitC i && isDigitC j &&
    isDigitC k && isDigitC m && isDigitC n && isDigitC o &&
    (match rest with
     | ['Z'] => true
     | '.' :: r =>
       let ds := r.takeWhile isDigitC
       decide (ds.length ≥ 1) && (r.dropWhile isDigitC = ['Z'])
     | _ => false)
  | _ => false

/-- Search for the shape at every start position (leftmost-first, as
`RegExp.prototype.test` does). -/
def isoZSearch : Nat → List Char → Bool
  | 0, _ => false
  | fuel + 1, l =>
    isoZShapeAt l ||
      (match l with
       | [] => false
       | _ :: t => isoZSearch fuel t)

/-- `isIsoUTC` of `src/app/page.tsx`; `none` models a non-string input. -/
def isIsoUTC (o : Option String) : Bool :=
  match o with
  | none => false
  | some s =>
    let t := jsTrimL s.data
    isoZSearch (t.length + 1) t

/-! ## The cleanup replacements shared by both parsers -/
/-- One of the ordinal suffixes `st|nd|rd|th`, case-insensitively. -/
def isOrdSuffix (a b : Char) : Bool :=
  (asciiLower a = 's' && asciiLower b = 't') ||
  (asciiLower a = 'n' && asciiLower b = 'd') ||
  (asciiLower a = 'r' && asciiLower b = 'd') ||
  (asciiLower a = 't' && asciiLower b = 'h')

/-- `replace(/(\d+)(st|nd|rd|th)/gi, "$1")`: every maximal digit run
immediately followed by an ordinal suffix keeps the digits and loses the
suffix; scanning is left-to-right and non-overlapping.  (A start inside a
digit run can never match, because the greedy `\d+` would end at the same
place, so skipping whole runs is faithful.) -/
def ordStrip : Nat → List Char → List Char
  | 0, l => l
  | _ + 1, [] => []
  | fuel + 1, c :: t =>
    if isDigitC c then
      let ds := (c :: t).takeWhile isDigitC
      let rest := (c :: t).dropWhile isDigitC
      match rest with
      | a :: b :: r =>
        if isOrdSuffix a b then ds ++ ordStrip fuel r else ds ++ ordStrip fuel rest
      | _ => ds ++ ordStrip fuel rest
    else c :: ordStrip fuel t

/-- `replace(/from IP.*$/i, "")`: delete from the leftmost occurrence of
`from IP` (case-insensitive) to the end of the string, provided no newline
follows it (`.` does not match `\n` and `$` is the end of input). -/
def fipStrip : Nat → List Char → List Char
  | 0, l => l
  | _ + 1, [] => []
  | fuel + 1, c :: t =>
    if ciLeads "from ip".data (c :: t) && ((c :: t).drop 7).all (· ≠ '\n') then []
    else c :: fipStrip fuel t

/-- `replace(/Updated|Created/gi, "")`: delete every case-insensitive
occurrence of `Updated` or `Created`, left-to-right, non-overlapping. -/
def ucStrip : Nat → List Char → List Char
  | 0, l => l
  | _ + 1, [] => []
  | fuel + 1, c :: t =>
    if ciLeads "updated".data (c :: t) || ciLeads "created".data (c :: t) then
      ucStrip fuel ((c :: t).drop 7)
    else c :: ucStrip fuel t

/-- `replace(/\s+GMT[+\-]\d{2,4}$/i, "")`: strip a trailing
whitespace + `GMT` + sign + 2–4 digits annotation.  The `$` anchor forces
the digits to end the string; a digit run longer than 4 (or shorter than 2)
at the end cannot match, since `\d{2,4}` backtracking still leaves a digit
(or too few) before the sign position. -/
def gmtStrip (l : List Char) : List Char :=
  let rev := l.reverse
  let ds := rev.takeWhile isDigitC
  if 2 ≤ ds.length ∧ ds.length ≤ 4 then
    match rev.drop ds.length with
    | sgn :: g1 :: g2 :: g3 :: r =>
      if (sgn = '+' ∨ sgn = '-') ∧
          asciiLower g1 = 't' ∧ asciiLower g2 = 'm' ∧ asciiLower g3 = 'g' ∧
          (r.takeWhile isWsC).length ≥ 1 then
        (r.dropWhile isWsC).reverse
      else l
    | _ => l
  else l

/-- The display-path cleanup of `parseDate` (src/app/page.tsx lines 58-63):
ordinals, `from IP` tail, `Updated|Created`, trailing GMT offset, trim. -/
def displayClean (l : List Char) : List Char :=
  jsTrimL (gmtStrip (ucStrip (l.length + 1)
    (fipStrip (l.length + 1) (ordStrip (l.length + 1) l))))

/-- The storage-path cleanup of `parseDateToMySQL` (route.js lines 19-23):
ordinals, `from IP` tail, `Updated|Created`, trim — no GMT rule. -/
def routeClean (l : List Char) : List Char :=
  jsTrimL (ucStrip (l.length + 1)
    (fipStrip (l.length + 1) (ordStrip (l.length + 1) l)))

/-! ## Regex atoms as ordered candidate lists

A regex with backtracking is compiled to nested `List.findSome?` over
candidate lists; the order of each list is the order in which the JavaScript
engine tries the alternatives (greedy quantifiers: longest first; lazy:
shortest first; `?`: with the atom first). -/
/-- `[A-Za-z]{3,9}` — greedy candidates: the longest alphabetic prefix,
capped at 9, down to 3 characters. -/
def alphaRun39 (l : List Char) : List (List Char × List Char) :=
  let n := min (l.takeWhile isAlphaC).length 9
  (List.range' 3 (n - 2)).reverse.map (fun k => (l.take k, l.drop k))

/-- `X?` for a single character — greedy: consume it if present, else skip. -/
def optCharSplits (x : Char) (l : List Char) : List (List Char) :=
  match l with
  | c :: t => if c = x then [t, l] else [l]
  | [] => [l]

/-- `\s+` — greedy candidates over the whitespace run, longest first. -/
def wsPlus (l : List Char) : List (List Char) :=
  let n := (l.takeWhile isWsC).length
  (List.range' 1 n).reverse.map (fun k => l.drop k)

/-- `\s*` — greedy candidates, longest first down to zero. -/
def wsStar (l : List Char) : List (List Char) :=
  let n := (l.takeWhile isWsC).length
  (List.range (n + 1)).reverse.map (fun k => l.drop k)

/-- `(\d{1,2})` — greedy: two digits if available, then one. -/
def digits12 (l : List Char) : List (Nat × List Char) :=
  match l with
  | c1 :: c2 :: r =>
    if isDigitC c1 then
      if isDigitC c2 then [(digVal c1 * 10 + digVal c2, r), (digVal c1, c2 :: r)]
      else [(digVal c1, c2 :: r)]
    else []
  | [c1] => if isDigitC c1 then [(digVal c1, [])] else []
  | [] => []

/-- `(\d{4})?` — greedy: the four-digit branch first, then the empty one. -/
def digits4Opt (l : List Char) : List (Option Nat × List Char) :=
  match takeDigits 4 0 l with
  | some (v, r) => [(some v, r), (none, l)]
  | none => [(none, l)]

/-- `[,\s]*?` — lazy: shortest first over the run of commas/whitespace. -/
def lazySep (l : List Char) : List (List Char) :=
  let n := (l.takeWhile (fun c => c = ',' || isWsC c)).length
  (List.range (n + 1)).map (fun k => l.drop k)

/-- `(?::(\d{2}))?` — greedy: the seconds branch first, then skip. -/
def secOpt (l : List Char) : List (Option Nat × List Char) :=
  match l with
  | ':' :: t =>
    match takeDigits 2 0 t with
    | some (v, r) => [(some v, r), (none, l)]
    | none => [(none, l)]
  | _ => [(none, l)]

/-- `(AM|PM)?` case-insensitive — `AM` first, then `PM`, then skip; the
captured value is whether the marker is `PM`. -/
def ampmOpt (l : List Char) : List (Option Bool × List Char) :=
  match l with
  | a :: b :: r =>
    if asciiLower a = 'a' && asciiLower b = 'm' then [(some false, r), (none, l)]
    else if asciiLower a = 'p' && asciiLower b = 'm' then [(some true, r), (none, l)]
    else [(none, l)]
  | _ => [(none, l)]

/-- Try a match attempt at every start position, leftmost first. -/
def searchFrom {α : Type} (f : List Char → Option α) : Nat → List Char → Option α
  | 0, _ => none
  | fuel + 1, l =>
    match f l with
    | some r => some r
    | none =>
      match l with
      | [] => none
      | _ :: t => searchFrom f fuel t

/-! ## The month-name matchers of `parseDate` -/
/-- Captures of the `monthTime` regex (src/app/page.tsx lines 89-91). -/
structure MTCap where
  name : List Char
  day : Nat
  yr : Option Nat
  h : Nat
  mi : Nat
  se : Option Nat
  pm : Option Bool
  deriving DecidableEq

/-- Attempt at one position of
`([A-Za-z]{3,9})\.?\s+(\d{1,2}),?\s*(\d{4})?[,\s]*?(\d{1,2}):(\d{2})(?::(\d{2}))?\s*(AM|PM)?`
(case-insensitive). -/
def mtAt (l : List Char) : Option MTCap :=
  (alphaRun39 l).findSome? fun (name, r1) =>
  (optCharSplits '.' r1).findSome? fun r2 =>
  (wsPlus r2).findSome? fun r3 =>
  (digits12 r3).findSome? fun (day, r4) =>
  (optCharSplits ',' r4).findSome? fun r5 =>
  (wsStar r5).findSome? fun r6 =>
  (digits4Opt r6).findSome? fun (yr, r7) =>
  (lazySep r7).findSome? fun r8 =>
  (digits12 r8).findSome? fun (h, r9) =>
  match r9 with
  | ':' :: r10 =>
    match takeDigits 2 0 r10 with
    | none => none
    | some (mi, r11) =>
      (secOpt r11).findSome? fun (se, r12) =>
      (wsStar r12).findSome? fun r13 =>
      (ampmOpt r13).findSome? fun (pm, _) =>
      some ⟨name, day, yr, h, mi, se, pm⟩
  | _ => none

def mtSearch (l : List Char) : Option MTCap := searchFrom mtAt (l.length + 1) l

/-- Captures of the `monthOnly` regex (src/app/page.tsx line 114). -/
structure MOCap where
  name : List Char
  day : Nat
  yr : Option Nat
  deriving DecidableEq

/-- Attempt at one position of `([A-Za-z]{3,9})\.?\s+(\d{1,2}),?\s*(\d{4})?`
(case-insensitive). -/
def moAt (l : List Char) : Option MOCap :=
  (alphaRun39 l).findSome? fun (name, r1) =>
  (optCharSplits '.' r1).findSome? fun r2 =>
  (wsPlus r2).findSome? fun r3 =>
  (digits12 r3).findSome? fun (day, r4) =>
  (optCharSplits ',' r4).findSome? fun r5 =>
  (wsStar r5).findSome? fun r6 =>
  (digits4Opt r6).findSome? fun (yr, _) =>
  some ⟨name, day, yr⟩

def moSearch (l : List Char) : Option MOCap := searchFrom moAt (l.length + 1) l

/-- Attempt at one position of `(\d{4})[-\/](\d{1,2})[-\/](\d{1,2})`
(src/app/page.tsx line 126). -/
def ymdAt (l : List Char) : Option (Nat × Nat × Nat) :=
  match takeDigits 4 0 l with
  | none => none
  | some (y, r1) =>
    match r1 with
    | s1 :: r2 =>
      if s1 = '-' ∨ s1 = '/' then
        (digits12 r2).findSome? fun (m, r3) =>
        match r3 with
        | s2 :: r4 =>
          if s2 = '-' ∨ s2 = '/' then
            (digits12 r4).findSome? fun (d, _) => some (y, m, d)
          else none
        | [] => none
      else none
    | [] => none

def ymdSearch (l : List Char) : Option (Nat × Nat × Nat) :=
  searchFrom ymdAt (l.length + 1) l

/-- Attempt at one position of `(\d{1,2})[\/\-](\d{1,2})[\/\-](\d{4})`
(src/app/page.tsx line 133). -/
def mdyAt (l : List Char) : Option (Nat × Nat × Nat) :=
  (digits12 l).findSome? fun (m, r1) =>
  match r1 with
  | s1 :: r2 =>
    if s1 = '/' ∨ s1 = '-' then
      (digits12 r2).findSome? fun (d, r3) =>
      match r3 with
      | s2 :: r4 =>
        if s2 = '/' ∨ s2 = '-' then
          match takeDigits 4 0 r4 with
          | some (y, _) => some (m, d, y)
          | none => none
        else none
      | [] => none
    else none
  | [] => none

def mdySearch (l : List Char) : Option (Nat × Nat × Nat) :=
  searchFrom mdyAt (l.length + 1) l

/-- Value of a digit string under left-to-right accumulation, as
`Number(...)` reads the captured digits. -/
def valAcc (a : Nat) (l : List Char) : Nat :=
  l.foldl (fun acc c => acc * 10 + digVal c) a

/-- Modelled from the spec: the optional `[, <year>]` segment of the claimed
input shape (comma optional, as in the spec examples). -/
def yrPart : Option (Bool × List Char) → List Char
  | some (cma, yD) => (if cma then [','] else []) ++ ' ' :: yD
  | none => []

/-- Modelled from the spec: the optional `[:<SS>]` seconds segment. -/
def ssPart : Option (List Char) → List Char
  | some sD => ':' :: sD
  | none => []

/-- Modelled from the spec: the optional ` AM`/` PM` marker segment. -/
def apPart : Option Bool → List Char
  | some pm => [' ', (if pm then 'P' else 'A'), 'M']
  | none => []

/-- Modelled from the spec: the claimed input shape
`<Month> <day>[, <year>][,] <H>:<MM>[:<SS>] [AM|PM]` of C7, with explicit
option parameters for each bracketed part. -/
def mtForm (mn dayD : List Char) (yr : Option (Bool × List Char)) (cT : Bool)
    (hD miD : List Char) (seD : Option (List Char)) (ap : Option Bool) : List Char :=
  mn ++ ' ' :: dayD ++ yrPart yr ++
    (if cT then [','] else []) ++ ' ' :: hD ++ ':' :: miD ++ ssPart seD ++ apPart ap

/-! ## `parseDate` (src/app/page.tsx lines 53-141) -/
/-- The English month-name/abbreviation lookup table (0-based indices),
exactly the keys of `monthMap` in the source. -/
def monthTable : List (List Char × Nat) :=
  [("jan".data, 0), ("january".data, 0),
   ("feb".data, 1), ("february".data, 1),
   ("mar".data, 2), ("march".data, 2),
   ("apr".data, 3), ("april".data, 3),
   ("may".data, 4),
   ("jun".data, 5), ("june".data, 5),
   ("jul".data, 6), ("july".data, 6),
   ("aug".data, 7), ("august".data, 7),
   ("sep".data, 8), ("sept".data, 8), ("september".data, 8),
   ("oct".data, 9), ("october".data, 9),
   ("nov".data, 10), ("november".data, 10),
   ("dec".data, 11), ("december".data, 11)]

/-- `monthMap[name.toLowerCase()]`. -/
def monthIdx (name : List Char) : Option Nat :=
  (monthTable.find? (fun p => p.1 = lowerL name)).map (·.2)

/-- The sanity bound `saneYear` of `parseDate`: the (local) calendar year
must lie in `[2000, nowYear + 2]`. -/
def saneYear (nowYear y : Int) : Bool := decide (2000 ≤ y ∧ y ≤ nowYear + 2)

/-- Keep a candidate date only when defined and `saneYear` holds for its
local calendar year — the guard applied at every return of `parseDate`. -/
def guardSane (nowYear tz : Int) : Option Int → Option Int
  | some x => if saneYear nowYear (getFullYearL tz x) then some x else none
  | none => none

/-- The 12-hour to 24-hour adjustment of strategy 2: with a `PM` marker an
hour below 12 gains 12; with `AM`, hour 12 becomes 0. -/
def hour24 (h : Nat) (pm : Option Bool) : Nat :=
  match pm with
  | none => h
  | some true => if h < 12 then h + 12 else h
  | some false => if h = 12 then 0 else h

/-- Strategy 2: month name with time (constructs
`new Date(year, mi, day, hour, minute, second)`); fails when the regex does
not match or the name is not in the table. -/
def mtStep (nowYear tz : Int) (cleaned : List Char) : Option Int :=
  match mtSearch cleaned with
  | none => none
  | some f =>
    match monthIdx f.name with
    | none => none
    | some mi =>
      let year : Int := match f.yr with | some y => (y : Int) | none => nowYear
      some (mkDateLocal tz year (mi : Int) (f.day : Int)
        (hour24 f.h f.pm : Int) (f.mi : Int) ((f.se.getD 0 : Nat) : Int))

/-- Strategy 3: month name without time (`new Date(year, mi, day)`). -/
def moStep (nowYear tz : Int) (cleaned : List Char) : Option Int :=
  match moSearch cleaned with
  | none => none
  | some f =>
    match monthIdx f.name with
    | none => none
    | some mi =>
      let year : Int := match f.yr with | some y => (y : Int) | none => nowYear
      some (mkDateLocal tz year (mi : Int) (f.day : Int) 0 0 0)

/-- Strategy 4: `YYYY-MM-DD` / `YYYY/MM/DD` (`new Date(y, m - 1, d)`). -/
def ymdStep (tz : Int) (cleaned : List Char) : Option Int :=
  match ymdSearch cleaned with
  | none => none
  | some (y, m, d) => some (mkDateLocal tz (y : Int) ((m : Int) - 1) (d : Int) 0 0 0)

/-- Strategy 5: `MM/DD/YYYY` (`new Date(y, m - 1, d)`). -/
def mdyStep (tz : Int) (cleaned : List Char) : Option Int :=
  match mdySearch cleaned with
  | none => none
  | some (m, d, y) => some (mkDateLocal tz (y : Int) ((m : Int) - 1) (d : Int) 0 0 0)

/-- The strategy chain on an already-cleaned string: native parse, month
name + time, month name, year-first numeric, month-first numeric; each
result is accepted only under `guardSane`. -/
def parseCleaned (nowYear tz : Int) (cleaned : List Char) : Option Int :=
  match guardSane nowYear tz (jsNativeParse tz cleaned) with
  | some d => some d
  | none =>
    match guardSane nowYear tz (mtStep nowYear tz cleaned) with
    | some d => some d
    | none =>
      match guardSane nowYear tz (moStep nowYear tz cleaned) with
      | some d => some d
      | none =>
        match guardSane nowYear tz (ymdStep tz cleaned) with
        | some d => some d
        | none =>
          match guardSane nowYear tz (mdyStep tz cleaned) with
          | some d => some d
          | none => none

/-- `parseDate` of `src/app/page.tsx`: falsy input (absent or empty) gives
`null`; otherwise trim, clean up, and run the strategy chain.  `nowYear`
is the `new Date().getFullYear()` reading taken inside the call. -/
def parseDate (nowYear tz : Int) : Option String → Option Int
  | none => none
  | some s =>
    if s = "" then none
    else parseCleaned nowYear tz (displayClean (jsTrimL s.data))

/-! ## `parseDateToMySQL` (src/app/api/tickets/route.js lines 15-48) -/
/-- Captures of the route regex
`([A-Za-z]{3,9})\s+(\d{1,2}),?\s*(\d{4})?\s*(\d{1,2}:\d{2}(:\d{2})?\s*(AM|PM)?)`:
groups 2–4 are re-used as *text*, so the matched character runs are kept. -/
structure RouteCap where
  name : List Char
  dayTxt : List Char
  yrTxt : Option (List Char)
  timeTxt : List Char
  deriving DecidableEq

/-- Attempt at one position of the route regex (case-insensitive).  Group 4
is the literal text of the time part, including any whitespace consumed by
its inner `\s*` when an `AM|PM` marker follows or the match ends there. -/
def routeAt (l : List Char) : Option RouteCap :=
  (alphaRun39 l).findSome? fun (name, r1) =>
  (wsPlus r1).findSome? fun r2 =>
  (digits12 r2).findSome? fun (_, r3) =>
  (optCharSplits ',' r3).findSome? fun r4 =>
  (wsStar r4).findSome? fun r5 =>
  (digits4Opt r5).findSome? fun (yr, r6) =>
  (wsStar r6).findSome? fun r7 =>
  (digits12 r7).findSome? fun (_, r8) =>
  match r8 with
  | ':' :: r9 =>
    match takeDigits 2 0 r9 with
    | none => none
    | some (_, r10) =>
      (secOpt r10).findSome? fun (_, r11) =>
      (wsStar r11).findSome? fun r12 =>
      (ampmOpt r12).findSome? fun (_, r13) =>
      -- group texts: day = what `(\d{1,2})` consumed, year = the four
      -- digits, time = from the start of the hour digits to the match end
      some ⟨name, r2.take (r2.length - r3.length),
        (match yr with | some _ => some (r5.take 4) | none => none),
        r7.take (r7.length - r13.length)⟩
  | _ => none

def routeSearch (l : List Char) : Option RouteCap := searchFrom routeAt (l.length + 1) l

/-- The engine's legacy (non-ISO) string parser, modelled only for the
strings `parseDateToMySQL` constructs: `Name day[,] year H:MM[:SS][ AM|PM]`
with flexible spacing.  An unknown month word, an invalid day for the
month, or an out-of-range clock field gives an invalid date; years 0..99
are read as 1900..1999; a `PM` marker adds 12 to hours below 12 and `AM`
maps hour 12 to 0, while markers inconsistent with a 24-hour value are
ignored, matching the engine on these shapes. -/
def legacyParse (tz : Int) (l : List Char) : Option Int :=
  let l0 := l.dropWhile isWsC
  let name := l0.takeWhile isAlphaC
  match monthIdx name with
  | none => none
  | some mi =>
    let r1 := (l0.dropWhile isAlphaC).dropWhile isWsC
    let dayDs := r1.takeWhile isDigitC
    if dayDs.length = 0 then none
    else
      let day := dayDs.foldl (fun a c => a * 10 + digVal c) 0
      let r2 := r1.dropWhile isDigitC
      let r3 := (match r2 with | ',' :: t => t | _ => r2).dropWhile isWsC
      let yrDs := r3.takeWhile isDigitC
      if yrDs.length = 0 then none
      else
        let yr := yrDs.foldl (fun a c => a * 10 + digVal c) 0
        let y : Int := if yr ≤ 99 then (yr : Int) + 1900 else (yr : Int)
        let r4 := (r3.dropWhile isDigitC).dropWhile isWsC
        let hDs := r4.takeWhile isDigitC
        if hDs.length = 0 then none
        else
          let h := hDs.foldl (fun a c => a * 10 + digVal c) 0
          match r4.dropWhile isDigitC with
          | ':' :: r5 =>
            let mDs := r5.takeWhile isDigitC
            if mDs.length = 0 then none
            else
              let mnt := mDs.foldl (fun a c => a * 10 + digVal c) 0
              let r6 := r5.dropWhile isDigitC
              let (ss, r7) :=
                match r6 with
                | ':' :: t =>
                  let sDs := t.takeWhile isDigitC
                  (sDs.foldl (fun a c => a * 10 + digVal c) 0, t.dropWhile isDigitC)
                | _ => (0, r6)
              let r8 := r7.dropWhile isWsC
              let (pm, r9) : Option Bool × List Char :=
                match r8 with
                | a :: b :: r =>
                  if asciiLower a = 'a' && asciiLower b = 'm' then (some false, r)
                  else if asciiLower a = 'p' && asciiLower b = 'm' then (some true, r)
                  else (none, r8)
                | _ => (none, r8)
              if r9.dropWhile isWsC = [] ∧ h ≤ 23 ∧ mnt ≤ 59 ∧ ss ≤ 59 ∧
                  1 ≤ day ∧ (day : Int) ≤ daysInMonth y ((mi : Int) + 1) then
                some (msOfLocalCivil tz y (mi : Int) (day : Int)
                  (hour24 h pm : Int) (mnt : Int) (ss : Int))
              else none
          | _ => none

/-- The time value produced by `parseDateToMySQL` before formatting:
falsy input gives the current instant `now`; otherwise the cleanup, the
native parse, the month-name regex rebuilt into
`` `${m1} ${m2}, ${m3 || currentYear} ${m4}` `` and re-parsed, and the
final fallback to `now`. -/
def parseDateToMySQLms (now tz : Int) : Option String → Int
  | none => now
  | some s =>
    if s = "" then now
    else
      let cleaned := routeClean s.data
      match jsNativeParse tz cleaned with
      | some d => d
      | none =>
        match routeSearch cleaned with
        | none => now
        | some f =>
          let normalized := f.name ++ ' ' :: f.dayTxt ++ ',' :: ' ' ::
            (match f.yrTxt with
             | some y => y
             | none => intStr (getFullYearL tz now)) ++ ' ' :: f.timeTxt
          match legacyParse tz normalized with
          | some d => d
          | none => now

/-- `parseDateToMySQL` of route.js: the parsed (or fallback) instant
rendered as `toISOString().slice(0, 19).replace("T", " ")`. -/
def parseDateToMySQL (now tz : Int) (ds : Option String) : String :=
  mysqlFromMs (parseDateToMySQLms now tz ds)

/-! ## The aggregator (src/app/page.tsx) -/
/-- A ticket record, reduced to the fields the aggregations read. -/
structure Ticket where
  updated_at : Option String
  created_at : Option String
  brand : Option String
  deriving DecidableEq

/-- `t.updated_at ?? t.created_at` (nullish coalescing: an empty string is
not nullish, so it is kept). -/
def selRaw (t : Ticket) : Option String :=
  match t.updated_at with
  | some v => some v
  | none => t.created_at

/-- Insertion-ordered counting map, as a JavaScript object literal used as
`counts[key] = (counts[key] || 0) + 1` builds one (string keys that are not
array indices enumerate in insertion order). -/
def bump (acc : List (String × Nat)) (k : String) : List (String × Nat) :=
  match acc with
  | [] => [(k, 1)]
  | (k0, c) :: r => if k0 = k then (k0, c + 1) :: r else (k0, c) :: bump r k

def foldCounts (ks : List String) : List (String × Nat) := ks.foldl bump []

/-- `counts[k] || 0`. -/
def lookupCnt : List (String × Nat) → String → Nat
  | [], _ => 0
  | p :: r, k => if p.1 = k then p.2 else lookupCnt r k

/-- Lexicographic comparison of code points — the effect of
`a.localeCompare(b)`-based sorting on the fixed-shape `YYYY-MM-DD` keys. -/
def lexLe : List Char → List Char → Bool
  | [], _ => true
  | _ :: _, [] => false
  | a :: as2, b :: bs =>
    if a.toNat < b.toNat then true
    else if b.toNat < a.toNat then false
    else lexLe as2 bs

def strLe (a b : String) : Bool := lexLe a.data b.data

/-- Insertion sort by a boolean `le`; with a total transitive `le` this is
the result of `Array.prototype.sort`. -/
def insertLe {α : Type} (le : α → α → Bool) (x : α) : List α → List α
  | [] => [x]
  | y :: r => if le x y then x :: y :: r else y :: insertLe le x r

def sortLe {α : Type} (le : α → α → Bool) : List α → List α
  | [] => []
  | x :: r => insertLe le x (sortLe le r)

/-- The day keys the bucketing loop accumulates: the *local* `dateKey` of
the parsed selected date of each record, records parsing to `Unknown`
skipped (the early `return` of the `forEach`). -/
def dayKeysOf (nowYear tz : Int) (ts : List Ticket) : List String :=
  ts.filterMap (fun t => (parseDate nowYear tz (selRaw t)).map (dateKey tz))

/-- `ticketsPerDay` (src/app/page.tsx lines 278-294): count records per
*local* `dateKey` of the parsed selected date, skipping unparseable ones,
then emit the keys in ascending order with their counts.  (The display
label derived with `toLocaleDateString` is presentation-only and omitted.) -/
def ticketsPerDay (nowYear tz : Int) (ts : List Ticket) : List (String × Nat) :=
  let counts := foldCounts (dayKeysOf nowYear tz ts)
  (sortLe strLe (counts.map (·.1))).map (fun k => (k, lookupCnt counts k))

/-- Occurrence count of a string in a list. -/
def countS (k : String) : List String → Nat
  | [] => 0
  | x :: r => (if x = k then 1 else 0) + countS k r

/-- `ticketsToday` (src/app/page.tsx lines 203-215).  `tMount` is the
`todayDate` anchor memoized when the component mounted; `tFresh` is the
`new Date()` read inside the filter; `nowYear` is the reading
`parseDate` takes internally. -/
def ticketsToday (nowYear tz tMount tFresh : Int) (ts : List Ticket) : Nat :=
  (ts.filter fun t =>
    let raw := selRaw t
    match parseDate nowYear tz raw with
    | none => false
    | some d =>
      let isU := isIsoUTC raw
      let itemKey := if isU then dateKeyUTC d else dateKey tz d
      let todayKey := if isU then dateKeyUTC tFresh else dateKey tz tMount
      itemKey == todayKey).length

/-- `yesterdayDate` (src/app/page.tsx lines 198-201):
`new Date(today.getFullYear(), today.getMonth(), today.getDate() - 1)`. -/
def yesterdayAnchor (tz tMount : Int) : Int :=
  mkDateLocal tz (getFullYearL tz tMount) (getMonth0L tz tMount)
    (getDateL tz tMount - 1) 0 0 0

/-- `ticketsYesterday` (src/app/page.tsx lines 216-229).  `tNow` is the
`Date.now()` reading used for `yRef = new Date(Date.now() - 86400000)`. -/
def ticketsYesterday (nowYear tz tMount tNow : Int) (ts : List Ticket) : Nat :=
  (ts.filter fun t =>
    let raw := selRaw t
    match parseDate nowYear tz raw with
    | none => false
    | some d =>
      let isU := isIsoUTC raw
      let itemKey := if isU then dateKeyUTC d else dateKey tz d
      let yesterdayKey :=
        if isU then dateKeyUTC (tNow - 24 * 60 * 60 * 1000)
        else dateKey tz (yesterdayAnchor tz tMount)
      itemKey == yesterdayKey).length

/-! ## `normalizeBrand` (src/app/page.tsx lines 181-190) -/
/-- Separator class of the split regex `[\s.]+`. -/
def sepC (c : Char) : Bool := isWsC c || c = '.'

/-- JavaScript `String.prototype.split` on the regex `[\s.]+`: the empty
string yields `[""]`; maximal separator runs split, with empty leading /
trailing fields when the string starts / ends with separators. -/
def splitToks : Nat → List Char → List (List Char)
  | 0, _ => [[]]
  | fuel + 1, l =>
    if l.isEmpty then [[]]
    else
      let tok := l.takeWhile (fun c => !sepC c)
      let rest := l.dropWhile (fun c => !sepC c)
      if rest.isEmpty then [tok]
      else tok :: splitToks fuel (rest.dropWhile sepC)

/-- Token with no separator characters. -/
def sepFree (t : List Char) : Bool := t.all (fun c => !sepC c)

/-- Every entry of the list except the last is non-empty (the shape of a
`split` result past its first field). -/
def neButLast : List (List Char) → Bool
  | [] => true
  | [_] => true
  | t :: r => !t.isEmpty && neButLast r

/-- `(w) => w.charAt(0).toUpperCase() + w.slice(1).toLowerCase()`. -/
def capTok (w : List Char) : List Char :=
  match w with
  | [] => []
  | c :: t => asciiUpper c :: t.map asciiLower

/-- `join(".")`. -/
def joinDots : List (List Char) → List Char
  | [] => []
  | [t] => t
  | t :: r => t ++ '.' :: joinDots r

def isWordC (c : Char) : Bool := isAlphaC c || isDigitC c || c = '_'

/-- `replace(/\.Xxx\b/i, rep)` for a pattern ending in a word character:
replace the leftmost case-insensitive occurrence of `pat` whose following
character is not a word character (or which ends the string). -/
def replaceBoundFirst (pat rep : List Char) : Nat → List Char → List Char
  | 0, l => l
  | _ + 1, [] => []
  | fuel + 1, c :: t =>
    if ciLeads pat (c :: t) &&
        (match (c :: t).drop pat.length with
         | [] => true
         | d :: _ => !isWordC d) then
      rep ++ (c :: t).drop pat.length
    else c :: replaceBoundFirst pat rep fuel t

/-- The brand pipeline on a non-falsy string: trim, strip leading
underscores (`replace(/^_+/, "")`), split on `[\s.]+`, title-case each
token, join with `.`, then lowercase a `.Com` / `.Au` suffix token. -/
def brandPipeline (s : String) : String :=
  let b1 := jsTrimL s.data
  let b2 := b1.dropWhile (· = '_')
  let caps := (splitToks (b2.length + 1) b2).map capTok
  let j := joinDots caps
  ⟨replaceBoundFirst ".au".data ".au".data (j.length + 1)
    (replaceBoundFirst ".com".data ".com".data (j.length + 1) j)⟩

/-- `normalizeBrand`: falsy input (absent or empty) gives `"Unknown"`. -/
def normalizeBrand (name : Option String) : String :=
  match name with
  | none => "Unknown"
  | some s => if s = "" then "Unknown" else brandPipeline s

/-- The descending-count comparison of `sort((a, b) => b.count - a.count)`;
used with the stable `insertLe`, an element moves ahead only of strictly
smaller counts, so ties keep first-encounter order. -/
def descCnt (a b : String × Nat) : Bool := decide (b.2 ≤ a.2)

/-- `ticketsByBrand` (src/app/page.tsx lines 331-340): count records per
normalized brand, sorted by count descending (stably). -/
def ticketsByBrand (ts : List Ticket) : List (String × Nat) :=
  sortLe descCnt (foldCounts (ts.map (fun t => normalizeBrand t.brand)))

/-- The fixed-width storage format `YYYY-MM-DD HH:MM:SS`: 19 characters
with digits in the ten digit positions.  Modelled from the spec:
"formatted as a fixed-width canonical timestamp (`YYYY-MM-DD HH:MM:SS`,
no timezone suffix)". -/
def isMysqlShape (s : String) : Bool :=
  match s.data with
  | [a, b, c, d, '-', e, f, '-', g, h, ' ', i, j, ':', k, l, ':', m, n] =>
    isDigitC a && isDigitC b && isDigitC c && isDigitC d && isDigitC e &&
    isDigitC f && isDigitC g && isDigitC h && isDigitC i && isDigitC j &&
    isDigitC k && isDigitC l && isDigitC m && isDigitC n
  | _ => false

/-- `YYYY-MM-DD` key of a civil triple — the common core of `dateKey` and
`dateKeyUTC`. -/
def keyOfCivil (c : Int × Int × Int) : String :=
  ⟨intStr c.1 ++ '-' :: padZ 2 c.2.1 ++ '-' :: padZ 2 c.2.2⟩

/-! ### Cleanup-identity infrastructure for the month-time claim (C7) -/
def noDigitLetter : List Char → Bool
  | [] => true
  | [_] => true
  | c1 :: c2 :: r => !(isDigitC c1 && isAlphaC c2) && noDigitLetter (c2 :: r)

def noCI (pats : List (List Char)) : List Char → Bool
  | [] => true
  | c :: t => (pats.all fun p => !ciLeads p (c :: t)) && noCI pats t

def sufOK (pats : List (List Char)) (key : List Char) : Bool :=
  key.tails.all fun s =>
    pats.all fun p =>
      if p.length ≤ s.length then !ciLeads p s
      else !ciLeads (p.take (s.length + 1)) (s ++ [' '])

def patHeads (pats : List (List Char)) (c : Char) : Bool :=
  pats.all fun p =>
    match p with
    | [] => false
    | p0 :: _ => !(decide (asciiLower c = p0))

def ucPats : List (List Char) := ["updated".data, "created".data]

def fipPats : List (List Char) := ["from ip".data]

def tailCh (c : Char) : Bool :=
  isDigitC c || c = ' ' || c = ',' || c = ':' || c = 'A' || c = 'P' || c = 'M'

def mtTail (dayD : List Char) (yr : Option (Bool × List Char)) (cT : Bool)
    (hD miD : List Char) (seD : Option (List Char)) (ap : Option Bool) : List Char :=
  dayD ++ (yrPart yr ++ ((if cT then [','] else []) ++
    (' ' :: hD ++ (':' :: miD ++ (ssPart seD ++ apPart ap)))))

/-- The year used by strategies 2 and 3: the captured 4-digit year when
present, otherwise the current-year reading `nowYear`. -/
def yrVal (nowYear : Int) (yr : Option (Bool × List Char)) : Int :=
  match yr with
  | some (_, yD) => ((valAcc 0 yD : Nat) : Int)
  | none => nowYear

theorem yearOfEra_spec (doe : Int) (h0 : 0 ≤ doe) (h1 : doe < 146097) :
    0 ≤ (yearOfEra doe).1 ∧ (yearOfEra doe).1 ≤ 399 ∧
    365 * (yearOfEra doe).1 + (yearOfEra doe).1 / 4 - (yearOfEra doe).1 / 100 +
      (yearOfEra doe).2 = doe ∧
    0 ≤ (yearOfEra doe).2 ∧ (yearOfEra doe).2 ≤ 365 := by
  unfold yearOfEra
  simp only []
  generalize hC : min (doe / 36524) 3 = c
  have hc : 0 ≤ c ∧ c ≤ 3 ∧ 36524 * c ≤ doe ∧ doe - 36524 * c ≤ 36524 := by omega
  generalize hQ : (doe - c * 36524) / 1461 = q
  have hq : 0 ≤ q ∧ q ≤ 24 ∧ 1461 * q ≤ doe - 36524 * c ∧
      doe - 36524 * c - 1461 * q ≤ 1460 := by omega
  generalize hR : min ((doe - c * 36524 - q * 1461) / 365) 3 = r
  have hr : 0 ≤ r ∧ r ≤ 3 ∧ 365 * r ≤ doe - 36524 * c - 1461 * q ∧
      doe - 36524 * c - 1461 * q - 365 * r ≤ 365 := by omega
  have hcc : c = 0 ∨ c = 1 ∨ c = 2 ∨ c = 3 := by omega
  have hrr : r = 0 ∨ r = 1 ∨ r = 2 ∨ r = 3 := by omega
  rcases hcc with h | h | h | h <;> subst h <;>
    rcases hrr with h | h | h | h <;> subst h <;> omega

theorem assembleDays (z era yoe doy : Int)
    (heq : 365 * yoe + yoe / 4 - yoe / 100 + doy = z + 719468 - era * 146097)
    (h0 : 0 ≤ yoe) (h1 : yoe ≤ 399) (h2 : 0 ≤ doy) (h3 : doy ≤ 365) :
    daysFromCivil
      (yoe + era * 400 +
        (if (5 * doy + 2) / 153 + (if (5 * doy + 2) / 153 < 10 then 3 else -9) ≤ 2
          then 1 else 0))
      ((5 * doy + 2) / 153 + (if (5 * doy + 2) / 153 < 10 then 3 else -9))
      (doy - (153 * ((5 * doy + 2) / 153) + 2) / 5 + 1) = z := by
  unfold daysFromCivil
  simp only []
  repeat' split
  all_goals (try simp only [neg_add_cancel_right, add_neg_cancel_right])
  all_goals omega

theorem daysFromCivil_civilFromDays (z : Int) :
    daysFromCivil (civilFromDays z).1 (civilFromDays z).2.1 (civilFromDays z).2.2 = z := by
  have hb : 0 ≤ z + 719468 - (z + 719468) / 146097 * 146097 ∧
      z + 719468 - (z + 719468) / 146097 * 146097 < 146097 := by omega
  have hs := yearOfEra_spec _ hb.1 hb.2
  unfold civilFromDays
  simp only []
  exact assembleDays z ((z + 719468) / 146097)
    (yearOfEra (z + 719468 - (z + 719468) / 146097 * 146097)).1
    (yearOfEra (z + 719468 - (z + 719468) / 146097 * 146097)).2
    hs.2.2.1 hs.1 hs.2.1 hs.2.2.2.1 hs.2.2.2.2

theorem daysFromCivil_epoch : daysFromCivil 1970 1 1 = 0 := by decide

theorem civilFromDays_examples :
    civilFromDays 20372 = (2025, 10, 11) ∧ civilFromDays 0 = (1970, 1, 1) ∧
    civilFromDays (-1) = (1969, 12, 31) ∧ civilFromDays 11016 = (2000, 2, 29) ∧
    daysFromCivil 2000 3 1 = 11017 ∧ daysFromCivil 2100 2 28 = 47540 ∧
    daysFromCivil 2100 3 1 = 47541 := by decide

theorem mysqlFromMs_example : mysqlFromMs 920505600000 = "1999-03-04 00:00:00" := by decide

theorem jsNativeParse_examples :
    jsNativeParse 0 "1999-03-04".data = some 920505600000 ∧
    jsNativeParse 120 "1999-03-04".data = some 920505600000 ∧
    jsNativeParse 0 "2025-01-01T23:30:00Z".data = some 1735774200000 ∧
    jsNativeParse 120 "2025-01-01T23:30:00Z".data = some 1735774200000 ∧
    jsNativeParse 120 "2025-01-01T23:30:00".data = some 1735767000000 ∧
    jsNativeParse 0 "2025-02-30".data = none ∧
    jsNativeParse 0 "Oct 14, 2025, 03:14 AM".data = none ∧
    jsNativeParse 0 "+010000-01-01T00:00:00Z".data = some 253402300800000 := by
  decide

theorem isIsoUTC_examples :
    isIsoUTC (some "2025-01-01T23:30:00Z") = true ∧
    isIsoUTC (some " 2025-01-01T23:30:00.5Z ") = true ∧
    isIsoUTC (some "x2025-99-99T99:99:99Z") = true ∧
    isIsoUTC (some "2025-01-01T23:30:00+00:00") = false ∧
    isIsoUTC none = false := by decide

theorem cleanup_examples :
    displayClean "Oct 13th, 2025".data = "Oct 13, 2025".data ∧
    displayClean "Closed from IP 10.0.0.1 on Oct 13, 2025".data = "Closed".data ∧
    displayClean "Updated: Oct 1st 2025 GMT+0700".data = ": Oct 1 2025".data ∧
    routeClean "Jan 2, 2025 GMT+0700".data = "Jan 2, 2025 GMT+0700".data := by decide

theorem matcher_examples :
    mtSearch "Oct 14, 2025, 03:14 AM".data =
      some ⟨"Oct".data, 14, some 2025, 3, 14, none, some false⟩ ∧
    mtSearch "Oct 13 2025 02:19:42 PM".data =
      some ⟨"Oct".data, 13, some 2025, 2, 19, some 42, some true⟩ ∧
    mtSearch "Oct 14 03:14".data = some ⟨"Oct".data, 14, none, 3, 14, none, none⟩ ∧
    moSearch "Closed on Oct 13, 2025".data = some ⟨"Oct".data, 13, some 2025⟩ ∧
    ymdSearch "2025-1-2".data = some (2025, 1, 2) ∧
    mdySearch "10/14/2025".data = some (10, 14, 2025) ∧
    mtSearch "Closed".data = none := by decide

theorem parseDate_examples :
    parseDate 2025 0 (some "2025-01-01T23:30:00Z") = some 1735774200000 ∧
    parseDate 2025 0 (some "Oct 14, 2025, 03:14 AM") =
      some (mkDateLocal 0 2025 9 14 3 14 0) ∧
    parseDate 2025 0 (some "Oct 13 2025 02:19:42 PM") =
      some (mkDateLocal 0 2025 9 13 14 19 42) ∧
    parseDate 2025 0 (some "Oct 13th, 2025") = some (mkDateLocal 0 2025 9 13 0 0 0) ∧
    parseDate 2025 0 (some "1999-03-04") = none ∧
    parseDate 2025 0 (some "garbage") = none ∧
    parseDate 2025 0 none = none := by decide

theorem routeAt_group_texts :
    routeAt "Oct 13 2025 02:19:42 PM".data =
      some ⟨"Oct".data, "13".data, some "2025".data, "02:19:42 PM".data⟩ := by decide

theorem parseDateToMySQL_examples :
    parseDateToMySQL 1760140800000 0 none = "2025-10-11 00:00:00" ∧
    parseDateToMySQL 1760140800000 0 (some "") = "2025-10-11 00:00:00" ∧
    parseDateToMySQL 1760140800000 0 (some "garbage") = "2025-10-11 00:00:00" ∧
    parseDateToMySQL 1760140800000 0 (some "1999-03-04") = "1999-03-04 00:00:00" ∧
    parseDateToMySQL 1760140800000 0 (some "Oct 13 2025 02:19:42 PM") =
      "2025-10-13 14:19:42" := by decide

theorem normalizeBrand_examples :
    normalizeBrand (some "_shopify") = "Shopify" ∧
    normalizeBrand (some "Shopify") = "Shopify" ∧
    normalizeBrand (some "SHOPIFY") = "Shopify" ∧
    normalizeBrand (some "acme.COM") = "Acme.com" ∧
    normalizeBrand (some "my brand.au") = "My.Brand.au" ∧
    normalizeBrand none = "Unknown" ∧
    normalizeBrand (some "_") = "" := by decide

/-! ## Proof infrastructure -/
theorem bump_cons_pos (k : String) (c : Nat) (r : List (String × Nat)) :
    bump ((k, c) :: r) k = (k, c + 1) :: r := by
  simp [bump]

theorem bump_cons_neg {k1 k : String} (h : ¬ k1 = k) (c : Nat) (r : List (String × Nat)) :
    bump ((k1, c) :: r) k = (k1, c) :: bump r k := by
  simp [bump, h]

theorem bump_lookup (k0 k : String) : ∀ acc : List (String × Nat),
    lookupCnt (bump acc k0) k = lookupCnt acc k + (if k0 = k then 1 else 0) := by
  intro acc
  induction acc with
  | nil =>
    by_cases h : k0 = k
    · simp [bump, lookupCnt, h]
    · simp [bump, lookupCnt, h]
  | cons p r ih =>
    obtain ⟨k1, c⟩ := p
    by_cases h1 : k1 = k0
    · subst h1
      rw [bump_cons_pos]
      by_cases h2 : k1 = k
      · subst h2
        simp [lookupCnt]
      · simp [lookupCnt, h2]
    · rw [bump_cons_neg h1]
      by_cases h2 : k1 = k
      · subst h2
        have hk0 : ¬ k0 = k1 := fun he => h1 he.symm
        simp [lookupCnt, hk0]
      · simp [lookupCnt, h2, ih]

theorem bump_keys_mem (k0 k : String) : ∀ acc : List (String × Nat),
    (k ∈ (bump acc k0).map (·.1) ↔ k = k0 ∨ k ∈ acc.map (·.1)) := by
  intro acc
  induction acc with
  | nil => simp [bump]
  | cons p r ih =>
    obtain ⟨k1, c⟩ := p
    by_cases h1 : k1 = k0
    · subst h1
      rw [bump_cons_pos]
      simp only [List.map_cons, List.mem_cons]
      tauto
    · rw [bump_cons_neg h1]
      simp only [List.map_cons, List.mem_cons, ih]
      tauto

theorem bump_keys_nodup (k0 : String) : ∀ acc : List (String × Nat),
    (acc.map (·.1)).Nodup → ((bump acc k0).map (·.1)).Nodup := by
  intro acc
  induction acc with
  | nil => simp [bump]
  | cons p r ih =>
    obtain ⟨k1, c⟩ := p
    intro h
    simp only [List.map_cons, List.nodup_cons] at h
    by_cases h1 : k1 = k0
    · subst h1
      simpa [bump, List.nodup_cons] using h
    · simp only [bump, if_neg h1, List.map_cons, List.nodup_cons]
      refine ⟨?_, ih h.2⟩
      rw [bump_keys_mem]
      rintro (he | he)
      · exact h1 he
      · exact h.1 he

theorem bump_sum (k0 : String) : ∀ acc : List (String × Nat),
    ((bump acc k0).map (·.2)).sum = ((acc.map (·.2)).sum) + 1 := by
  intro acc
  induction acc with
  | nil => simp [bump]
  | cons p r ih =>
    obtain ⟨k1, c⟩ := p
    by_cases h1 : k1 = k0
    · subst h1
      simp [bump]
      omega
    · simp [bump, if_neg h1, ih]
      omega

theorem foldl_bump_lookup (k : String) : ∀ (ks : List String) (acc : List (String × Nat)),
    lookupCnt (ks.foldl bump acc) k = lookupCnt acc k + countS k ks := by
  intro ks
  induction ks with
  | nil => intro acc; simp [countS]
  | cons k0 r ih =>
    intro acc
    simp only [List.foldl_cons, ih, bump_lookup, countS]
    by_cases h : k0 = k
    · simp [h]
      omega
    · have h2 : ¬ k0 = k := h
      simp [h, h2]

theorem foldl_bump_keys_mem (k : String) : ∀ (ks : List String) (acc : List (String × Nat)),
    (k ∈ (ks.foldl bump acc).map (·.1) ↔ k ∈ acc.map (·.1) ∨ k ∈ ks) := by
  intro ks
  induction ks with
  | nil => intro acc; simp
  | cons k0 r ih =>
    intro acc
    simp only [List.foldl_cons, ih, bump_keys_mem, List.mem_cons]
    tauto

theorem foldl_bump_nodup : ∀ (ks : List String) (acc : List (String × Nat)),
    (acc.map (·.1)).Nodup → ((ks.foldl bump acc).map (·.1)).Nodup := by
  intro ks
  induction ks with
  | nil => intro acc h; simpa using h
  | cons k0 r ih =>
    intro acc h
    exact ih (bump acc k0) (bump_keys_nodup k0 acc h)

theorem foldl_bump_sum : ∀ (ks : List String) (acc : List (String × Nat)),
    ((ks.foldl bump acc).map (·.2)).sum = (acc.map (·.2)).sum + ks.length := by
  intro ks
  induction ks with
  | nil => intro acc; simp
  | cons k0 r ih =>
    intro acc
    simp only [List.foldl_cons, ih, bump_sum, List.length_cons]
    omega

theorem lookupCnt_mem (k : String) : ∀ acc : List (String × Nat),
    k ∈ acc.map (·.1) → (k, lookupCnt acc k) ∈ acc := by
  intro acc
  induction acc with
  | nil => simp
  | cons p r ih =>
    obtain ⟨k1, c⟩ := p
    intro h
    by_cases h1 : k1 = k
    · subst h1
      simp [lookupCnt]
    · simp only [List.map_cons, List.mem_cons] at h
      rcases h with h | h

      · exact absurd h.symm h1
      · simp only [lookupCnt, if_neg h1]
        exact List.mem_cons_of_mem _ (ih h)

theorem lookupCnt_eq_of_mem (k : String) (c : Nat) : ∀ acc : List (String × Nat),
    (acc.map (fun p => p.1)).Nodup → (k, c) ∈ acc → lookupCnt acc k = c := by
  intro acc
  induction acc with
  | nil => intro _ h; cases h
  | cons p r ih =>
    intro hnd hm
    obtain ⟨k1, c1⟩ := p
    simp only [List.map_cons, List.nodup_cons] at hnd
    rcases List.mem_cons.mp hm with he | hm2
    · cases he
      simp [lookupCnt]
    · by_cases h1 : k1 = k
      · subst h1
        exact absurd (List.mem_map.mpr ⟨(k1, c), hm2, rfl⟩) hnd.1
      · simp only [lookupCnt, if_neg h1]
        exact ih hnd.2 hm2

theorem insertLe_perm {α : Type} (le : α → α → Bool) (x : α) :
    ∀ l : List α, (insertLe le x l).Perm (x :: l) := by
  intro l
  induction l with
  | nil => simp [insertLe]
  | cons y r ih =>
    by_cases h : le x y = true
    · simp [insertLe, h]
    · simp only [insertLe, if_neg h]
      exact (ih.cons y).trans (List.Perm.swap x y r)

theorem sortLe_perm {α : Type} (le : α → α → Bool) :
    ∀ l : List α, (sortLe le l).Perm l := by
  intro l
  induction l with
  | nil => simp [sortLe]
  | cons x r ih =>
    exact (insertLe_perm le x (sortLe le r)).trans (ih.cons x)

theorem insertLe_pairwise {α : Type} (le : α → α → Bool)
    (htot : ∀ a b, le a b = true ∨ le b a = true)
    (htr : ∀ a b c, le a b = true → le b c = true → le a c = true)
    (x : α) : ∀ l : List α, l.Pairwise (fun a b => le a b = true) →
      (insertLe le x l).Pairwise (fun a b => le a b = true) := by
  intro l
  induction l with
  | nil => simp [insertLe]
  | cons y r ih =>
    intro h
    rw [List.pairwise_cons] at h
    by_cases hxy : le x y = true
    · simp only [insertLe, if_pos hxy]
      rw [List.pairwise_cons]
      refine ⟨?_, List.pairwise_cons.mpr h⟩
      intro a ha
      rcases List.mem_cons.mp ha with hc | hc
      · exact hc ▸ hxy
      · exact htr x y a hxy (h.1 a hc)
    · simp only [insertLe, if_neg hxy]
      rw [List.pairwise_cons]
      have hyx : le y x = true := (htot x y).resolve_left hxy
      refine ⟨?_, ih h.2⟩
      intro a ha
      rcases List.mem_cons.mp ((insertLe_perm le x r).mem_iff.mp ha) with hc | hc
      · exact hc ▸ hyx
      · exact h.1 a hc

theorem sortLe_pairwise {α : Type} (le : α → α → Bool)
    (htot : ∀ a b, le a b = true ∨ le b a = true)
    (htr : ∀ a b c, le a b = true → le b c = true → le a c = true) :
    ∀ l : List α, (sortLe le l).Pairwise (fun a b => le a b = true) := by
  intro l
  induction l with
  | nil => simp [sortLe]
  | cons x r ih =>
    exact insertLe_pairwise le htot htr x (sortLe le r) ih

theorem lexLe_total : ∀ a b : List Char, lexLe a b = true ∨ lexLe b a = true := by
  intro a
  induction a with
  | nil => intro b; left; rfl
  | cons c as ih =>
    intro b
    cases b with
    | nil => right; rfl
    | cons d bs =>
      simp only [lexLe]
      by_cases h1 : c.toNat < d.toNat
      · left; simp [h1]
      · by_cases h2 : d.toNat < c.toNat
        · right; simp [h2]
        · rcases ih bs with h | h
          · left; simp [h1, h2, h]
          · right; simp [h1, h2, h]

theorem lexLe_trans : ∀ a b c : List Char,
    lexLe a b = true → lexLe b c = true → lexLe a c = true := by
  intro a
  induction a with
  | nil => intro b c _ _; rfl
  | cons x as ih =>
    intro b c hab hbc
    cases b with
    | nil => cases hab
    | cons y bs =>
      cases c with
      | nil => cases hbc
      | cons z cs =>
        simp only [lexLe] at hab hbc ⊢
        by_cases h1 : x.toNat < y.toNat
        · by_cases h2 : y.toNat < z.toNat
          · have hxz : x.toNat < z.toNat := by omega
            simp [hxz]
          · by_cases h3 : z.toNat < y.toNat
            · simp [h2, h3] at hbc
            · have hxz : x.toNat < z.toNat := by omega
              simp [hxz]
        · by_cases h4 : y.toNat < x.toNat
          · simp [h1, h4] at hab
          · by_cases h2 : y.toNat < z.toNat
            · have hxz : x.toNat < z.toNat := by omega
              simp [hxz]
            · by_cases h3 : z.toNat < y.toNat
              · simp [h2, h3] at hbc
              · have hab2 : lexLe as bs = true := by simpa [h1, h4] using hab
                have hbc2 : lexLe bs cs = true := by simpa [h2, h3] using hbc
                have h5 : ¬ x.toNat < z.toNat := by omega
                have h6 : ¬ z.toNat < x.toNat := by omega
                simp [h5, h6, ih bs cs hab2 hbc2]

theorem strLe_total (a b : String) : strLe a b = true ∨ strLe b a = true :=
  lexLe_total a.data b.data

theorem strLe_trans (a b c : String) (h1 : strLe a b = true) (h2 : strLe b c = true) :
    strLe a c = true :=
  lexLe_trans a.data b.data c.data h1 h2

theorem descCnt_total (a b : String × Nat) : descCnt a b = true ∨ descCnt b a = true := by
  unfold descCnt
  by_cases h : b.2 ≤ a.2
  · left; simpa using h
  · right; simp; omega

theorem descCnt_trans (a b c : String × Nat) (h1 : descCnt a b = true)
    (h2 : descCnt b c = true) : descCnt a c = true := by
  simp [descCnt] at h1 h2 ⊢
  omega

theorem toNat_ofNat_valid (n : Nat) (h : n < 55296) : (Char.ofNat n).toNat = n := by
  have hv : Nat.isValidChar n := Or.inl h
  simp only [Char.ofNat, hv, dif_pos]
  rfl

theorem char_toNat_inj {a b : Char} (h : a.toNat = b.toNat) : a = b := by
  have h1 : Char.ofNat a.toNat = Char.ofNat b.toNat := by rw [h]
  rwa [Char.ofNat_toNat, Char.ofNat_toNat] at h1

theorem asciiLower_toNat (c : Char) :
    (asciiLower c).toNat =
      if 65 ≤ c.toNat ∧ c.toNat ≤ 90 then c.toNat + 32 else c.toNat := by
  by_cases h : 65 ≤ c.toNat ∧ c.toNat ≤ 90
  · rw [if_pos h, asciiLower, if_pos ⟨h.1, h.2⟩]
    exact toNat_ofNat_valid _ (by omega)
  · rw [if_neg h, asciiLower, if_neg ?hc]
    case hc =>
      rintro ⟨h1, h2⟩
      exact h ⟨h1, h2⟩

theorem asciiUpper_toNat (c : Char) :
    (asciiUpper c).toNat =
      if 97 ≤ c.toNat ∧ c.toNat ≤ 122 then c.toNat - 32 else c.toNat := by
  by_cases h : 97 ≤ c.toNat ∧ c.toNat ≤ 122
  · rw [if_pos h, asciiUpper, if_pos ⟨h.1, h.2⟩]
    exact toNat_ofNat_valid _ (by omega)
  · rw [if_neg h, asciiUpper, if_neg ?hc]
    case hc =>
      rintro ⟨h1, h2⟩
      exact h ⟨h1, h2⟩

theorem lower_lower (c : Char) : asciiLower (asciiLower c) = asciiLower c := by
  apply char_toNat_inj
  rw [asciiLower_toNat (asciiLower c), asciiLower_toNat c]
  split_ifs <;> omega

theorem upper_upper (c : Char) : asciiUpper (asciiUpper c) = asciiUpper c := by
  apply char_toNat_inj
  rw [asciiUpper_toNat (asciiUpper c), asciiUpper_toNat c]
  split_ifs <;> omega

theorem upper_lower (c : Char) : asciiUpper (asciiLower c) = asciiUpper c := by
  apply char_toNat_inj
  rw [asciiUpper_toNat (asciiLower c), asciiUpper_toNat c, asciiLower_toNat c]
  split_ifs <;> omega

theorem lower_upper (c : Char) : asciiLower (asciiUpper c) = asciiLower c := by
  apply char_toNat_inj
  rw [asciiLower_toNat (asciiUpper c), asciiLower_toNat c, asciiUpper_toNat c]
  split_ifs <;> omega

theorem char_eq_iff_toNat (a b : Char) : a = b ↔ a.toNat = b.toNat :=
  ⟨fun h => h ▸ rfl, char_toNat_inj⟩

theorem isWsC_toNat (c : Char) :
    isWsC c = true ↔
      c.toNat = 32 ∨ c.toNat = 9 ∨ c.toNat = 10 ∨ c.toNat = 13 ∨
      c.toNat = 11 ∨ c.toNat = 12 := by
  simp only [isWsC, decide_eq_true_eq]
  rw [char_eq_iff_toNat c ' ', char_eq_iff_toNat c '\t', char_eq_iff_toNat c '\n',
    char_eq_iff_toNat c '\r', char_eq_iff_toNat c (Char.ofNat 11),
    char_eq_iff_toNat c (Char.ofNat 12)]
  norm_num [toNat_ofNat_valid]

theorem isWsC_lower (c : Char) : isWsC (asciiLower c) = isWsC c := by
  by_cases h : isWsC c = true
  · have hn := (isWsC_toNat c).mp h
    have he : asciiLower c = c := by
      apply char_toNat_inj
      rw [asciiLower_toNat, if_neg (by omega)]
    rw [he]
  · by_cases h2 : isWsC (asciiLower c) = true
    · exfalso
      have hn := (isWsC_toNat _).mp h2
      rw [asciiLower_toNat] at hn
      have : isWsC c = true := by
        rw [isWsC_toNat]
        by_cases hr : 65 ≤ c.toNat ∧ c.toNat ≤ 90 <;> simp [hr] at hn <;> omega
      exact h this
    · simp only [Bool.not_eq_true] at h h2
      rw [h, h2]

theorem dot_toNat : ('.' : Char).toNat = 46 := by decide

theorem sepC_lower (c : Char) : sepC (asciiLower c) = sepC c := by
  unfold sepC
  rw [isWsC_lower]
  congr 1
  by_cases h : c = '.'
  · subst h; rfl
  · have h2 : ¬ asciiLower c = '.' := by
      intro he
      apply h
      apply char_toNat_inj
      rw [char_eq_iff_toNat, asciiLower_toNat] at he
      rw [dot_toNat] at he ⊢
      by_cases hr : 65 ≤ c.toNat ∧ c.toNat ≤ 90
      · rw [if_pos hr] at he; omega
      · rw [if_neg hr] at he; omega
    simp [h, h2]

theorem underscore_of_lower (c : Char) (h : asciiLower c = '_') : c = '_' := by
  apply char_toNat_inj
  rw [char_eq_iff_toNat, asciiLower_toNat] at h
  have h95 : ('_' : Char).toNat = 95 := by decide
  rw [h95] at h ⊢
  by_cases hr : 65 ≤ c.toNat ∧ c.toNat ≤ 90
  · rw [if_pos hr] at h; omega
  · rw [if_neg hr] at h; exact h

theorem underscore_of_upper (c : Char) (h : asciiUpper c = '_') : c = '_' := by
  apply char_toNat_inj
  rw [char_eq_iff_toNat, asciiUpper_toNat] at h
  have h95 : ('_' : Char).toNat = 95 := by decide
  rw [h95] at h ⊢
  by_cases hr : 97 ≤ c.toNat ∧ c.toNat ≤ 122
  · rw [if_pos hr] at h; omega
  · rw [if_neg hr] at h; exact h

theorem takeWhile_of_all {p : Char → Bool} : ∀ t : List Char,
    (∀ c ∈ t, p c = true) → t.takeWhile p = t := by
  intro t
  induction t with
  | nil => intro _; rfl
  | cons c r ih =>
    intro h
    simp only [List.takeWhile_cons, h c (List.mem_cons_self c r)]
    rw [ih (fun x hx => h x (List.mem_cons_of_mem c hx))]
    simp

theorem dropWhile_of_all {p : Char → Bool} : ∀ t : List Char,
    (∀ c ∈ t, p c = true) → t.dropWhile p = [] := by
  intro t
  induction t with
  | nil => intro _; rfl
  | cons c r ih =>
    intro h
    simp only [List.dropWhile_cons, h c (List.mem_cons_self c r)]
    exact ih (fun x hx => h x (List.mem_cons_of_mem c hx))

theorem takeWhile_sf (m : List Char) : ∀ t : List Char, sepFree t = true →
    (t ++ '.' :: m).takeWhile (fun c => !sepC c) = t := by
  intro t
  induction t with
  | nil =>
    intro _
    simp [List.takeWhile_cons, sepC]
  | cons c r ih =>
    intro h
    simp only [sepFree, List.all_cons, Bool.and_eq_true] at h
    simp only [List.cons_append, List.takeWhile_cons, h.1]
    rw [ih (by simp [sepFree, h.2])]
    simp

theorem dropWhile_sf (m : List Char) : ∀ t : List Char, sepFree t = true →
    (t ++ '.' :: m).dropWhile (fun c => !sepC c) = '.' :: m := by
  intro t
  induction t with
  | nil =>
    intro _
    simp [List.dropWhile_cons, sepC]
  | cons c r ih =>
    intro h
    simp only [sepFree, List.all_cons, Bool.and_eq_true] at h
    simp only [List.cons_append, List.dropWhile_cons, h.1]
    exact ih (by simp [sepFree, h.2])

theorem joinDots_cons (t u : List Char) (r : List (List Char)) :
    joinDots (t :: u :: r) = t ++ '.' :: joinDots (u :: r) := rfl

theorem splitToks_single (fuel : Nat) (t : List Char) (hf : t.length < fuel)
    (hsf : sepFree t = true) : splitToks fuel t = [t] := by
  cases fuel with
  | zero => omega
  | succ f =>
    by_cases he : t.isEmpty
    · have : t = [] := by cases t <;> simp_all
      subst this
      simp [splitToks]
    · simp only [splitToks, he, if_neg]
      have hall : ∀ c ∈ t, (fun c => !sepC c) c = true := by
        intro c hc
        simp only [sepFree, List.all_eq_true] at hsf
        exact hsf c hc
      rw [takeWhile_of_all t hall, dropWhile_of_all t hall]
      simp [he]

theorem dropWhile_cons_false {p : Char → Bool} {c : Char} {l : List Char}
    (h : p c = false) : (c :: l).dropWhile p = c :: l := by
  simp [List.dropWhile_cons, h]

theorem dropWhile_head_false {p : Char → Bool} : ∀ (l : List Char) (c : Char) (r : List Char),
    l.dropWhile p = c :: r → p c = false := by
  intro l
  induction l with
  | nil => intro c r h; cases h
  | cons x t ih =>
    intro c r h
    by_cases hx : p x = true
    · rw [List.dropWhile_cons, if_pos hx] at h
      exact ih c r h
    · rw [List.dropWhile_cons, if_neg hx] at h
      cases h
      simpa using hx

theorem splitToks_nil (fuel : Nat) : splitToks fuel ([] : List Char) = [[]] := by
  cases fuel <;> simp [splitToks]

theorem splitToks_joinDots : ∀ (r : List (List Char)) (t : List Char) (fuel : Nat),
    (∀ u ∈ t :: r, sepFree u = true) → neButLast r = true →
    (joinDots (t :: r)).length < fuel →
    splitToks fuel (joinDots (t :: r)) = t :: r := by
  intro r
  induction r with
  | nil =>
    intro t fuel hsf _ hf
    have hst : sepFree t = true := hsf t (List.mem_cons_self t [])
    simpa [joinDots] using splitToks_single fuel t (by simpa [joinDots] using hf) hst
  | cons u r' ih =>
    intro t fuel hsf hne hf
    have hst : sepFree t = true := hsf t (by simp)
    rw [joinDots_cons] at hf ⊢
    cases fuel with
    | zero => omega
    | succ f =>
      have hle : (joinDots (u :: r')).length < f := by
        simp only [List.length_append, List.length_cons] at hf
        omega
      simp only [splitToks]
      rw [takeWhile_sf _ t hst, dropWhile_sf _ t hst]
      rw [if_neg (by cases t <;> simp), if_neg (by simp)]
      have hdot : ('.' :: joinDots (u :: r')).dropWhile sepC =
          (joinDots (u :: r')).dropWhile sepC := by
        rw [List.dropWhile_cons, if_pos (by decide)]
      rw [hdot]
      have hsu : sepFree u = true := hsf u (by simp)
      cases hr' : r' with
      | nil =>
        cases hu : u with
        | nil =>
          simp only [joinDots, List.dropWhile_nil, splitToks_nil]
        | cons c cs =>
          have hcs : sepC c = false := by
            rw [hu] at hsu
            simp only [sepFree, List.all_cons, Bool.and_eq_true] at hsu
            simpa using hsu.1
          simp only [joinDots]
          rw [dropWhile_cons_false hcs]
          rw [← hu]
          rw [splitToks_single f u (by rw [hr'] at hle; simpa [joinDots, hu] using hle)
            hsu]
      | cons v r'' =>
        rw [hr'] at hle hne
        have hune : u ≠ [] := by
          cases u with
          | nil => simp [neButLast] at hne
          | cons _ _ => simp
        obtain ⟨c, cs, hu⟩ : ∃ c cs, u = c :: cs := by
          cases u with
          | nil => exact absurd rfl hune
          | cons c cs => exact ⟨c, cs, rfl⟩
        have hcs : sepC c = false := by
          rw [hu] at hsu
          simp only [sepFree, List.all_cons, Bool.and_eq_true] at hsu
          simpa using hsu.1
        have hjoin : joinDots (u :: v :: r'') = c :: (cs ++ '.' :: joinDots (v :: r'')) := by
          rw [joinDots_cons, hu]
          rfl
        rw [hjoin, dropWhile_cons_false hcs, ← hjoin]
        have hne' : neButLast r' = true := by
          rw [hr']
          rw [hu] at hne
          simp only [neButLast, Bool.and_eq_true] at hne
          exact hne.2
        have hler' : (joinDots (u :: r')).length < f := by
          rw [hr']
          exact hle
        have ihu := ih u f (fun w hw => hsf w (by simp at hw ⊢; tauto)) hne' hler'
        rw [hr'] at ihu
        rw [ihu]

theorem splitToks_good : ∀ (fuel : Nat) (l : List Char), l.length < fuel →
    (∀ t ∈ splitToks fuel l, sepFree t = true) ∧
    neButLast ((splitToks fuel l).tail) = true ∧
    (splitToks fuel l).head? = some (l.takeWhile (fun c => !sepC c)) := by
  intro fuel
  induction fuel with
  | zero => intro l h; omega
  | succ f ih =>
    intro l hf
    by_cases he : l.isEmpty = true
    · have hl : l = [] := by cases l <;> simp_all
      subst hl
      refine ⟨?_, by simp [splitToks, neButLast], by simp [splitToks]⟩
      intro t ht
      simp [splitToks] at ht
      simp [ht, sepFree]
    · have htw : ∀ t, t ∈ l.takeWhile (fun c => !sepC c) → sepC t = false := by
        intro t ht
        have := List.mem_takeWhile_imp ht
        simpa using this
      have htwsf : sepFree (l.takeWhile (fun c => !sepC c)) = true := by
        simp only [sepFree, List.all_eq_true]
        intro c hc
        simp [htw c hc]
      by_cases hre : (l.dropWhile (fun c => !sepC c)).isEmpty = true
      · refine ⟨?_, ?_, ?_⟩
        · intro t ht
          simp only [splitToks, if_neg he, if_pos hre, List.mem_singleton] at ht
          subst ht
          exact htwsf
        · simp only [splitToks]
          rw [if_neg he, if_pos hre]
          simp [neButLast]
        · simp only [splitToks]
          rw [if_neg he, if_pos hre]
          simp
      · have hrest : ∃ c r2, l.dropWhile (fun c => !sepC c) = c :: r2 := by
          cases hdw : l.dropWhile (fun c => !sepC c) with
          | nil => rw [hdw] at hre; simp at hre
          | cons c r2 => exact ⟨c, r2, rfl⟩
        obtain ⟨c, r2, hdw⟩ := hrest
        have hc : sepC c = true := by
          have := dropWhile_head_false l c r2 hdw
          simpa using this
        have hlen : (( l.dropWhile (fun c => !sepC c)).dropWhile sepC).length < f := by
          rw [hdw, List.dropWhile_cons, if_pos hc]
          have h1 : (l.takeWhile (fun c => !sepC c)).length +
              (l.dropWhile (fun c => !sepC c)).length = l.length := by
            rw [← List.length_append, List.takeWhile_append_dropWhile]
          have h2 : (List.dropWhile sepC r2).length ≤ r2.length :=
            List.Sublist.length_le (List.dropWhile_sublist sepC)
          rw [hdw] at h1
          simp only [List.length_cons] at h1
          omega
        have ihr := ih ((l.dropWhile (fun c => !sepC c)).dropWhile sepC) hlen
        refine ⟨?_, ?_, ?_⟩
        · intro t ht
          simp only [splitToks, if_neg he, if_neg hre, List.mem_cons] at ht
          rcases ht with ht | ht
          · subst ht; exact htwsf
          · exact ihr.1 t ht
        · simp only [splitToks, if_neg he, if_neg hre, List.tail_cons]
          set inner := splitToks f ((l.dropWhile (fun c => !sepC c)).dropWhile sepC) with hinner
          cases hi : inner with
          | nil => rw [hi] at ihr; simp at ihr
          | cons x xs =>
            cases hxs : xs with
            | nil => simp [neButLast]
            | cons y ys =>
              rw [hi, hxs] at ihr
              simp only [neButLast, Bool.and_eq_true]
              refine ⟨?_, by simpa using ihr.2.1⟩
              have hx : x = ((l.dropWhile (fun c => !sepC c)).dropWhile sepC).takeWhile
                  (fun c => !sepC c) := by
                have := ihr.2.2
                simp only [List.head?_cons, Option.some_inj] at this
                exact this
              by_cases hde : (l.dropWhile (fun c => !sepC c)).dropWhile sepC = []
              · exfalso
                rw [hde] at hinner
                rw [splitToks_nil] at hinner
                rw [hi, hxs] at hinner
                cases hinner
              · obtain ⟨d, ds, hds⟩ : ∃ d ds,
                    (l.dropWhile (fun c => !sepC c)).dropWhile sepC = d :: ds := by
                  cases hh : (l.dropWhile (fun c => !sepC c)).dropWhile sepC with
                  | nil => exact absurd hh hde
                  | cons d ds => exact ⟨d, ds, rfl⟩
                have hd : sepC d = false := dropWhile_head_false _ d ds hds
                rw [hds] at hx
                rw [List.takeWhile_cons] at hx
                simp only [hd] at hx
                simp [hx]
        · simp only [splitToks]
          rw [if_neg he, if_neg hre]
          simp

theorem takeWhile_lower (p : Char → Bool) (hp : ∀ c, p (asciiLower c) = p c) :
    ∀ l : List Char, (lowerL l).takeWhile p = lowerL (l.takeWhile p) := by
  intro l
  induction l with
  | nil => rfl
  | cons c r ih =>
    simp only [lowerL, List.map_cons, List.takeWhile_cons, hp c]
    by_cases hc : p c = true
    · simp only [hc, if_true]
      rw [← lowerL, ← lowerL, ih]
      simp [lowerL]
    · simp only [hc]
      simp [lowerL]

theorem dropWhile_lower (p : Char → Bool) (hp : ∀ c, p (asciiLower c) = p c) :
    ∀ l : List Char, (lowerL l).dropWhile p = lowerL (l.dropWhile p) := by
  intro l
  induction l with
  | nil => rfl
  | cons c r ih =>
    simp only [lowerL, List.map_cons, List.dropWhile_cons, hp c]
    by_cases hc : p c = true
    · simp only [hc, if_true]
      rw [← lowerL, ← lowerL, ih]
    · simp only [hc]
      simp [lowerL]

theorem splitToks_lowerL : ∀ (fuel : Nat) (l : List Char),
    splitToks fuel (lowerL l) = (splitToks fuel l).map lowerL := by
  intro fuel
  induction fuel with
  | zero => intro l; simp [splitToks, lowerL]
  | succ f ih =>
    intro l
    have hie : (lowerL l).isEmpty = l.isEmpty := by cases l <;> simp [lowerL]
    simp only [splitToks]
    by_cases he : l.isEmpty = true
    · rw [if_pos (by rw [hie]; exact he), if_pos he]
      simp [lowerL]
    · rw [if_neg (by rw [hie]; exact he), if_neg he]
      have hsep : ∀ c, (fun c => !sepC c) (asciiLower c) = (fun c => !sepC c) c := by
        intro c
        simp [sepC_lower]
      rw [takeWhile_lower _ hsep, dropWhile_lower _ hsep]
      have hie2 : (lowerL (l.dropWhile (fun c => !sepC c))).isEmpty =
          (l.dropWhile (fun c => !sepC c)).isEmpty := by
        cases l.dropWhile (fun c => !sepC c) <;> simp [lowerL]
      by_cases hr : (l.dropWhile (fun c => !sepC c)).isEmpty = true
      · rw [if_pos (by rw [hie2]; exact hr), if_pos hr]
        simp
      · rw [if_neg (by rw [hie2]; exact hr), if_neg hr]
        rw [dropWhile_lower sepC sepC_lower, ih]
        simp

theorem capTok_lowerL (t : List Char) : capTok (lowerL t) = capTok t := by
  cases t with
  | nil => rfl
  | cons c r =>
    simp only [lowerL, List.map_cons, capTok]
    rw [upper_lower]
    congr 1
    simp only [List.map_map]
    apply List.map_congr_left
    intro x _
    exact lower_lower x

theorem capTok_idem (t : List Char) : capTok (capTok t) = capTok t := by
  cases t with
  | nil => rfl
  | cons c r =>
    simp only [capTok]
    rw [upper_upper]
    congr 1
    simp only [List.map_map]
    apply List.map_congr_left
    intro x _
    exact lower_lower x

theorem sepC_upper (c : Char) : sepC (asciiUpper c) = sepC c := by
  conv_rhs => rw [← sepC_lower c]
  rw [← sepC_lower (asciiUpper c), lower_upper]

theorem capTok_sepFree (t : List Char) (h : sepFree t = true) :
    sepFree (capTok t) = true := by
  cases t with
  | nil => rfl
  | cons c r =>
    simp only [sepFree, List.all_cons, Bool.and_eq_true] at h ⊢
    simp only [capTok, List.all_cons, Bool.and_eq_true]
    constructor
    · rw [sepC_upper]
      exact h.1
    · simp only [List.all_map, List.all_eq_true] at h ⊢
      intro x hx
      have := h.2
      simp only [List.all_eq_true] at this
      have hh := this x hx
      simpa [Function.comp, sepC_lower] using hh

theorem capTok_empty_iff (t : List Char) : capTok t = [] ↔ t = [] := by
  cases t <;> simp [capTok]

theorem neButLast_map_capTok : ∀ r : List (List Char), neButLast r = true →
    neButLast (r.map capTok) = true := by
  intro r
  induction r with
  | nil => intro _; rfl
  | cons t r' ih =>
    intro h
    cases r' with
    | nil => rfl
    | cons u r'' =>
      simp only [neButLast, Bool.and_eq_true] at h
      simp only [List.map_cons, neButLast, Bool.and_eq_true]
      refine ⟨?_, ?_⟩
      · have ht : t ≠ [] := by
          intro he
          rw [he] at h
          simp at h
        have : capTok t ≠ [] := fun he => ht ((capTok_empty_iff t).mp he)
        simpa [List.isEmpty_iff] using this
      · have := ih h.2
        simpa [List.map_cons] using this

theorem ciLeads_take : ∀ (pat l : List Char), ciLeads pat l = true →
    lowerL (l.take pat.length) = pat := by
  intro pat
  induction pat with
  | nil => intro l _; simp [lowerL]
  | cons p ps ih =>
    intro l h
    cases l with
    | nil => cases h
    | cons c cs =>
      simp only [ciLeads, Bool.and_eq_true, decide_eq_true_eq] at h
      simp only [List.length_cons, List.take_succ_cons, lowerL, List.map_cons]
      refine ?_
      rw [← lowerL, ih cs h.2]
      rw [h.1]

theorem lowerL_append (a b : List Char) : lowerL (a ++ b) = lowerL a ++ lowerL b := by
  simp [lowerL]

theorem replaceBound_lowerL (pat rep : List Char) (hrep : lowerL rep = pat) :
    ∀ (fuel : Nat) (l : List Char),
      lowerL (replaceBoundFirst pat rep fuel l) = lowerL l := by
  intro fuel
  induction fuel with
  | zero => intro l; rfl
  | succ f ih =>
    intro l
    cases l with
    | nil => rfl
    | cons c t =>
      simp only [replaceBoundFirst]
      by_cases hc : (ciLeads pat (c :: t) &&
          (match (c :: t).drop pat.length with
           | [] => true
           | d :: _ => !isWordC d)) = true
      · rw [if_pos hc]
        have hci : ciLeads pat (c :: t) = true := by
          simp only [Bool.and_eq_true] at hc
          exact hc.1
        have h1 : lowerL ((c :: t).take pat.length) = pat := ciLeads_take pat _ hci
        calc lowerL (rep ++ (c :: t).drop pat.length)
            = lowerL rep ++ lowerL ((c :: t).drop pat.length) := lowerL_append _ _
          _ = lowerL ((c :: t).take pat.length) ++
              lowerL ((c :: t).drop pat.length) := by rw [hrep, h1]
          _ = lowerL ((c :: t).take pat.length ++ (c :: t).drop pat.length) :=
              (lowerL_append _ _).symm
          _ = lowerL (c :: t) := by rw [List.take_append_drop]
      · rw [if_neg hc]
        simp only [lowerL, List.map_cons]
        rw [← lowerL, ← lowerL, ih t]

theorem lowerL_length (l : List Char) : (lowerL l).length = l.length := by
  simp [lowerL]

theorem sepC_false_not_ws (c : Char) (h : sepC c = false) : isWsC c = false := by
  unfold sepC at h
  simp only [Bool.or_eq_false_iff] at h
  exact h.1

theorem joinDots_no_ws : ∀ tl : List (List Char),
    (∀ t ∈ tl, sepFree t = true) → ∀ c ∈ joinDots tl, isWsC c = false := by
  intro tl
  induction tl with
  | nil => intro _ c hc; cases hc
  | cons t r ih =>
    intro h c hc
    cases r with
    | nil =>
      have hst : sepFree t = true := h t (by simp)
      simp only [joinDots] at hc
      simp only [sepFree, List.all_eq_true] at hst
      have := hst c hc
      exact sepC_false_not_ws c (by simpa using this)
    | cons u r' =>
      rw [joinDots_cons] at hc
      rcases List.mem_append.mp hc with hm | hm
      · have hst : sepFree t = true := h t (by simp)
        simp only [sepFree, List.all_eq_true] at hst
        have := hst c hm
        exact sepC_false_not_ws c (by simpa using this)
      · rcases List.mem_cons.mp hm with hm2 | hm2
        · subst hm2; decide
        · exact ih (fun w hw => h w (by simp at hw ⊢; tauto)) c hm2

theorem dropWhile_isWs_id (l : List Char) (h : ∀ c ∈ l, isWsC c = false) :
    l.dropWhile isWsC = l := by
  cases l with
  | nil => rfl
  | cons c r => exact dropWhile_cons_false (h c (by simp))

theorem jsTrimL_id (l : List Char) (h : ∀ c ∈ l, isWsC c = false) :
    jsTrimL l = l := by
  unfold jsTrimL
  rw [dropWhile_isWs_id l h,
    dropWhile_isWs_id l.reverse (fun c hc => h c (List.mem_reverse.mp hc)),
    List.reverse_reverse]

theorem joinDots_head_cons (c : Char) (cs : List Char) (r : List (List Char)) :
    ∃ rest, joinDots ((c :: cs) :: r) = c :: rest := by
  cases r with
  | nil => exact ⟨cs, rfl⟩
  | cons u r' => exact ⟨cs ++ '.' :: joinDots (u :: r'), rfl⟩

theorem takeWhile_head {p : Char → Bool} : ∀ (l : List Char) (e : Char) (w : List Char),
    l.takeWhile p = e :: w → l.head? = some e := by
  intro l e w h
  cases l with
  | nil => cases h
  | cons x xs =>
    rw [List.takeWhile_cons] at h
    by_cases hx : p x = true
    · rw [if_pos hx] at h
      cases h
      rfl
    · rw [if_neg hx] at h
      cases h

theorem pipeL_idem_core (b2 j out : List Char)
    (hj : j = joinDots ((splitToks (b2.length + 1) b2).map capTok))
    (hout : out = replaceBoundFirst ".au".data ".au".data (j.length + 1)
        (replaceBoundFirst ".com".data ".com".data (j.length + 1) j))
    (hh : b2.head? ≠ some '_') :
    jsTrimL out = out ∧
    out.dropWhile (fun c => decide (c = '_')) = out ∧
    replaceBoundFirst ".au".data ".au".data
        ((joinDots ((splitToks (out.length + 1) out).map capTok)).length + 1)
        (replaceBoundFirst ".com".data ".com".data
          ((joinDots ((splitToks (out.length + 1) out).map capTok)).length + 1)
          (joinDots ((splitToks (out.length + 1) out).map capTok))) = out := by
  have hg := splitToks_good (b2.length + 1) b2 (Nat.lt_succ_self _)
  obtain ⟨t0, tt, htoks⟩ : ∃ t0 tt, splitToks (b2.length + 1) b2 = t0 :: tt := by
    cases hsp : splitToks (b2.length + 1) b2 with
    | nil => rw [hsp] at hg; simp at hg
    | cons a b => exact ⟨a, b, rfl⟩
  have ht0 : t0 = b2.takeWhile (fun c => !sepC c) := by
    rw [htoks] at hg
    simpa using hg.2.2
  have hcaps_sf : ∀ t ∈ (splitToks (b2.length + 1) b2).map capTok, sepFree t = true := by
    intro t ht
    obtain ⟨w, hw, he⟩ := List.mem_map.mp ht
    rw [← he]
    exact capTok_sepFree w (hg.1 w hw)
  have hcaps_ne : neButLast (tt.map capTok) = true := by
    apply neButLast_map_capTok
    rw [htoks] at hg
    simpa using hg.2.1
  have hsplit_j : splitToks (j.length + 1) j = (splitToks (b2.length + 1) b2).map capTok := by
    rw [hj, htoks, List.map_cons]
    apply splitToks_joinDots
    · intro u hu
      apply hcaps_sf
      rw [htoks, List.map_cons]
      exact hu
    · exact hcaps_ne
    · exact Nat.lt_succ_self _
  have hlowrep_au : lowerL ".au".data = ".au".data := by decide
  have hlowrep_com : lowerL ".com".data = ".com".data := by decide
  have hlow : lowerL out = lowerL j := by
    rw [hout, replaceBound_lowerL _ _ hlowrep_au, replaceBound_lowerL _ _ hlowrep_com]
  have hlen : out.length = j.length := by
    rw [← lowerL_length out, ← lowerL_length j, hlow]
  have hresplit : (splitToks (out.length + 1) out).map capTok =
      (splitToks (b2.length + 1) b2).map capTok := by
    have h1 : (splitToks (out.length + 1) out).map capTok =
        ((splitToks (out.length + 1) out).map lowerL).map capTok := by
      rw [List.map_map]
      apply List.map_congr_left
      intro t _
      simp only [Function.comp]
      rw [capTok_lowerL]
    rw [h1, ← splitToks_lowerL, hlow, splitToks_lowerL, List.map_map]
    have h2 : ∀ t ∈ splitToks (out.length + 1) j, (capTok ∘ lowerL) t = capTok t := by
      intro t _
      simp only [Function.comp]
      rw [capTok_lowerL]
    rw [List.map_congr_left h2]
    rw [hlen, hsplit_j, List.map_map]
    apply List.map_congr_left
    intro t _
    simp only [Function.comp]
    rw [capTok_idem]
  have hjnw : ∀ c ∈ j, isWsC c = false := by
    rw [hj]
    exact joinDots_no_ws _ hcaps_sf
  have houtnw : ∀ c ∈ out, isWsC c = false := by
    intro c hc
    have hmem : asciiLower c ∈ lowerL out := List.mem_map_of_mem asciiLower hc
    rw [hlow] at hmem
    obtain ⟨d, hd, he⟩ := List.mem_map.mp hmem
    have hws : isWsC (asciiLower d) = isWsC (asciiLower c) := by rw [he]
    rw [isWsC_lower, isWsC_lower] at hws
    rw [← hws]
    exact hjnw d hd
  refine ⟨jsTrimL_id out houtnw, ?_, ?_⟩
  · cases hcout : out with
    | nil => rfl
    | cons c rest =>
      apply dropWhile_cons_false
      simp only [decide_eq_false_iff_not]
      intro hcu
      subst hcu
      obtain ⟨d, jrest, hjc⟩ : ∃ d jrest, j = d :: jrest := by
        cases hjj : j with
        | nil =>
          rw [hjj] at hlen
          rw [hcout] at hlen
          simp at hlen
        | cons d jrest => exact ⟨d, jrest, rfl⟩
      have hheads : asciiLower '_' = asciiLower d := by
        have h1 : lowerL out = asciiLower '_' :: lowerL rest := by
          rw [hcout]; rfl
        have h2 : lowerL j = asciiLower d :: lowerL jrest := by
          rw [hjc]; rfl
        rw [h1, h2] at hlow
        exact (List.cons.injEq _ _ _ _ ▸ hlow).1
      have hd_ : d = '_' := by
        apply underscore_of_lower
        rw [← hheads]
        decide
      subst hd_
      cases ht0c : t0 with
      | nil =>
        rw [htoks, List.map_cons, ht0c] at hj
        cases htt : tt with
        | nil =>
          rw [htt] at hj
          simp only [List.map_nil, joinDots, capTok] at hj
          rw [hjc] at hj
          cases hj
        | cons u tr =>
          rw [htt] at hj
          simp only [List.map_cons, capTok] at hj
          rw [joinDots_cons] at hj
          simp only [List.nil_append] at hj
          rw [hjc] at hj
          have : '_' = '.' := by
            exact (List.cons.injEq _ _ _ _ ▸ hj).1
          cases this
      | cons e t0r =>
        have hb2 : b2.head? = some e := by
          apply takeWhile_head b2 e t0r
          rw [← ht0, ht0c]
        rw [htoks, List.map_cons, ht0c] at hj
        simp only [capTok] at hj
        obtain ⟨rest2, hjoin⟩ := joinDots_head_cons (asciiUpper e) (t0r.map asciiLower)
          (tt.map capTok)
        rw [hjoin, hjc] at hj
        have he_ : asciiUpper e = '_' := ((List.cons.injEq _ _ _ _ ▸ hj).1).symm
        have : e = '_' := underscore_of_upper e he_
        subst this
        exact hh hb2
  · rw [hresplit, ← hj, ← hout]

theorem brandPipeline_idem (s : String) :
    brandPipeline (brandPipeline s) = brandPipeline s := by
  have hh : ((jsTrimL s.data).dropWhile (fun c => decide (c = '_'))).head? ≠ some '_' := by
    cases hdp : (jsTrimL s.data).dropWhile (fun c => decide (c = '_')) with
    | nil => simp
    | cons c cs =>
      have hc := dropWhile_head_false _ c cs hdp
      simp only [List.head?_cons, ne_eq, Option.some_inj]
      intro he
      subst he
      simp at hc
  have hcore := pipeL_idem_core ((jsTrimL s.data).dropWhile (fun c => decide (c = '_')))
      _ _ rfl rfl hh
  show brandPipeline (brandPipeline s) = brandPipeline s
  conv_lhs => rw [show brandPipeline s = ⟨(brandPipeline s).data⟩ from rfl]
  unfold brandPipeline
  simp only []
  rw [hcore.1, hcore.2.1, hcore.2.2]

theorem saneYear_iff (n y : Int) : saneYear n y = true ↔ 2000 ≤ y ∧ y ≤ n + 2 := by
  simp [saneYear]

theorem guardSane_bound (n tz : Int) (o : Option Int) (d : Int)
    (h : guardSane n tz o = some d) :
    2000 ≤ getFullYearL tz d ∧ getFullYearL tz d ≤ n + 2 := by
  cases o with
  | none => cases h
  | some x =>
    by_cases hs : saneYear n (getFullYearL tz x) = true
    · have hd : x = d := by
        simpa [guardSane, hs] using h
      subst hd
      exact (saneYear_iff n (getFullYearL tz x)).mp hs
    · simp [guardSane, hs] at h

theorem parseCleaned_bound (n tz : Int) (c : List Char) (d : Int)
    (h : parseCleaned n tz c = some d) :
    2000 ≤ getFullYearL tz d ∧ getFullYearL tz d ≤ n + 2 := by
  unfold parseCleaned at h
  repeat' split at h
  all_goals cases h
  all_goals apply guardSane_bound <;> assumption

theorem parseDate_year_bound (n tz : Int) (ts : Option String) (d : Int)
    (h : parseDate n tz ts = some d) :
    2000 ≤ getFullYearL tz d ∧ getFullYearL tz d ≤ n + 2 := by
  cases ts with
  | none => cases h
  | some s =>
    by_cases he : s = ""
    · simp [parseDate, he] at h
    · simp only [parseDate, if_neg he] at h
      exact parseCleaned_bound n tz _ d h

theorem isDigitC_ofNat (x : Nat) (h : x < 10) :
    isDigitC (Char.ofNat (48 + x)) = true := by
  interval_cases x <;> decide

theorem digit_ne_T (c : Char) (h : isDigitC c = true) : c ≠ 'T' := by
  intro he
  subst he
  exact absurd h (by decide)

theorem natDigits_fuelfree (n : Nat) : ∀ f g, n < f → n < g →
    natDigits f n = natDigits g n := by
  induction n using Nat.strong_induction_on with
  | _ n ih =>
    intro f g hf hg
    cases f with
    | zero => omega
    | succ f =>
      cases g with
      | zero => omega
      | succ g =>
        simp only [natDigits]
        by_cases h10 : n < 10
        · simp [h10]
        · simp only [if_neg h10]
          rw [ih (n / 10) (by omega) f g (by omega) (by omega)]

theorem natStr_small (n : Nat) (h : n < 10) : natStr n = [Char.ofNat (48 + n)] := by
  unfold natStr
  simp [natDigits, h]

theorem natStr_step (n : Nat) (h : 10 ≤ n) :
    natStr n = natStr (n / 10) ++ [Char.ofNat (48 + n % 10)] := by
  unfold natStr
  conv_lhs => simp only [natDigits, if_neg (by omega : ¬ n < 10)]
  rw [natDigits_fuelfree (n / 10) n (n / 10 + 1) (by omega) (by omega)]

theorem natStr_digits (n : Nat) : ∀ c ∈ natStr n, isDigitC c = true := by
  induction n using Nat.strong_induction_on with
  | _ n ih =>
    by_cases h10 : n < 10
    · rw [natStr_small n h10]
      intro c hc
      simp at hc
      subst hc
      exact isDigitC_ofNat n h10
    · rw [natStr_step n (by omega)]
      intro c hc
      rcases List.mem_append.mp hc with h | h
      · exact ih (n / 10) (by omega) c h
      · simp at h
        subst h
        exact isDigitC_ofNat (n % 10) (by omega)

theorem natStr_len_le (n : Nat) : ∀ k, 1 ≤ k → n < 10 ^ k →
    (natStr n).length ≤ k := by
  induction n using Nat.strong_induction_on with
  | _ n ih =>
    intro k hk hnk
    by_cases h10 : n < 10
    · rw [natStr_small n h10]
      simpa using hk
    · have hk2 : 2 ≤ k := by
        rcases Nat.lt_or_ge k 2 with h | h
        · interval_cases k <;> omega
        · exact h
      have hpow : (10 : Nat) ^ k = 10 * 10 ^ (k - 1) := by
        conv_lhs => rw [show k = (k - 1) + 1 by omega]
        ring
      rw [natStr_step n (by omega)]
      have := ih (n / 10) (by omega) (k - 1) (by omega) (by omega)
      simp only [List.length_append, List.length_cons, List.length_nil]
      omega

theorem padZ_spec (w : Nat) (i : Int) (h0 : 0 ≤ i) (hw : 1 ≤ w)
    (hlt : i < (10 : Int) ^ w) :
    (padZ w i).length = w ∧ ∀ c ∈ padZ w i, isDigitC c = true := by
  have hnat : i.toNat < 10 ^ w := by
    have h2 : (i.toNat : Int) < ((10 ^ w : Nat) : Int) := by
      rw [Int.toNat_of_nonneg h0]
      push_cast
      exact hlt
    exact_mod_cast h2
  have hstr : intStr i = natStr i.toNat := by
    unfold intStr
    rw [if_neg (by omega)]
  have hlen := natStr_len_le i.toNat w hw hnat
  constructor
  · unfold padZ
    rw [hstr]
    simp only [List.length_append, List.length_replicate]
    omega
  · intro c hc
    unfold padZ at hc
    rw [hstr] at hc
    rcases List.mem_append.mp hc with h | h
    · rw [List.eq_of_mem_replicate h]
      decide
    · exact natStr_digits i.toNat c h

theorem exists_len2 (l : List Char) (h : l.length = 2) : ∃ a b, l = [a, b] := by
  rcases l with _ | ⟨a, l⟩
  · simp at h
  rcases l with _ | ⟨b, l⟩
  · simp at h
  rcases l with _ | ⟨c, l⟩
  · exact ⟨a, b, rfl⟩
  · simp at h

theorem exists_len4 (l : List Char) (h : l.length = 4) :
    ∃ a b c d, l = [a, b, c, d] := by
  rcases l with _ | ⟨a, l⟩
  · simp at h
  rcases l with _ | ⟨b, l⟩
  · simp at h
  have h2 : l.length = 2 := by simpa using h
  obtain ⟨c, d, rfl⟩ := exists_len2 l h2
  exact ⟨a, b, c, d, rfl⟩

theorem mdBounds (doy : Int) (h2 : 0 ≤ doy) (h3 : doy ≤ 365) :
    1 ≤ (5 * doy + 2) / 153 + (if (5 * doy + 2) / 153 < 10 then 3 else -9) ∧
    (5 * doy + 2) / 153 + (if (5 * doy + 2) / 153 < 10 then 3 else -9) ≤ 12 ∧
    1 ≤ doy - (153 * ((5 * doy + 2) / 153) + 2) / 5 + 1 ∧
    doy - (153 * ((5 * doy + 2) / 153) + 2) / 5 + 1 ≤ 31 := by
  repeat' split
  all_goals omega

theorem civil_md_bounds (z : Int) :
    1 ≤ (civilFromDays z).2.1 ∧ (civilFromDays z).2.1 ≤ 12 ∧
    1 ≤ (civilFromDays z).2.2 ∧ (civilFromDays z).2.2 ≤ 31 := by
  have hb : 0 ≤ z + 719468 - (z + 719468) / 146097 * 146097 ∧
      z + 719468 - (z + 719468) / 146097 * 146097 < 146097 := by omega
  have hs := yearOfEra_spec _ hb.1 hb.2
  unfold civilFromDays
  simp only []
  exact mdBounds _ hs.2.2.2.1 hs.2.2.2.2

theorem dateKey_eq_keyOfCivil (tz ms : Int) :
    dateKey tz ms = keyOfCivil (civilFromDays (localDayNum tz ms)) := by
  unfold dateKey keyOfCivil getFullYearL getMonth0L getDateL
  rw [sub_add_cancel]

theorem dateKeyUTC_eq_keyOfCivil (ms : Int) :
    dateKeyUTC ms = keyOfCivil (civilFromDays (utcDayNum ms)) := by
  unfold dateKeyUTC keyOfCivil getUTCFullYear getUTCMonth0 getUTCDate
  rw [sub_add_cancel]

/-- Subtracting exactly 24 hours always lands on the previous UTC calendar
day: the UTC-path "yesterday" of the dashboard is the UTC day-number
decrement. -/
theorem dateKeyUTC_sub_day (t : Int) :
    dateKeyUTC (t - 24 * 60 * 60 * 1000) = keyOfCivil (civilFromDays (utcDayNum t - 1)) := by
  rw [dateKeyUTC_eq_keyOfCivil]
  have h : utcDayNum (t - 24 * 60 * 60 * 1000) = utcDayNum t - 1 := by
    unfold utcDayNum msPerDay
    omega
  rw [h]

/-- The linearity of `daysFromCivil` in its day argument. -/
theorem daysFromCivil_pred (y m d : Int) :
    daysFromCivil y m (d - 1) = daysFromCivil y m d - 1 := by
  unfold daysFromCivil
  simp only []
  repeat' split
  all_goals omega

/-- The local-path "yesterday" anchor `new Date(y, m, date - 1)` denotes the
local calendar day before `tMount`, provided the mount instant's local year
is outside 0..99 (inside that band the constructor's two-digit-year rule
shifts the anchor to 19xx). -/
theorem anchorKey (tz tMount : Int)
    (hy : ¬ (0 ≤ getFullYearL tz tMount ∧ getFullYearL tz tMount ≤ 99)) :
    dateKey tz (yesterdayAnchor tz tMount) =
      keyOfCivil (civilFromDays (localDayNum tz tMount - 1)) := by
  have hmd := civil_md_bounds (localDayNum tz tMount)
  have hrt := daysFromCivil_civilFromDays (localDayNum tz tMount)
  rcases hc : civilFromDays (localDayNum tz tMount) with ⟨y, m, d⟩
  rw [hc] at hmd hrt
  simp only [] at hmd hrt
  have hyy : getFullYearL tz tMount = y := by
    unfold getFullYearL
    rw [hc]
  have hanchor : yesterdayAnchor tz tMount = (localDayNum tz tMount - 1) * msPerDay -
      tz * 60000 := by
    unfold yesterdayAnchor mkDateLocal
    rw [hyy] at hy ⊢
    rw [if_neg hy]
    unfold getMonth0L getDateL
    rw [hc]
    simp only []
    unfold msOfLocalCivil
    have hdiv : (m - 1) / 12 = 0 := by omega
    have hmod : (m - 1) % 12 = m - 1 := by omega
    rw [hdiv, hmod]
    have : m - 1 + 1 = m := by omega
    rw [add_zero, this, daysFromCivil_pred, hrt]
    ring
  rw [dateKey_eq_keyOfCivil, hanchor]
  have : localDayNum tz ((localDayNum tz tMount - 1) * msPerDay - tz * 60000) =
      localDayNum tz tMount - 1 := by
    unfold localDayNum msPerDay
    omega
  rw [this]

theorem mysqlFromMs_shape (ms : Int) (h0 : 0 ≤ getUTCFullYear ms)
    (h1 : getUTCFullYear ms ≤ 9999) :
    isMysqlShape (mysqlFromMs ms) = true := by
  have hmd := civil_md_bounds (utcDayNum ms)
  have hm1 : getUTCMonth0 ms + 1 = (civilFromDays (utcDayNum ms)).2.1 := by
    unfold getUTCMonth0
    ring
  have hY := padZ_spec 4 (getUTCFullYear ms) h0 (by norm_num) (by norm_num; omega)
  have hA : (padZ 2 (getUTCMonth0 ms + 1)).length = 2 ∧
      ∀ c ∈ padZ 2 (getUTCMonth0 ms + 1), isDigitC c = true :=
    padZ_spec 2 _ (by omega) (by norm_num) (by norm_num; omega)
  have hB := padZ_spec 2 (getUTCDate ms) (by unfold getUTCDate; omega) (by norm_num)
    (by unfold getUTCDate; norm_num; omega)
  have hC := padZ_spec 2 (getUTCHours ms)
    (by unfold getUTCHours msPerDay; omega) (by norm_num)
    (by unfold getUTCHours msPerDay; norm_num; omega)
  have hD := padZ_spec 2 (getUTCMinutes ms)
    (by unfold getUTCMinutes; omega) (by norm_num)
    (by unfold getUTCMinutes; norm_num; omega)
  have hE := padZ_spec 2 (getUTCSeconds ms)
    (by unfold getUTCSeconds; omega) (by norm_num)
    (by unfold getUTCSeconds; norm_num; omega)
  obtain ⟨y1, y2, y3, y4, hYe⟩ := exists_len4 _ hY.1
  obtain ⟨a1, a2, hAe⟩ := exists_len2 _ hA.1
  obtain ⟨b1, b2, hBe⟩ := exists_len2 _ hB.1
  obtain ⟨c1, c2, hCe⟩ := exists_len2 _ hC.1
  obtain ⟨d1, d2, hDe⟩ := exists_len2 _ hD.1
  obtain ⟨e1, e2, hEe⟩ := exists_len2 _ hE.1
  have dig : ∀ p : List Char, (∀ c ∈ p, isDigitC c = true) → ∀ x ∈ p,
      isDigitC x = true := fun p hp => hp
  have hy1 := hY.2 y1 (by rw [hYe]; simp)
  have hy2 := hY.2 y2 (by rw [hYe]; simp)
  have hy3 := hY.2 y3 (by rw [hYe]; simp)
  have hy4 := hY.2 y4 (by rw [hYe]; simp)
  have ha1 := hA.2 a1 (by rw [hAe]; simp)
  have ha2 := hA.2 a2 (by rw [hAe]; simp)
  have hb1 := hB.2 b1 (by rw [hBe]; simp)
  have hb2 := hB.2 b2 (by rw [hBe]; simp)
  have hc1 := hC.2 c1 (by rw [hCe]; simp)
  have hc2 := hC.2 c2 (by rw [hCe]; simp)
  have hd1 := hD.2 d1 (by rw [hDe]; simp)
  have hd2 := hD.2 d2 (by rw [hDe]; simp)
  have he1 := hE.2 e1 (by rw [hEe]; simp)
  have he2 := hE.2 e2 (by rw [hEe]; simp)
  unfold mysqlFromMs toISOStringM
  simp only []
  rw [if_pos ⟨h0, h1⟩, hYe, hAe, hBe, hCe, hDe, hEe]
  simp only [List.cons_append, List.nil_append, List.take]
  simp only [replFirstChar, if_neg (digit_ne_T y1 hy1), if_neg (digit_ne_T y2 hy2),
    if_neg (digit_ne_T y3 hy3), if_neg (digit_ne_T y4 hy4),
    if_neg (by decide : ¬ ('-' : Char) = 'T'), if_neg (digit_ne_T a1 ha1),
    if_neg (digit_ne_T a2 ha2), if_neg (digit_ne_T b1 hb1), if_neg (digit_ne_T b2 hb2),
    if_pos rfl]
  unfold isMysqlShape
  simp [hy1, hy2, hy3, hy4, ha1, ha2, hb1, hb2, hc1, hc2, hd1, hd2, he1, he2]

theorem isoZSearch_iff (fuel : Nat) :
    ∀ l : List Char, l.length < fuel →
      (isoZSearch fuel l = true ↔ ∃ t, t <:+ l ∧ isoZShapeAt t = true) := by
  induction fuel with
  | zero => intro l h; exact absurd h (by omega)
  | succ f ih =>
    intro l hl
    cases l with
    | nil =>
      simp only [isoZSearch, Bool.or_eq_true]
      constructor
      · rintro (h | h)
        · exact ⟨[], List.nil_suffix, h⟩
        · cases h
      · rintro ⟨t, ht, hs⟩
        rw [List.suffix_nil] at ht
        subst ht
        exact Or.inl hs
    | cons c t =>
      simp only [isoZSearch, Bool.or_eq_true]
      have hrec := ih t (by simpa using Nat.lt_of_succ_lt_succ hl)
      constructor
      · rintro (h | h)
        · exact ⟨c :: t, List.suffix_refl _, h⟩
        · obtain ⟨u, hu, hs⟩ := hrec.mp h
          exact ⟨u, hu.trans (List.suffix_cons c t), hs⟩
      · rintro ⟨u, hu, hs⟩
        rcases List.suffix_cons_iff.mp hu with h | h
        · subst h
          exact Or.inl hs
        · exact Or.inr (hrec.mpr ⟨u, h, hs⟩)

theorem yearOfEra_inv (yoe doy : Int) (h1 : 0 ≤ yoe) (h2 : yoe ≤ 399)
    (h3 : 0 ≤ doy)
    (h4 : doy ≤ 364 ∨
      (doy = 365 ∧ (yoe + 1) % 4 = 0 ∧ ((yoe + 1) % 100 ≠ 0 ∨ (yoe + 1) % 400 = 0))) :
    yearOfEra (365 * yoe + yoe / 4 - yoe / 100 + doy) = (yoe, doy) := by
  obtain ⟨A, hA⟩ : ∃ A, yoe / 100 = A := ⟨_, rfl⟩
  obtain ⟨B, hB⟩ : ∃ B, (yoe - 100 * A) / 4 = B := ⟨_, rfl⟩
  obtain ⟨s, hs⟩ : ∃ s, yoe - 100 * A - 4 * B = s := ⟨_, rfl⟩
  have hAr : 0 ≤ A ∧ A ≤ 3 := by omega
  have hBr : 0 ≤ B ∧ B ≤ 24 := by omega
  have hsr : 0 ≤ s ∧ s ≤ 3 := by omega
  have hy4 : yoe / 4 = 25 * A + B := by omega
  have hdoe : 365 * yoe + yoe / 4 - yoe / 100 + doy =
      36524 * A + 1461 * B + 365 * s + doy := by omega
  unfold yearOfEra
  simp only []
  rw [Prod.mk.injEq]
  rw [hdoe]
  have hmax : ¬ (doy = 365 ∧ s = 3 ∧ B = 24 ∧ A ≠ 3) := by
    rintro ⟨hd, hs3, hB24, hA3⟩
    rcases h4 with h | h
    · omega
    · rcases h.2.2 with h100 | h400 <;> omega
  have hC : min ((36524 * A + 1461 * B + 365 * s + doy) / 36524) 3 = A := by
    rcases (by omega : doy ≤ 364 ∨ doy = 365) with h | h <;> omega
  rw [hC]
  have hQ : (36524 * A + 1461 * B + 365 * s + doy - A * 36524) / 1461 = B := by
    rcases (by omega : doy ≤ 364 ∨ doy = 365) with h | h <;> omega
  rw [hQ]
  have hR : min ((36524 * A + 1461 * B + 365 * s + doy - A * 36524 - B * 1461) / 365) 3
      = s := by
    rcases (by omega : doy ≤ 364 ∨ doy = 365) with h | h
    · omega
    · have hs3 : s = 3 := by
        rcases h4 with h4 | h4
        · omega
        · omega
      omega
  rw [hR]
  constructor <;> omega

theorem civil_inv_core (z y m d y2 era yoe mp doy : Int)
    (hera : y2 / 400 = era) (hyoe : y2 - era * 400 = yoe)
    (hmp1 : 0 ≤ mp) (hmp2 : mp ≤ 11)
    (hlo : (153 * mp + 2) / 5 ≤ doy) (hhi : doy ≤ (153 * (mp + 1) + 2) / 5 - 1)
    (h365 : doy ≤ 364 ∨
      (doy = 365 ∧ (yoe + 1) % 4 = 0 ∧ ((yoe + 1) % 100 ≠ 0 ∨ (yoe + 1) % 400 = 0)))
    (hm : mp + (if mp < 10 then 3 else -9) = m)
    (hy : yoe + era * 400 + (if m ≤ 2 then 1 else 0) = y)
    (hd : doy - (153 * mp + 2) / 5 + 1 = d)
    (hz : z = era * 146097 + (365 * yoe + yoe / 4 - yoe / 100 + doy) - 719468) :
    civilFromDays z = (y, m, d) := by
  subst hz
  have hyr : 0 ≤ yoe ∧ yoe ≤ 399 := by omega
  have hdoyr : 0 ≤ doy ∧ doy ≤ 365 := by omega
  unfold civilFromDays
  simp only []
  have hz2 : era * 146097 + (365 * yoe + yoe / 4 - yoe / 100 + doy) - 719468 + 719468 =
      era * 146097 + (365 * yoe + yoe / 4 - yoe / 100 + doy) := by ring
  rw [hz2]
  have hera2 : (era * 146097 + (365 * yoe + yoe / 4 - yoe / 100 + doy)) / 146097 = era := by
    omega
  rw [hera2]
  have hsub : era * 146097 + (365 * yoe + yoe / 4 - yoe / 100 + doy) - era * 146097 =
      365 * yoe + yoe / 4 - yoe / 100 + doy := by ring
  rw [hsub]
  rw [yearOfEra_inv yoe doy hyr.1 hyr.2 hdoyr.1 h365]
  simp only []
  have hmpv : (5 * doy + 2) / 153 = mp := by omega
  rw [hmpv]
  rw [Prod.mk.injEq, Prod.mk.injEq]
  refine ⟨?_, hm, hd⟩
  rw [hm]
  exact hy

theorem civilFromDays_daysFromCivil (y m d : Int)
    (hm1 : 1 ≤ m) (hm2 : m ≤ 12) (hd1 : 1 ≤ d) (hd2 : d ≤ daysInMonth y m) :
    civilFromDays (daysFromCivil y m d) = (y, m, d) := by
  by_cases hm3 : 3 ≤ m
  · have hdm : d ≤ (153 * (m - 2) + 2) / 5 - (153 * (m - 3) + 2) / 5 := by
      interval_cases m <;> norm_num [daysInMonth] at hd2 <;> omega
    refine civil_inv_core _ y m d y (y / 400) (y - y / 400 * 400) (m - 3)
      ((153 * (m - 3) + 2) / 5 + d - 1) rfl rfl (by omega) (by omega)
      (by omega) (by omega) (Or.inl (by omega)) ?_ ?_ (by omega) ?_
    · rw [if_pos (by omega : m - 3 < 10)]
      ring
    · rw [if_neg (by omega : ¬ m ≤ 2)]
      omega
    · unfold daysFromCivil
      simp only []
      rw [if_neg (by omega : ¬ m ≤ 2), if_pos (by omega : m > 2)]
      omega
  · by_cases hm4 : m = 1
    · subst hm4
      have hdb : d ≤ 31 := by simpa [daysInMonth] using hd2
      refine civil_inv_core _ y 1 d (y - 1) ((y - 1) / 400)
        (y - 1 - (y - 1) / 400 * 400) 10 (306 + d - 1) rfl rfl (by omega) (by omega)
        (by omega) (by omega) (Or.inl (by omega)) (by norm_num) ?_ (by omega) ?_
      · norm_num
      · unfold daysFromCivil
        simp only []
        norm_num
        omega
    · have hm5 : m = 2 := by omega
      subst hm5
      have hdb : d ≤ if isLeap y then 29 else 28 := by simpa [daysInMonth] using hd2
      have h365 : 306 + 31 + d - 1 ≤ 364 ∨
          (306 + 31 + d - 1 = 365 ∧ (y - 1 - (y - 1) / 400 * 400 + 1) % 4 = 0 ∧
            ((y - 1 - (y - 1) / 400 * 400 + 1) % 100 ≠ 0 ∨
             (y - 1 - (y - 1) / 400 * 400 + 1) % 400 = 0)) := by
        by_cases hL : isLeap y = true
        · rw [if_pos hL] at hdb
          simp only [isLeap, Bool.and_eq_true, Bool.or_eq_true, decide_eq_true_eq,
            bne_iff_ne, ne_eq] at hL
          by_cases hd29 : d = 29
          · right
            refine ⟨by omega, by omega, ?_⟩
            rcases hL.2 with h | h
            · left; omega
            · right; omega
          · left
            omega
        · rw [if_neg hL] at hdb
          left
          omega
      refine civil_inv_core _ y 2 d (y - 1) ((y - 1) / 400)
        (y - 1 - (y - 1) / 400 * 400) 11 (306 + 31 + d - 1) rfl rfl (by omega)
        (by omega) (by omega) ?_ h365 (by norm_num) ?_ (by omega) ?_
      · have : d ≤ 29 := by
          by_cases hL : isLeap y = true <;> simp [hL] at hdb <;> omega
        omega
      · norm_num
      · unfold daysFromCivil
        simp only []
        norm_num
        omega

theorem localCivil_mkDateLocal (tz y m d h mi s : Int)
    (hy : ¬ (0 ≤ y ∧ y ≤ 99))
    (hm1 : 0 ≤ m) (hm2 : m ≤ 11) (hd1 : 1 ≤ d) (hd2 : d ≤ daysInMonth y (m + 1))
    (hh1 : 0 ≤ h) (hh2 : h ≤ 23) (hmi1 : 0 ≤ mi) (hmi2 : mi ≤ 59)
    (hs1 : 0 ≤ s) (hs2 : s ≤ 59) :
    civilFromDays (localDayNum tz (mkDateLocal tz y m d h mi s)) = (y, m + 1, d) := by
  unfold mkDateLocal
  rw [if_neg hy]
  unfold msOfLocalCivil
  have h12 : m / 12 = 0 := by omega
  have h12b : m % 12 = m := by omega
  rw [h12, h12b, add_zero]
  have hday : localDayNum tz (daysFromCivil y (m + 1) d * msPerDay +
      h * 3600000 + mi * 60000 + s * 1000 - tz * 60000) = daysFromCivil y (m + 1) d := by
    unfold localDayNum msPerDay
    omega
  rw [hday]
  exact civilFromDays_daysFromCivil y (m + 1) d (by omega) (by omega) hd1 hd2

theorem localFields_mkDateLocal (tz y m d h mi s : Int)
    (hy : ¬ (0 ≤ y ∧ y ≤ 99))
    (hm1 : 0 ≤ m) (hm2 : m ≤ 11) (hd1 : 1 ≤ d) (hd2 : d ≤ daysInMonth y (m + 1))
    (hh1 : 0 ≤ h) (hh2 : h ≤ 23) (hmi1 : 0 ≤ mi) (hmi2 : mi ≤ 59)
    (hs1 : 0 ≤ s) (hs2 : s ≤ 59) :
    getFullYearL tz (mkDateLocal tz y m d h mi s) = y ∧
    getMonth0L tz (mkDateLocal tz y m d h mi s) = m ∧
    getDateL tz (mkDateLocal tz y m d h mi s) = d := by
  have hc := localCivil_mkDateLocal tz y m d h mi s hy hm1 hm2 hd1 hd2
    hh1 hh2 hmi1 hmi2 hs1 hs2
  unfold getFullYearL getMonth0L getDateL
  rw [hc]
  norm_num

theorem takeDigits_exact : ∀ (ds : List Char) (a : Nat) (r : List Char),
    (∀ c ∈ ds, isDigitC c = true) →
    takeDigits ds.length a (ds ++ r) = some (valAcc a ds, r) := by
  intro ds
  induction ds with
  | nil => intro a r _; rfl
  | cons c t ih =>
    intro a r h
    simp only [List.length_cons, List.cons_append, takeDigits,
      h c (List.mem_cons_self c t), if_true, List.append_eq]
    rw [ih (a * 10 + digVal c) r (fun x hx => h x (List.mem_cons_of_mem c hx))]
    rfl

theorem takeDigits_stop : ∀ (n : Nat) (ds : List Char) (a : Nat) (c : Char) (r : List Char),
    ds.length < n → isDigitC c = false →
    takeDigits n a (ds ++ c :: r) = none := by
  intro n
  induction n with
  | zero => intro ds a c r h _; omega
  | succ m ih =>
    intro ds a c r h hc
    cases ds with
    | nil =>
      simp only [List.nil_append, takeDigits, hc]
      rfl
    | cons d t =>
      simp only [List.cons_append, takeDigits]
      by_cases hd : isDigitC d = true
      · rw [if_pos hd]
        exact ih t _ c r (by simpa using Nat.lt_of_succ_lt_succ h) hc
      · rw [if_neg hd]

theorem digits12_nonDigit (c : Char) (t : List Char) (hc : isDigitC c = false) :
    digits12 (c :: t) = [] := by
  cases t with
  | nil => simp [digits12, hc]
  | cons b r => simp [digits12, hc]

theorem digits12_findSome {γ : Type} (D : List Char) (c : Char) (r : List Char)
    (f : Nat × List Char → Option γ) (v : γ)
    (hD : ∀ x ∈ D, isDigitC x = true) (h1 : 1 ≤ D.length) (h2 : D.length ≤ 2)
    (hc : isDigitC c = false) (hf : f (valAcc 0 D, c :: r) = some v) :
    (digits12 (D ++ c :: r)).findSome? f = some v := by
  match D, h1, h2 with
  | [d], _, _ =>
    have hd : isDigitC d = true := hD d (by simp)
    simp only [List.cons_append, List.nil_append, digits12, hd, if_true, hc]
    simp only [Bool.false_eq_true, if_false, List.findSome?_cons]
    have hval : valAcc 0 [d] = digVal d := by
      simp [valAcc]
    rw [hval] at hf
    rw [hf]
  | [d1, d2], _, _ =>
    have hd1 : isDigitC d1 = true := hD d1 (by simp)
    have hd2 : isDigitC d2 = true := hD d2 (by simp)
    simp only [List.cons_append, List.nil_append, digits12, hd1, hd2, if_true,
      List.findSome?_cons]
    have hval : valAcc 0 [d1, d2] = digVal d1 * 10 + digVal d2 := by
      simp [valAcc]
    rw [hval] at hf
    rw [hf]

theorem takeWhile_app {p : Char → Bool} : ∀ (x : List Char) (c : Char) (r : List Char),
    (∀ a ∈ x, p a = true) → p c = false →
    (x ++ c :: r).takeWhile p = x := by
  intro x
  induction x with
  | nil =>
    intro c r _ hc
    simp [List.takeWhile_cons, hc]
  | cons a t ih =>
    intro c r h hc
    simp only [List.cons_append, List.takeWhile_cons, h a (by simp)]
    rw [ih c r (fun b hb => h b (List.mem_cons_of_mem a hb)) hc]
    simp

theorem dropWhile_app {p : Char → Bool} : ∀ (x : List Char) (c : Char) (r : List Char),
    (∀ a ∈ x, p a = true) → p c = false →
    (x ++ c :: r).dropWhile p = c :: r := by
  intro x
  induction x with
  | nil =>
    intro c r _ hc
    simp [List.dropWhile_cons, hc]
  | cons a t ih =>
    intro c r h hc
    simp only [List.cons_append, List.dropWhile_cons, h a (by simp)]
    exact ih c r (fun b hb => h b (List.mem_cons_of_mem a hb)) hc

theorem wsPlus_space {c : Char} (r : List Char) (hc : isWsC c = false) :
    wsPlus (' ' :: c :: r) = [c :: r] := by
  unfold wsPlus
  rw [show (' ' :: c :: r).takeWhile isWsC = [' '] from by
    simp [List.takeWhile_cons, hc, (by decide : isWsC ' ' = true)]]
  rfl

theorem wsStar_space {c : Char} (r : List Char) (hc : isWsC c = false) :
    wsStar (' ' :: c :: r) = [c :: r, ' ' :: c :: r] := by
  unfold wsStar
  rw [show (' ' :: c :: r).takeWhile isWsC = [' '] from by
    simp [List.takeWhile_cons, hc, (by decide : isWsC ' ' = true)]]
  rfl

theorem wsStar_noWs {c : Char} (r : List Char) (hc : isWsC c = false) :
    wsStar (c :: r) = [c :: r] := by
  unfold wsStar
  rw [show (c :: r).takeWhile isWsC = [] from by simp [List.takeWhile_cons, hc]]
  rfl

theorem wsStar_nil : wsStar [] = [[]] := by rfl

theorem lazySep_comma_space {c : Char} (t : List Char)
    (hc1 : (c = ',' : Bool) = false) (hc2 : isWsC c = false) :
    lazySep (',' :: ' ' :: c :: t) = [',' :: ' ' :: c :: t, ' ' :: c :: t, c :: t] := by
  unfold lazySep
  rw [show (',' :: ' ' :: c :: t).takeWhile (fun c => c = ',' || isWsC c) = [',', ' ']
    from by simp [List.takeWhile_cons, hc1, hc2, (by decide : isWsC ' ' = true)]]
  rfl

theorem lazySep_space {c : Char} (t : List Char)
    (hc1 : (c = ',' : Bool) = false) (hc2 : isWsC c = false) :
    lazySep (' ' :: c :: t) = [' ' :: c :: t, c :: t] := by
  unfold lazySep
  rw [show (' ' :: c :: t).takeWhile (fun c => c = ',' || isWsC c) = [' ']
    from by simp [List.takeWhile_cons, hc1, hc2, (by decide : isWsC ' ' = true)]]
  rfl

theorem lazySep_none {c : Char} (t : List Char)
    (hc1 : (c = ',' : Bool) = false) (hc2 : isWsC c = false) :
    lazySep (c :: t) = [c :: t] := by
  unfold lazySep
  rw [show (c :: t).takeWhile (fun c => c = ',' || isWsC c) = []
    from by simp [List.takeWhile_cons, hc1, hc2]]
  rfl

theorem optCharSplits_hit (x : Char) (t : List Char) :
    optCharSplits x (x :: t) = [t, x :: t] := by
  simp [optCharSplits]

theorem optCharSplits_miss {x c : Char} (t : List Char) (h : (c = x : Bool) = false) :
    optCharSplits x (c :: t) = [c :: t] := by
  simp only [optCharSplits]
  rw [if_neg (by simpa using h)]

theorem alphaRun39_eval {γ : Type} (mn : List Char) (c : Char) (R : List Char)
    (h3 : 3 ≤ mn.length) (h9 : mn.length ≤ 9)
    (halpha : ∀ a ∈ mn, isAlphaC a = true) (hc : isAlphaC c = false)
    (f : List Char × List Char → Option γ) (v : γ)
    (hf : f (mn, c :: R) = some v) :
    (alphaRun39 (mn ++ c :: R)).findSome? f = some v := by
  unfold alphaRun39
  simp only []
  rw [takeWhile_app mn c R halpha hc]
  have hmin : min mn.length 9 = mn.length := by omega
  rw [hmin]
  obtain ⟨junk, hj⟩ : ∃ junk,
      (List.range' 3 (mn.length - 2)).reverse = mn.length :: junk := by
    have h1 : mn.length - 2 = (mn.length - 3) + 1 := by omega
    rw [h1, List.range'_1_concat, List.reverse_append]
    have h2 : 3 + (mn.length - 3) = mn.length := by omega
    exact ⟨_, by rw [h2]; rfl⟩
  rw [hj]
  simp only [List.map_cons, List.findSome?_cons]
  rw [List.take_left' rfl, List.drop_left' rfl]
  rw [hf]

theorem apStage_eval {γ : Type} (ap : Option Bool)
    (g : Option Bool → Option γ) (v : γ) (hg : g ap = some v) :
    (wsStar (apPart ap)).findSome? (fun r13 =>
      (ampmOpt r13).findSome? (fun pq => g pq.1)) = some v := by
  cases ap with
  | none =>
    simp only [apPart, wsStar_nil, List.findSome?_cons]
    simp only [ampmOpt, List.findSome?_cons, hg]
  | some pm =>
    cases pm with
    | false =>
      rw [show apPart (some false) = [' ', 'A', 'M'] from by decide]
      rw [show wsStar [' ', 'A', 'M'] = [['A', 'M'], [' ', 'A', 'M']] from by decide]
      simp only [List.findSome?_cons]
      rw [show ampmOpt ['A', 'M'] = [(some false, []), (none, ['A', 'M'])] from by decide]
      simp only [List.findSome?_cons, hg]
    | true =>
      rw [show apPart (some true) = [' ', 'P', 'M'] from by decide]
      rw [show wsStar [' ', 'P', 'M'] = [['P', 'M'], [' ', 'P', 'M']] from by decide]
      simp only [List.findSome?_cons]
      rw [show ampmOpt ['P', 'M'] = [(some true, []), (none, ['P', 'M'])] from by decide]
      simp only [List.findSome?_cons, hg]

theorem seStage_eval {γ : Type} (seD : Option (List Char)) (ap : Option Bool)
    (hse : ∀ sD, seD = some sD → (∀ c ∈ sD, isDigitC c = true) ∧ sD.length = 2)
    (g : Option Nat → List Char → Option γ) (v : γ)
    (hg : g (seD.map (valAcc 0)) (apPart ap) = some v) :
    (secOpt (ssPart seD ++ apPart ap)).findSome? (fun p => g p.1 p.2) = some v := by
  cases seD with
  | none =>
    simp only [Option.map_none'] at hg
    simp only [ssPart, List.nil_append]
    cases ap with
    | none =>
      simp only [apPart] at hg ⊢
      simp only [secOpt, List.findSome?_cons, hg]
    | some pm =>
      cases pm with
      | false =>
        rw [show apPart (some false) = [' ', 'A', 'M'] from by decide] at hg ⊢
        rw [show secOpt [' ', 'A', 'M'] = [(none, [' ', 'A', 'M'])] from by decide]
        simp only [List.findSome?_cons, hg]
      | true =>
        rw [show apPart (some true) = [' ', 'P', 'M'] from by decide] at hg ⊢
        rw [show secOpt [' ', 'P', 'M'] = [(none, [' ', 'P', 'M'])] from by decide]
        simp only [List.findSome?_cons, hg]
  | some sD =>
    obtain ⟨hdig, hlen⟩ := hse sD rfl
    simp only [Option.map_some'] at hg
    simp only [ssPart, List.cons_append]
    have hsec : secOpt (':' :: (sD ++ apPart ap)) =
        [(some (valAcc 0 sD), apPart ap), (none, ':' :: (sD ++ apPart ap))] := by
      simp only [secOpt]
      rw [show (2 : Nat) = sD.length from hlen.symm, takeDigits_exact sD 0 (apPart ap) hdig]
    rw [hsec]
    simp only [List.findSome?_cons, hg]

theorem timeTail_eval {γ : Type} (hD miD : List Char) (seD : Option (List Char))
    (ap : Option Bool)
    (hhD : ∀ c ∈ hD, isDigitC c = true) (hh1 : 1 ≤ hD.length) (hh2 : hD.length ≤ 2)
    (hmiD : ∀ c ∈ miD, isDigitC c = true) (hmi2 : miD.length = 2)
    (hseD : ∀ sD, seD = some sD → (∀ c ∈ sD, isDigitC c = true) ∧ sD.length = 2)
    (g : Nat → Nat → Option Nat → Option Bool → Option γ) (v : γ)
    (hg : g (valAcc 0 hD) (valAcc 0 miD) (seD.map (valAcc 0)) ap = some v) :
    (digits12 (hD ++ ':' :: (miD ++ (ssPart seD ++ apPart ap)))).findSome?
      (fun (h, r9) =>
        match r9 with
        | ':' :: r10 =>
          match takeDigits 2 0 r10 with
          | none => none
          | some (mi, r11) =>
            (secOpt r11).findSome? fun (se, r12) =>
            (wsStar r12).findSome? fun r13 =>
            (ampmOpt r13).findSome? fun (pm, _) => g h mi se pm
        | _ => none) = some v := by
  apply digits12_findSome hD ':' (miD ++ (ssPart seD ++ apPart ap)) _ v hhD hh1 hh2
    (by decide)
  show (match takeDigits 2 0 (miD ++ (ssPart seD ++ apPart ap)) with
        | none => none
        | some (mi, r11) =>
          (secOpt r11).findSome? fun (se, r12) =>
          (wsStar r12).findSome? fun r13 =>
          (ampmOpt r13).findSome? fun (pm, _) => g (valAcc 0 hD) mi se pm) = some v
  rw [show (2 : Nat) = miD.length from hmi2.symm,
    takeDigits_exact miD 0 (ssPart seD ++ apPart ap) hmiD]
  show (secOpt (ssPart seD ++ apPart ap)).findSome? (fun (se, r12) =>
      (wsStar r12).findSome? fun r13 =>
      (ampmOpt r13).findSome? fun (pm, _) => g (valAcc 0 hD) (valAcc 0 miD) se pm) = some v
  exact seStage_eval seD ap hseD
    (fun se r12 =>
      (wsStar r12).findSome? fun r13 =>
      (ampmOpt r13).findSome? fun (pm, _) => g (valAcc 0 hD) (valAcc 0 miD) se pm) v
    (apStage_eval ap (fun pm => g (valAcc 0 hD) (valAcc 0 miD) (seD.map (valAcc 0)) pm)
      v hg)

theorem digit_not_ws (c : Char) (h : isDigitC c = true) : isWsC c = false := by
  simp only [isDigitC, decide_eq_true_eq] at h
  by_contra hw
  simp only [Bool.not_eq_false] at hw
  simp only [isWsC, decide_eq_true_eq] at hw
  have h1 : (48 : Nat) ≤ c.toNat := h.1
  have h2 : c.toNat ≤ 57 := h.2
  rcases hw with h3 | h3 | h3 | h3 | h3 | h3 <;> subst h3 <;>
    exact absurd h1 (by decide)

theorem digit_not_comma (c : Char) (h : isDigitC c = true) :
    (decide (c = ',')) = false := by
  simp only [isDigitC, decide_eq_true_eq] at h
  have h1 : (48 : Nat) ≤ c.toNat := h.1
  simp only [decide_eq_false_iff_not]
  intro he
  subst he
  exact absurd h1 (by decide)

theorem digit_not_alpha (c : Char) (h : isDigitC c = true) : isAlphaC c = false := by
  simp only [isDigitC, decide_eq_true_eq] at h
  by_contra hw
  simp only [Bool.not_eq_false] at hw
  simp only [isAlphaC, decide_eq_true_eq] at hw
  have h1 : (48 : Nat) ≤ c.toNat := h.1
  have h2 : c.toNat ≤ 57 := h.2
  rcases hw with ⟨h3, h4⟩ | ⟨h3, h4⟩
  · have : (97 : Nat) ≤ c.toNat := h3
    omega
  · have g1 : (65 : Nat) ≤ c.toNat := h3
    have g2 : c.toNat ≤ 90 := h4
    omega

theorem yearStage_eval {γ : Type} (yr : Option (Bool × List Char)) (cT : Bool)
    (T : List Char) (d1 : Char) (dt : List Char) (hT : T = d1 :: dt)
    (hd1 : isDigitC d1 = true) (hTshort : takeDigits 4 0 T = none)
    (hyrD : ∀ cma yD, yr = some (cma, yD) → (∀ c ∈ yD, isDigitC c = true) ∧ yD.length = 4)
    (F : Option Nat → List Char → Option γ) (v : γ)
    (hF : F (yr.map fun p => valAcc 0 p.2) T = some v)
    (hFfail1 : F (yr.map fun p => valAcc 0 p.2) (',' :: ' ' :: T) = none)
    (hFfail2 : F (yr.map fun p => valAcc 0 p.2) (' ' :: T) = none) :
    (optCharSplits ',' (yrPart yr ++ ((if cT then [','] else []) ++ ' ' :: T))).findSome?
      (fun r5 => (wsStar r5).findSome? fun r6 =>
        (digits4Opt r6).findSome? fun (yv, r7) =>
        (lazySep r7).findSome? fun r8 => F yv r8) = some v := by
  have hd1w : isWsC d1 = false := digit_not_ws d1 hd1
  have hd1c : (decide (d1 = ',')) = false := digit_not_comma d1 hd1
  cases yr with
  | none =>
    simp only [Option.map_none'] at hF hFfail1 hFfail2
    have hnoYear : (wsStar (' ' :: T)).findSome? (fun r6 =>
        (digits4Opt r6).findSome? fun (yv, r7) =>
        (lazySep r7).findSome? fun r8 => F yv r8) = some v := by
      subst hT
      rw [wsStar_space dt hd1w]
      simp only [List.findSome?_cons]
      rw [show digits4Opt (d1 :: dt) = [(none, d1 :: dt)] from by
        simp only [digits4Opt, hTshort]]
      simp only [List.findSome?_cons]
      rw [lazySep_none dt hd1c hd1w]
      simp only [List.findSome?_cons]
      rw [hF]
    have hshape : yrPart none ++ ((if cT then [','] else []) ++ ' ' :: T) =
        (if cT then [','] else []) ++ ' ' :: T := by simp [yrPart]
    rw [hshape]
    cases cT with
    | true =>
      rw [show ((if (true : Bool) then [','] else []) ++ ' ' :: T) = ',' :: (' ' :: T)
        from by simp]
      rw [optCharSplits_hit]
      simp only [List.findSome?_cons]
      rw [hnoYear]
    | false =>
      rw [show ((if (false : Bool) then [','] else []) ++ ' ' :: T) = ' ' :: T
        from by simp]
      rw [optCharSplits_miss _ (by decide)]
      simp only [List.findSome?_cons]
      rw [hnoYear]
  | some p =>
    obtain ⟨cma, yD⟩ := p
    obtain ⟨hyd, hylen⟩ := hyrD cma yD rfl
    obtain ⟨y1, yt, hy1⟩ : ∃ y1 yt, yD = y1 :: yt := by
      cases yD with
      | nil => simp at hylen
      | cons a b => exact ⟨a, b, rfl⟩
    have hy1d : isDigitC y1 = true := hyd y1 (by rw [hy1]; simp)
    have hy1w : isWsC y1 = false := digit_not_ws y1 hy1d
    simp only [Option.map_some'] at hF hFfail1 hFfail2
    have hmain : (wsStar (' ' :: (yD ++ ((if cT then [','] else []) ++ ' ' :: T)))).findSome?
        (fun r6 => (digits4Opt r6).findSome? fun (yv, r7) =>
          (lazySep r7).findSome? fun r8 => F yv r8) = some v := by
      rw [show ' ' :: (yD ++ ((if cT then [','] else []) ++ ' ' :: T)) =
        ' ' :: y1 :: (yt ++ ((if cT then [','] else []) ++ ' ' :: T)) from by
          rw [hy1]; rfl]
      rw [wsStar_space _ hy1w]
      simp only [List.findSome?_cons]
      rw [show y1 :: (yt ++ ((if cT then [','] else []) ++ ' ' :: T)) =
        yD ++ ((if cT then [','] else []) ++ ' ' :: T) from by rw [hy1]; rfl]
      rw [show digits4Opt (yD ++ ((if cT then [','] else []) ++ ' ' :: T)) =
          [(some (valAcc 0 yD), (if cT then [','] else []) ++ ' ' :: T),
           (none, yD ++ ((if cT then [','] else []) ++ ' ' :: T))] from by
        simp only [digits4Opt]
        rw [show (4 : Nat) = yD.length from hylen.symm,
          takeDigits_exact yD 0 _ hyd]]
      simp only [List.findSome?_cons]
      cases cT with
      | true =>
        rw [show ((if (true : Bool) then [','] else []) ++ ' ' :: T) = ',' :: (' ' :: T)
          from by simp]
        subst hT
        rw [lazySep_comma_space dt hd1c hd1w]
        simp only [List.findSome?_cons]
        rw [hFfail1, hFfail2, hF]
      | false =>
        rw [show ((if (false : Bool) then [','] else []) ++ ' ' :: T) = ' ' :: T
          from by simp]
        subst hT
        rw [lazySep_space dt hd1c hd1w]
        simp only [List.findSome?_cons]
        rw [hFfail2, hF]
    cases cma with
    | true =>
      have hshape : yrPart (some (true, yD)) ++ ((if cT then [','] else []) ++ ' ' :: T) =
          ',' :: (' ' :: (yD ++ ((if cT then [','] else []) ++ ' ' :: T))) := by
        simp [yrPart]
      rw [hshape, optCharSplits_hit]
      simp only [List.findSome?_cons]
      rw [hmain]
    | false =>
      have hshape : yrPart (some (false, yD)) ++ ((if cT then [','] else []) ++ ' ' :: T) =
          ' ' :: (yD ++ ((if cT then [','] else []) ++ ' ' :: T)) := by
        simp [yrPart]
      rw [hshape, optCharSplits_miss _ (by decide)]
      simp only [List.findSome?_cons]
      rw [hmain]

theorem findSome_first {α β : Type} (f : α → Option β) (a : α) (l : List α) (v : β)
    (h : f a = some v) : List.findSome? f (a :: l) = some v := by
  rw [List.findSome?_cons, h]

theorem digits12_findSomeE {γ : Type} (D R : List Char)
    (f : Nat × List Char → Option γ) (v : γ)
    (hD : ∀ x ∈ D, isDigitC x = true) (h1 : 1 ≤ D.length) (h2 : D.length ≤ 2)
    (hR : ∃ c r, R = c :: r ∧ isDigitC c = false)
    (hf : f (valAcc 0 D, R) = some v) :
    (digits12 (D ++ R)).findSome? f = some v := by
  obtain ⟨c, r, rfl, hc⟩ := hR
  exact digits12_findSome D c r f v hD h1 h2 hc hf

theorem yrPart_head (yr : Option (Bool × List Char)) (cT : Bool) (T : List Char) :
    ∃ c r, yrPart yr ++ ((if cT then [','] else []) ++ ' ' :: T) = c :: r ∧
      isDigitC c = false := by
  cases yr with
  | none =>
    cases cT with
    | true => exact ⟨',', ' ' :: T, by simp [yrPart], by decide⟩
    | false => exact ⟨' ', T, by simp [yrPart], by decide⟩
  | some p =>
    obtain ⟨cma, yD⟩ := p
    cases cma with
    | true =>
      exact ⟨',', ' ' :: (yD ++ ((if cT then [','] else []) ++ ' ' :: T)),
        by simp [yrPart], by decide⟩
    | false =>
      exact ⟨' ', yD ++ ((if cT then [','] else []) ++ ' ' :: T),
        by simp [yrPart], by decide⟩

theorem mtAt_mtForm (mn dayD : List Char) (yr : Option (Bool × List Char)) (cT : Bool)
    (hD miD : List Char) (seD : Option (List Char)) (ap : Option Bool)
    (hmn3 : 3 ≤ mn.length) (hmn9 : mn.length ≤ 9)
    (halpha : ∀ a ∈ mn, isAlphaC a = true)
    (hdayD : ∀ c ∈ dayD, isDigitC c = true) (hday1 : 1 ≤ dayD.length)
    (hday2 : dayD.length ≤ 2)
    (hyrD : ∀ cma yD, yr = some (cma, yD) → (∀ c ∈ yD, isDigitC c = true) ∧ yD.length = 4)
    (hhD : ∀ c ∈ hD, isDigitC c = true) (hh1 : 1 ≤ hD.length) (hh2 : hD.length ≤ 2)
    (hmiD : ∀ c ∈ miD, isDigitC c = true) (hmi2 : miD.length = 2)
    (hseD : ∀ sD, seD = some sD → (∀ c ∈ sD, isDigitC c = true) ∧ sD.length = 2) :
    mtAt (mtForm mn dayD yr cT hD miD seD ap) =
      some ⟨mn, valAcc 0 dayD, yr.map (fun p => valAcc 0 p.2), valAcc 0 hD,
        valAcc 0 miD, seD.map (valAcc 0), ap⟩ := by
  obtain ⟨e, et, he⟩ : ∃ e et, hD = e :: et := by
    cases hD with
    | nil => simp at hh1
    | cons a b => exact ⟨a, b, rfl⟩
  obtain ⟨d0, dtl, hd0⟩ : ∃ d0 dtl, dayD = d0 :: dtl := by
    cases dayD with
    | nil => simp at hday1
    | cons a b => exact ⟨a, b, rfl⟩
  have hTshort : takeDigits 4 0 (hD ++ ':' :: (miD ++ (ssPart seD ++ apPart ap))) =
      none := takeDigits_stop 4 hD 0 ':' _ (by omega) (by decide)
  have hTgroup : hD ++ ':' :: (miD ++ (ssPart seD ++ apPart ap)) =
      e :: (et ++ ':' :: (miD ++ (ssPart seD ++ apPart ap))) := by rw [he]; rfl
  have hed : isDigitC e = true := hhD e (by rw [he]; simp)
  have hgroup : mtForm mn dayD yr cT hD miD seD ap =
      mn ++ ' ' :: (dayD ++ (yrPart yr ++ ((if cT then [','] else []) ++
        ' ' :: (hD ++ ':' :: (miD ++ (ssPart seD ++ apPart ap)))))) := by
    unfold mtForm
    simp [List.append_assoc]
  rw [hgroup]
  unfold mtAt
  apply alphaRun39_eval mn ' ' _ hmn3 hmn9 halpha (by decide)
  try simp only []
  rw [optCharSplits_miss _ (by decide)]
  apply findSome_first
  try simp only []
  rw [show ' ' :: (dayD ++ (yrPart yr ++ ((if cT then [','] else []) ++
      ' ' :: (hD ++ ':' :: (miD ++ (ssPart seD ++ apPart ap)))))) =
    ' ' :: d0 :: (dtl ++ (yrPart yr ++ ((if cT then [','] else []) ++
      ' ' :: (hD ++ ':' :: (miD ++ (ssPart seD ++ apPart ap)))))) from by rw [hd0]; rfl]
  rw [wsPlus_space _ (digit_not_ws d0 (hdayD d0 (by rw [hd0]; simp)))]
  apply findSome_first
  try simp only []
  rw [show d0 :: (dtl ++ (yrPart yr ++ ((if cT then [','] else []) ++
      ' ' :: (hD ++ ':' :: (miD ++ (ssPart seD ++ apPart ap)))))) =
    dayD ++ (yrPart yr ++ ((if cT then [','] else []) ++
      ' ' :: (hD ++ ':' :: (miD ++ (ssPart seD ++ apPart ap))))) from by rw [hd0]; rfl]
  apply digits12_findSomeE dayD _ _ _ hdayD hday1 hday2 (yrPart_head yr cT _)
  exact yearStage_eval yr cT _ e (et ++ ':' :: (miD ++ (ssPart seD ++ apPart ap)))
    hTgroup hed hTshort hyrD
    ((fun yv r8 => (digits12 r8).findSome? fun (h, r9) =>
      match r9 with
      | ':' :: r10 =>
        match takeDigits 2 0 r10 with
        | none => none
        | some (mi, r11) =>
          (secOpt r11).findSome? fun (se, r12) =>
          (wsStar r12).findSome? fun r13 =>
          (ampmOpt r13).findSome? fun (pm, _) =>
            some ⟨mn, valAcc 0 dayD, yv, h, mi, se, pm⟩
      | _ => none) :
      Option Nat → List Char → Option MTCap)
    _
    (timeTail_eval hD miD seD ap hhD hh1 hh2 hmiD hmi2 hseD
      ((fun h mi se pm => some ⟨mn, valAcc 0 dayD, yr.map (fun p => valAcc 0 p.2),
        h, mi, se, pm⟩) : Nat → Nat → Option Nat → Option Bool → Option MTCap) _ rfl)
    (by simp only []; rw [digits12_nonDigit ',' _ (by decide)]; rfl)
    (by simp only []; rw [digits12_nonDigit ' ' _ (by decide)]; rfl)

theorem mtSearch_mtForm (mn dayD : List Char) (yr : Option (Bool × List Char)) (cT : Bool)
    (hD miD : List Char) (seD : Option (List Char)) (ap : Option Bool)
    (hmn3 : 3 ≤ mn.length) (hmn9 : mn.length ≤ 9)
    (halpha : ∀ a ∈ mn, isAlphaC a = true)
    (hdayD : ∀ c ∈ dayD, isDigitC c = true) (hday1 : 1 ≤ dayD.length)
    (hday2 : dayD.length ≤ 2)
    (hyrD : ∀ cma yD, yr = some (cma, yD) → (∀ c ∈ yD, isDigitC c = true) ∧ yD.length = 4)
    (hhD : ∀ c ∈ hD, isDigitC c = true) (hh1 : 1 ≤ hD.length) (hh2 : hD.length ≤ 2)
    (hmiD : ∀ c ∈ miD, isDigitC c = true) (hmi2 : miD.length = 2)
    (hseD : ∀ sD, seD = some sD → (∀ c ∈ sD, isDigitC c = true) ∧ sD.length = 2) :
    mtSearch (mtForm mn dayD yr cT hD miD seD ap) =
      some ⟨mn, valAcc 0 dayD, yr.map (fun p => valAcc 0 p.2), valAcc 0 hD,
        valAcc 0 miD, seD.map (valAcc 0), ap⟩ := by
  unfold mtSearch
  rw [show (mtForm mn dayD yr cT hD miD seD ap).length + 1 =
    (mtForm mn dayD yr cT hD miD seD ap).length + 1 from rfl]
  simp only [searchFrom]
  rw [mtAt_mtForm mn dayD yr cT hD miD seD ap hmn3 hmn9 halpha hdayD hday1 hday2
    hyrD hhD hh1 hh2 hmiD hmi2 hseD]

theorem ndl_tail (c : Char) (t : List Char) (h : noDigitLetter (c :: t) = true) :
    noDigitLetter t = true := by
  cases t with
  | nil => rfl
  | cons x r =>
    simp only [noDigitLetter, Bool.and_eq_true] at h
    exact h.2

theorem ndl_dropWhile (p : Char → Bool) : ∀ l : List Char,
    noDigitLetter l = true → noDigitLetter (l.dropWhile p) = true := by
  intro l
  induction l with
  | nil => intro _; rfl
  | cons c t ih =>
    intro h
    rw [List.dropWhile_cons]
    by_cases hc : p c = true
    · rw [if_pos hc]
      exact ih (ndl_tail c t h)
    · rw [if_neg hc]
      exact h

theorem ndl_boundary : ∀ (t : List Char) (prev : Char), isDigitC prev = true →
    noDigitLetter (prev :: t) = true →
    ∀ a r2, (prev :: t).dropWhile isDigitC = a :: r2 → isAlphaC a = false := by
  intro t
  induction t with
  | nil =>
    intro prev hd _ a r2 hdrop
    rw [List.dropWhile_cons, if_pos hd] at hdrop
    cases hdrop
  | cons x t2 ih =>
    intro prev hd hn a r2 hdrop
    rw [List.dropWhile_cons, if_pos hd] at hdrop
    by_cases hx : isDigitC x = true
    · exact ih x hx (ndl_tail prev (x :: t2) hn) a r2 hdrop
    · rw [List.dropWhile_cons, if_neg hx] at hdrop
      injection hdrop with h1 h2
      subst h1
      simp only [noDigitLetter, Bool.and_eq_true, Bool.not_eq_true',
        Bool.and_eq_false_iff] at hn
      rcases hn.1 with h | h
      · rw [hd] at h; cases h
      · exact h

theorem ordSuffix_alpha (a b : Char) (h : isOrdSuffix a b = true) : isAlphaC a = true := by
  simp only [isOrdSuffix, Bool.or_eq_true, Bool.and_eq_true, decide_eq_true_eq] at h
  have key : ∀ x : Char, 97 ≤ x.toNat → x.toNat ≤ 122 → asciiLower a = x →
      isAlphaC a = true := by
    intro x hx1 hx2 he
    rw [char_eq_iff_toNat, asciiLower_toNat] at he
    simp only [isAlphaC, decide_eq_true_eq]
    by_cases hr : 65 ≤ a.toNat ∧ a.toNat ≤ 90
    · right
      exact ⟨hr.1, hr.2⟩
    · rw [if_neg hr] at he
      left
      constructor
      · show (97 : Nat) ≤ a.toNat
        omega
      · show a.toNat ≤ 122
        omega
  rcases h with ((h1 | h1) | h1) | h1
  · exact key 's' (by decide) (by decide) h1.1
  · exact key 'n' (by decide) (by decide) h1.1
  · exact key 'r' (by decide) (by decide) h1.1
  · exact key 't' (by decide) (by decide) h1.1

theorem ordStrip_id : ∀ (fuel : Nat) (l : List Char),
    noDigitLetter l = true → ordStrip fuel l = l := by
  intro fuel
  induction fuel with
  | zero => intro l _; rfl
  | succ f ih =>
    intro l h
    cases l with
    | nil => rfl
    | cons c t =>
      by_cases hc : isDigitC c = true
      · simp only [ordStrip, hc, if_true]
        have hsplit := List.takeWhile_append_dropWhile isDigitC (c :: t)
        have hrest : noDigitLetter ((c :: t).dropWhile isDigitC) = true :=
          ndl_dropWhile isDigitC (c :: t) h
        cases hdrop : (c :: t).dropWhile isDigitC with
        | nil =>
          rw [hdrop] at hsplit hrest
          show (c :: t).takeWhile isDigitC ++ ordStrip f [] = c :: t
          rw [ih [] hrest]
          simpa using hsplit
        | cons a r2 =>
          have hna : isAlphaC a = false := ndl_boundary t c hc h a r2 hdrop
          rw [hdrop] at hsplit hrest
          cases r2 with
          | nil =>
            show (c :: t).takeWhile isDigitC ++ ordStrip f [a] = c :: t
            rw [ih [a] hrest]
            exact hsplit
          | cons b r3 =>
            have hord : isOrdSuffix a b = false := by
              by_cases ho : isOrdSuffix a b = true
              · rw [ordSuffix_alpha a b ho] at hna
                cases hna
              · simpa using ho
            show (if isOrdSuffix a b = true then (c :: t).takeWhile isDigitC ++ ordStrip f r3
              else (c :: t).takeWhile isDigitC ++ ordStrip f (a :: b :: r3)) = c :: t
            simp only [hord, Bool.false_eq_true, if_false]
            rw [ih (a :: b :: r3) hrest]
            exact hsplit
      · simp only [ordStrip, hc]
        simp only [Bool.false_eq_true, if_false]
        rw [ih t (ndl_tail c t h)]

theorem ucStrip_id : ∀ (fuel : Nat) (l : List Char),
    noCI ["updated".data, "created".data] l = true → ucStrip fuel l = l := by
  intro fuel
  induction fuel with
  | zero => intro l _; rfl
  | succ f ih =>
    intro l h
    cases l with
    | nil => rfl
    | cons c t =>
      simp only [noCI, Bool.and_eq_true, List.all_cons, List.all_nil,
        Bool.not_eq_true'] at h
      simp only [ucStrip]
      rw [h.1.1, h.1.2.1]
      simp only [Bool.or_self, Bool.false_eq_true, if_false]
      rw [ih t (by simp only [noCI]; exact h.2)]

theorem fipStrip_id : ∀ (fuel : Nat) (l : List Char),
    noCI ["from ip".data] l = true → fipStrip fuel l = l := by
  intro fuel
  induction fuel with
  | zero => intro l _; rfl
  | succ f ih =>
    intro l h
    cases l with
    | nil => rfl
    | cons c t =>
      simp only [noCI, Bool.and_eq_true, List.all_cons, List.all_nil,
        Bool.not_eq_true'] at h
      simp only [fipStrip]
      rw [h.1.1]
      simp only [Bool.false_and, Bool.false_eq_true, if_false]
      rw [ih t (by simp only [noCI]; exact h.2)]

theorem ciLeads_long (p : List Char) : ∀ (z y : List Char), p.length ≤ z.length →
    ciLeads p (z ++ y) = ciLeads p z := by
  induction p with
  | nil => intro z y _; rfl
  | cons p0 ps ih =>
    intro z y hl
    cases z with
    | nil => simp at hl
    | cons c z2 =>
      simp only [List.cons_append, ciLeads, List.append_eq]
      rw [ih z2 y (by simpa using hl)]

theorem ciLeads_take_bound (p : List Char) : ∀ (z y : List Char) (K : Nat),
    p.length ≤ K → ciLeads p (z ++ y.take K) = ciLeads p (z ++ y) := by
  induction p with
  | nil => intro z y K _; rfl
  | cons p0 ps ih =>
    intro z y K hl
    cases z with
    | nil =>
      cases y with
      | nil => simp
      | cons a y2 =>
        cases K with
        | zero => simp at hl
        | succ K2 =>
          simp only [List.take_succ_cons, List.nil_append, ciLeads]
          have := ih [] y2 K2 (by simpa using hl)
          simp only [List.nil_append] at this
          rw [this]
    | cons c z2 =>
      simp only [List.cons_append, ciLeads, List.append_eq]
      rw [ih z2 y K (le_trans (by simp) hl)]

theorem ciLeads_mono (p : List Char) : ∀ (l : List Char) (k : Nat),
    ciLeads p l = true → ciLeads (p.take k) (l.take k) = true := by
  induction p with
  | nil => intro l k _; simp [ciLeads]
  | cons p0 ps ih =>
    intro l k h
    cases l with
    | nil => cases h
    | cons c t =>
      simp only [ciLeads, Bool.and_eq_true] at h
      cases k with
      | zero => rfl
      | succ k2 =>
        simp only [List.take_succ_cons, ciLeads, Bool.and_eq_true]
        exact ⟨h.1, ih t k2 h.2⟩

theorem ciLeads_lowerL (p : List Char) : ∀ l, ciLeads p (lowerL l) = ciLeads p l := by
  induction p with
  | nil => intro l; rfl
  | cons p0 ps ih =>
    intro l
    cases l with
    | nil => rfl
    | cons c t =>
      simp only [lowerL, List.map_cons, ciLeads]
      rw [lower_lower]
      rw [← lowerL, ih t]

theorem noCI_of_heads (pats : List (List Char)) : ∀ l : List Char,
    (∀ c ∈ l, patHeads pats c = true) → noCI pats l = true := by
  intro l
  induction l with
  | nil =>
    intro _
    rfl
  | cons c t ih =>
    intro h
    simp only [noCI, Bool.and_eq_true]
    refine ⟨?_, ih (fun x hx => h x (List.mem_cons_of_mem c hx))⟩
    have hc := h c (by simp)
    simp only [patHeads, List.all_eq_true] at hc ⊢
    intro p hp
    have hthis := hc p hp
    cases p with
    | nil => simp at hthis
    | cons p0 ps =>
      simp only [Bool.not_eq_true'] at hthis ⊢
      simp only [ciLeads]
      rw [hthis]
      rfl

theorem noCI_append (pats : List (List Char)) (key : List Char)
    (hs : sufOK pats key = true) :
    ∀ (x : List Char), lowerL x <:+ key →
    ∀ (y2 : List Char), noCI pats (' ' :: y2) = true →
    noCI pats (x ++ ' ' :: y2) = true := by
  intro x
  induction x with
  | nil =>
    intro _ y2 hy
    simpa using hy
  | cons c t ih =>
    intro hsuf y2 hy
    simp only [List.cons_append, noCI, Bool.and_eq_true]
    refine ⟨?_, ?_⟩
    · simp only [List.all_eq_true]
      intro p hp
      simp only [Bool.not_eq_true']
      have hmem : lowerL (c :: t) ∈ key.tails := (List.mem_tails _ _).mpr hsuf
      have hentry := List.all_eq_true.mp (by exact hs) _ hmem
      have hpent := List.all_eq_true.mp hentry p hp
      by_cases hl : p.length ≤ (lowerL (c :: t)).length
      · rw [if_pos hl] at hpent
        simp only [Bool.not_eq_true'] at hpent
        have hgoal : ciLeads p ((c :: t) ++ ' ' :: y2) = false := by
          rw [ciLeads_long p (c :: t) (' ' :: y2)
            (by rw [← lowerL_length (c :: t)]; exact hl)]
          rw [← ciLeads_lowerL]
          exact hpent
        exact hgoal
      · rw [if_neg hl] at hpent
        simp only [Bool.not_eq_true'] at hpent
        by_cases hw : ciLeads p ((c :: t) ++ ' ' :: y2) = true
        · exfalso
          have hmono := ciLeads_mono p ((c :: t) ++ ' ' :: y2) ((c :: t).length + 1) hw
          have htake : ((c :: t) ++ ' ' :: y2).take ((c :: t).length + 1) =
              (c :: t) ++ [' '] := by
            rw [List.take_append_eq_append_take]
            rw [List.take_of_length_le (by omega)]
            congr 1
            rw [show (c :: t).length + 1 - (c :: t).length = 1 from by omega]
            rfl
          rw [htake] at hmono
          rw [← ciLeads_lowerL, lowerL_append,
            show lowerL [' '] = [' '] from by decide] at hmono
          rw [show (lowerL (c :: t)).length = (c :: t).length from lowerL_length _]
            at hpent
          rw [hpent] at hmono
          cases hmono
        · simp only [Bool.not_eq_true] at hw
          exact hw
    · have hsuf2 : lowerL t <:+ key := by
        refine List.IsSuffix.trans ?_ hsuf
        rw [show lowerL (c :: t) = asciiLower c :: lowerL t from rfl]
        exact List.suffix_cons _ _
      exact ih hsuf2 y2 hy

theorem isAlphaC_toNat (c : Char) :
    isAlphaC c = true ↔ (97 ≤ c.toNat ∧ c.toNat ≤ 122) ∨ (65 ≤ c.toNat ∧ c.toNat ≤ 90) := by
  simp only [isAlphaC, decide_eq_true_eq]
  constructor
  · rintro (⟨h1, h2⟩ | ⟨h1, h2⟩)
    · exact Or.inl ⟨h1, h2⟩
    · exact Or.inr ⟨h1, h2⟩
  · rintro (⟨h1, h2⟩ | ⟨h1, h2⟩)
    · exact Or.inl ⟨h1, h2⟩
    · exact Or.inr ⟨h1, h2⟩

theorem isDigitC_toNat (c : Char) :
    isDigitC c = true ↔ 48 ≤ c.toNat ∧ c.toNat ≤ 57 := by
  simp only [isDigitC, decide_eq_true_eq]
  constructor
  · rintro ⟨h1, h2⟩
    exact ⟨h1, h2⟩
  · rintro ⟨h1, h2⟩
    exact ⟨h1, h2⟩

theorem isAlphaC_asciiLower (c : Char) : isAlphaC (asciiLower c) = isAlphaC c := by
  by_cases h : isAlphaC c = true
  · rw [h]
    rw [isAlphaC_toNat] at h ⊢
    rw [asciiLower_toNat]
    by_cases hu : 65 ≤ c.toNat ∧ c.toNat ≤ 90
    · rw [if_pos hu]
      omega
    · rw [if_neg hu]
      omega
  · simp only [Bool.not_eq_true] at h
    rw [h]
    by_cases h2 : isAlphaC (asciiLower c) = true
    · exfalso
      rw [isAlphaC_toNat, asciiLower_toNat] at h2
      have hc : isAlphaC c = true := by
        rw [isAlphaC_toNat]
        by_cases hu : 65 ≤ c.toNat ∧ c.toNat ≤ 90
        · rw [if_pos hu] at h2
          omega
        · rw [if_neg hu] at h2
          omega
      rw [hc] at h
      cases h
    · simp only [Bool.not_eq_true] at h2
      rw [h2]

theorem alpha_not_ws (c : Char) (h : isAlphaC c = true) : isWsC c = false := by
  rw [isAlphaC_toNat] at h
  by_contra hw
  simp only [Bool.not_eq_false] at hw
  rw [isWsC_toNat] at hw
  omega

theorem alpha_not_digit (c : Char) (h : isAlphaC c = true) : isDigitC c = false := by
  rw [isAlphaC_toNat] at h
  by_contra hw
  simp only [Bool.not_eq_false] at hw
  rw [isDigitC_toNat] at hw
  omega

theorem asciiLower_digit (c : Char) (h : isDigitC c = true) : asciiLower c = c := by
  rw [isDigitC_toNat] at h
  apply char_toNat_inj
  rw [asciiLower_toNat, if_neg (by omega)]

theorem ndl_cons_nondigit (c : Char) (hc : isDigitC c = false) (l : List Char) :
    noDigitLetter (c :: l) = noDigitLetter l := by
  cases l with
  | nil => rfl
  | cons x r =>
    simp only [noDigitLetter, hc, Bool.false_and, Bool.not_false, Bool.true_and]

theorem ndl_append_nondigit (x : List Char) (hx : ∀ c ∈ x, isDigitC c = false)
    (y : List Char) : noDigitLetter (x ++ y) = noDigitLetter y := by
  induction x with
  | nil => rfl
  | cons c t ih =>
    rw [List.cons_append, ndl_cons_nondigit c (hx c (by simp)) (t ++ y)]
    exact ih (fun d hd => hx d (List.mem_cons_of_mem c hd))

theorem ndl_digits_skip (x : List Char) (y : List Char)
    (hy : ∀ c0 r, y = c0 :: r → isAlphaC c0 = false) :
    ∀ hx : ∀ c ∈ x, isDigitC c = true,
    noDigitLetter (x ++ y) = noDigitLetter y := by
  induction x with
  | nil => intro _; rfl
  | cons c t ih =>
    intro hx
    have htail := ih (fun d hd => hx d (List.mem_cons_of_mem c hd))
    rw [List.cons_append]
    cases hcase : t ++ y with
    | nil =>
      rcases List.append_eq_nil.mp hcase with ⟨ht, hy0⟩
      subst hy0
      rfl
    | cons c2 r2 =>
      rw [hcase] at htail
      have ha : isAlphaC c2 = false := by
        cases t with
        | nil =>
          simp only [List.nil_append] at hcase
          exact hy c2 r2 hcase
        | cons d t2 =>
          rw [List.cons_append] at hcase
          injection hcase with h1 _
          subst h1
          exact digit_not_alpha _ (hx _ (by simp))
      have hshow : noDigitLetter (c :: c2 :: r2) = noDigitLetter (c2 :: r2) := by
        simp only [noDigitLetter, ha, Bool.and_false, Bool.not_false, Bool.true_and]
      rw [hshow, htail]

theorem ndl_sublist_digits (x : List Char) (hx : ∀ c ∈ x, isDigitC c = true) :
    noDigitLetter x = true := by
  induction x with
  | nil => rfl
  | cons c t ih =>
    cases t with
    | nil => rfl
    | cons d r =>
      simp only [noDigitLetter, Bool.and_eq_true, Bool.not_eq_true']
      refine ⟨?_, ih (fun e he => hx e (List.mem_cons_of_mem c he))⟩
      rw [digit_not_alpha d (hx d (by simp))]
      simp

theorem patHead_ne_digit (c p0 : Char) (hd : isDigitC c = true)
    (hp : 97 ≤ p0.toNat) : (decide (asciiLower c = p0)) = false := by
  rw [asciiLower_digit c hd]
  simp only [decide_eq_false_iff_not]
  intro he
  rw [isDigitC_toNat] at hd
  have h2 := congrArg Char.toNat he
  omega

theorem tailCh_patHeads_uc (c : Char) (h : tailCh c = true) : patHeads ucPats c = true := by
  simp only [tailCh, Bool.or_eq_true, decide_eq_true_eq] at h
  rcases h with ((((((h | h) | h) | h) | h) | h) | h)
  · show (!decide (asciiLower c = 'u') && (!decide (asciiLower c = 'c') && true)) = true
    rw [patHead_ne_digit c 'u' h (by decide), patHead_ne_digit c 'c' h (by decide)]
    rfl
  all_goals subst h
  all_goals decide

theorem tailCh_patHeads_fip (c : Char) (h : tailCh c = true) : patHeads fipPats c = true := by
  simp only [tailCh, Bool.or_eq_true, decide_eq_true_eq] at h
  rcases h with ((((((h | h) | h) | h) | h) | h) | h)
  · show (!decide (asciiLower c = 'f') && true) = true
    rw [patHead_ne_digit c 'f' h (by decide)]
    rfl
  all_goals subst h
  all_goals decide

theorem monthTable_sufOK : ∀ p ∈ monthTable,
    sufOK ucPats p.1 = true ∧ sufOK fipPats p.1 = true := by decide

theorem monthTable_shape : ∀ p ∈ monthTable,
    (∀ c ∈ p.1, isAlphaC c = true) ∧ 3 ≤ p.1.length ∧ p.1.length ≤ 9 ∧ p.2 ≤ 11 := by
  decide

theorem mtForm_eq_tail (mn dayD : List Char) (yr : Option (Bool × List Char)) (cT : Bool)
    (hD miD : List Char) (seD : Option (List Char)) (ap : Option Bool) :
    mtForm mn dayD yr cT hD miD seD ap =
      mn ++ ' ' :: mtTail dayD yr cT hD miD seD ap := by
  unfold mtForm mtTail
  simp [List.append_assoc]

theorem tailCh_mem (dayD : List Char) (yr : Option (Bool × List Char)) (cT : Bool)
    (hD miD : List Char) (seD : Option (List Char)) (ap : Option Bool)
    (hday : ∀ c ∈ dayD, isDigitC c = true)
    (hyr : ∀ cma yD, yr = some (cma, yD) → ∀ c ∈ yD, isDigitC c = true)
    (hh : ∀ c ∈ hD, isDigitC c = true)
    (hmi : ∀ c ∈ miD, isDigitC c = true)
    (hse : ∀ sD, seD = some sD → ∀ c ∈ sD, isDigitC c = true) :
    ∀ c ∈ ' ' :: mtTail dayD yr cT hD miD seD ap, tailCh c = true := by
  intro c hc
  rcases List.mem_cons.mp hc with rfl | hc
  · decide
  unfold mtTail at hc
  rcases List.mem_append.mp hc with h | hc
  · simp [tailCh, hday c h]
  rcases List.mem_append.mp hc with h | hc
  · rcases yr with _ | ⟨cma, yD⟩
    · simp [yrPart] at h
    · simp only [yrPart] at h
      rcases List.mem_append.mp h with h2 | h2
      · cases cma with
        | false => simp at h2
        | true =>
          rw [if_pos rfl, List.mem_singleton] at h2
          subst h2
          decide
      · rcases List.mem_cons.mp h2 with rfl | h3
        · decide
        · simp [tailCh, hyr cma yD rfl c h3]
  rcases List.mem_append.mp hc with h | hc
  · cases cT with
    | false => simp at h
    | true =>
      rw [if_pos rfl, List.mem_singleton] at h
      subst h
      decide
  rcases List.mem_cons.mp hc with rfl | hc
  · decide
  rcases List.mem_append.mp hc with h | hc
  · simp [tailCh, hh c h]
  rcases List.mem_cons.mp hc with rfl | hc
  · decide
  rcases List.mem_append.mp hc with h | hc
  · simp [tailCh, hmi c h]
  rcases List.mem_append.mp hc with h | hc
  · rcases seD with _ | sD
    · simp [ssPart] at h
    · simp only [ssPart] at h
      rcases List.mem_cons.mp h with rfl | h3
      · decide
      · simp [tailCh, hse sD rfl c h3]
  · rcases ap with _ | pm
    · simp [apPart] at hc
    · simp only [apPart, List.mem_cons, List.mem_singleton] at hc
      rcases hc with rfl | hc2
      · decide
      rcases hc2 with rfl | hc3
      · cases pm with
        | false => decide
        | true => decide
      rcases hc3 with rfl | hc4
      · decide
      · simp at hc4

theorem ndl_digits_skip_cons (x : List Char) (c0 : Char) {r : List Char}
    (hx : ∀ c ∈ x, isDigitC c = true) (hc0 : isAlphaC c0 = false) :
    noDigitLetter (x ++ c0 :: r) = noDigitLetter (c0 :: r) := by
  refine ndl_digits_skip x (c0 :: r) ?_ hx
  intro c1 r1 h
  injection h with h1 _
  subst h1
  exact hc0

theorem ndl_app_nondigit (x : List Char) {y : List Char}
    (hx : ∀ c ∈ x, isDigitC c = false) :
    noDigitLetter (x ++ y) = noDigitLetter y :=
  ndl_append_nondigit x hx y

theorem ndl_timeTail (hD miD : List Char) (seD : Option (List Char)) (ap : Option Bool)
    (hh : ∀ c ∈ hD, isDigitC c = true)
    (hmi : ∀ c ∈ miD, isDigitC c = true)
    (hse : ∀ sD, seD = some sD → ∀ c ∈ sD, isDigitC c = true) :
    noDigitLetter (' ' :: (hD ++ (':' :: (miD ++ (ssPart seD ++ apPart ap))))) = true := by
  rw [ndl_cons_nondigit ' ' (by decide)]
  rw [ndl_digits_skip_cons hD ':' hh (by decide)]
  rw [ndl_cons_nondigit ':' (by decide)]
  rcases seD with _ | sD
  · rcases ap with _ | pm
    · simp only [ssPart, apPart, List.nil_append, List.append_nil]
      exact ndl_sublist_digits miD hmi
    · simp only [ssPart, apPart, List.nil_append]
      rw [ndl_digits_skip_cons miD ' ' hmi (by decide)]
      rw [ndl_cons_nondigit ' ' (by decide)]
      cases pm with
      | false => decide
      | true => decide
  · simp only [ssPart, List.cons_append, List.append_assoc]
    rw [ndl_digits_skip_cons miD ':' hmi (by decide)]
    rw [ndl_cons_nondigit ':' (by decide)]
    rcases ap with _ | pm
    · simp only [apPart, List.append_nil]
      exact ndl_sublist_digits sD (hse sD rfl)
    · simp only [apPart]
      rw [ndl_digits_skip_cons sD ' ' (hse sD rfl) (by decide)]
      rw [ndl_cons_nondigit ' ' (by decide)]
      cases pm with
      | false => decide
      | true => decide

theorem ndl_mtForm (mn dayD : List Char) (yr : Option (Bool × List Char)) (cT : Bool)
    (hD miD : List Char) (seD : Option (List Char)) (ap : Option Bool)
    (halpha : ∀ c ∈ mn, isAlphaC c = true)
    (hday : ∀ c ∈ dayD, isDigitC c = true)
    (hyr : ∀ cma yD, yr = some (cma, yD) → ∀ c ∈ yD, isDigitC c = true)
    (hh : ∀ c ∈ hD, isDigitC c = true)
    (hmi : ∀ c ∈ miD, isDigitC c = true)
    (hse : ∀ sD, seD = some sD → ∀ c ∈ sD, isDigitC c = true) :
    noDigitLetter (mtForm mn dayD yr cT hD miD seD ap) = true := by
  rw [mtForm_eq_tail]
  rw [ndl_app_nondigit mn (fun c hc => alpha_not_digit c (halpha c hc))]
  rw [ndl_cons_nondigit ' ' (by decide)]
  unfold mtTail
  rcases yr with _ | ⟨cma, yD⟩ <;> cases cT
  · simp only [yrPart, Bool.false_eq_true, ite_true, ite_false, if_true, if_false, List.nil_append,
      List.cons_append, List.append_assoc]
    rw [ndl_digits_skip_cons dayD ' ' hday (by decide)]
    exact ndl_timeTail hD miD seD ap hh hmi hse
  · simp only [yrPart, Bool.false_eq_true, ite_true, ite_false, if_true, if_false, List.nil_append, List.cons_append, List.append_assoc]
    rw [ndl_digits_skip_cons dayD ',' hday (by decide)]
    rw [ndl_cons_nondigit ',' (by decide)]
    exact ndl_timeTail hD miD seD ap hh hmi hse
  · cases cma with
    | false =>
      simp only [yrPart, Bool.false_eq_true, ite_true, ite_false, if_true, if_false, List.nil_append,
        List.cons_append, List.append_assoc]
      rw [ndl_digits_skip_cons dayD ' ' hday (by decide)]
      rw [ndl_cons_nondigit ' ' (by decide)]
      rw [ndl_digits_skip_cons yD ' ' (hyr false yD rfl) (by decide)]
      exact ndl_timeTail hD miD seD ap hh hmi hse
    | true =>
      simp only [yrPart, Bool.false_eq_true, ite_true, ite_false, if_true, if_false,
        List.nil_append, List.cons_append, List.append_assoc]
      rw [ndl_digits_skip_cons dayD ',' hday (by decide)]
      rw [ndl_cons_nondigit ',' (by decide)]
      rw [ndl_cons_nondigit ' ' (by decide)]
      rw [ndl_digits_skip_cons yD ' ' (hyr true yD rfl) (by decide)]
      exact ndl_timeTail hD miD seD ap hh hmi hse
  · cases cma with
    | false =>
      simp only [yrPart, Bool.false_eq_true, ite_true, ite_false, if_true, if_false,
        List.nil_append, List.cons_append, List.append_assoc]
      rw [ndl_digits_skip_cons dayD ' ' hday (by decide)]
      rw [ndl_cons_nondigit ' ' (by decide)]
      rw [ndl_digits_skip_cons yD ',' (hyr false yD rfl) (by decide)]
      rw [ndl_cons_nondigit ',' (by decide)]
      exact ndl_timeTail hD miD seD ap hh hmi hse
    | true =>
      simp only [yrPart, Bool.false_eq_true, ite_true, ite_false, if_true, if_false, List.nil_append, List.cons_append,
        List.append_assoc]
      rw [ndl_digits_skip_cons dayD ',' hday (by decide)]
      rw [ndl_cons_nondigit ',' (by decide)]
      rw [ndl_cons_nondigit ' ' (by decide)]
      rw [ndl_digits_skip_cons yD ',' (hyr true yD rfl) (by decide)]
      rw [ndl_cons_nondigit ',' (by decide)]
      exact ndl_timeTail hD miD seD ap hh hmi hse

theorem list_len2 (l : List Char) (h : l.length = 2) : ∃ a b, l = [a, b] := by
  cases l with
  | nil => simp at h
  | cons a t =>
    cases t with
    | nil => simp at h
    | cons b t2 =>
      cases t2 with
      | nil => exact ⟨a, b, rfl⟩
      | cons c t3 => simp at h

theorem gmtStrip_last_M (P : List Char) (X : Char) :
    gmtStrip (P ++ [' ', X, 'M']) = P ++ [' ', X, 'M'] := by
  simp only [gmtStrip]
  rw [show (P ++ [' ', X, 'M']).reverse = 'M' :: X :: ' ' :: P.reverse from by simp]
  rw [show ('M' :: X :: ' ' :: P.reverse).takeWhile isDigitC = [] from by
    rw [List.takeWhile_cons, if_neg (by decide)]]
  rw [if_neg (by simp)]

theorem gmtStrip_last_colon2 (P : List Char) (d1 d2 : Char)
    (h1 : isDigitC d1 = true) (h2 : isDigitC d2 = true) :
    gmtStrip (P ++ ':' :: [d1, d2]) = P ++ ':' :: [d1, d2] := by
  simp only [gmtStrip]
  rw [show (P ++ ':' :: [d1, d2]).reverse = d2 :: d1 :: ':' :: P.reverse from by simp]
  rw [show (d2 :: d1 :: ':' :: P.reverse).takeWhile isDigitC = [d2, d1] from by
    rw [List.takeWhile_cons, if_pos h2, List.takeWhile_cons, if_pos h1,
      List.takeWhile_cons, if_neg (by decide)]]
  rw [if_pos (by simp)]
  rw [show (d2 :: d1 :: ':' :: P.reverse).drop ([d2, d1] : List Char).length =
    ':' :: P.reverse from rfl]
  cases P.reverse with
  | nil => rfl
  | cons a r1 =>
    cases r1 with
    | nil => rfl
    | cons b r2 =>
      cases r2 with
      | nil => rfl
      | cons e r3 =>
        show (if _ then _ else (P ++ ':' :: [d1, d2])) = P ++ ':' :: [d1, d2]
        rw [if_neg]
        rintro ⟨hsgn, -⟩
        rcases hsgn with h | h <;> exact absurd h (by decide)

theorem mtForm_shape_M (mn dayD : List Char) (yr : Option (Bool × List Char)) (cT : Bool)
    (hD miD : List Char) (seD : Option (List Char)) (pm : Bool) :
    mtForm mn dayD yr cT hD miD seD (some pm) =
      (mn ++ ' ' :: dayD ++ yrPart yr ++ (if cT then [','] else []) ++ ' ' :: hD
        ++ ':' :: miD ++ ssPart seD) ++ [' ', (if pm then 'P' else 'A'), 'M'] := by
  simp [mtForm, apPart, List.append_assoc]

theorem mtForm_shape_sec (mn dayD : List Char) (yr : Option (Bool × List Char)) (cT : Bool)
    (hD miD : List Char) (s1 s2 : Char) :
    mtForm mn dayD yr cT hD miD (some [s1, s2]) none =
      (mn ++ ' ' :: dayD ++ yrPart yr ++ (if cT then [','] else []) ++ ' ' :: hD
        ++ ':' :: miD) ++ ':' :: [s1, s2] := by
  simp [mtForm, ssPart, apPart, List.append_assoc]

theorem mtForm_shape_min (mn dayD : List Char) (yr : Option (Bool × List Char)) (cT : Bool)
    (hD : List Char) (m1 m2 : Char) :
    mtForm mn dayD yr cT hD [m1, m2] none none =
      (mn ++ ' ' :: dayD ++ yrPart yr ++ (if cT then [','] else []) ++ ' ' :: hD)
        ++ ':' :: [m1, m2] := by
  simp [mtForm, ssPart, apPart, List.append_assoc]

theorem gmtStrip_mtForm (mn dayD : List Char) (yr : Option (Bool × List Char)) (cT : Bool)
    (hD miD : List Char) (seD : Option (List Char)) (ap : Option Bool)
    (hmiD : ∀ c ∈ miD, isDigitC c = true) (hmi2 : miD.length = 2)
    (hseD : ∀ sD, seD = some sD → (∀ c ∈ sD, isDigitC c = true) ∧ sD.length = 2) :
    gmtStrip (mtForm mn dayD yr cT hD miD seD ap) =
      mtForm mn dayD yr cT hD miD seD ap := by
  rcases ap with _ | pm
  · rcases seD with _ | sD
    · obtain ⟨m1, m2, hm⟩ := list_len2 miD hmi2
      subst hm
      rw [mtForm_shape_min]
      exact gmtStrip_last_colon2 _ m1 m2 (hmiD m1 (by simp)) (hmiD m2 (by simp))
    · obtain ⟨hsd, hsl⟩ := hseD sD rfl
      obtain ⟨s1, s2, hs⟩ := list_len2 sD hsl
      subst hs
      rw [mtForm_shape_sec]
      exact gmtStrip_last_colon2 _ s1 s2 (hsd s1 (by simp)) (hsd s2 (by simp))
  · rw [mtForm_shape_M]
    exact gmtStrip_last_M _ _

theorem jsTrimL_ends (l : List Char)
    (hh : ∀ c0 r, l = c0 :: r → isWsC c0 = false)
    (hl : ∀ c0 r, l.reverse = c0 :: r → isWsC c0 = false) :
    jsTrimL l = l := by
  unfold jsTrimL
  have h1 : l.dropWhile isWsC = l := by
    cases hc : l with
    | nil => rfl
    | cons c0 r => rw [List.dropWhile_cons, if_neg (by simp [hh c0 r hc])]
  rw [h1]
  have h2 : l.reverse.dropWhile isWsC = l.reverse := by
    cases hc : l.reverse with
    | nil => rfl
    | cons c0 r => rw [List.dropWhile_cons, if_neg (by simp [hl c0 r hc])]
  rw [h2, List.reverse_reverse]

theorem jsTrimL_mtForm (mn dayD : List Char) (yr : Option (Bool × List Char)) (cT : Bool)
    (hD miD : List Char) (seD : Option (List Char)) (ap : Option Bool)
    (hmn : mn ≠ [])
    (halpha : ∀ c ∈ mn, isAlphaC c = true)
    (hmiD : ∀ c ∈ miD, isDigitC c = true) (hmi2 : miD.length = 2)
    (hseD : ∀ sD, seD = some sD → (∀ c ∈ sD, isDigitC c = true) ∧ sD.length = 2) :
    jsTrimL (mtForm mn dayD yr cT hD miD seD ap) =
      mtForm mn dayD yr cT hD miD seD ap := by
  have hhead : ∀ c0 r, mtForm mn dayD yr cT hD miD seD ap = c0 :: r →
      isWsC c0 = false := by
    cases mn with
    | nil => exact absurd rfl hmn
    | cons c0 mr =>
      intro c r h
      rw [mtForm_eq_tail, List.cons_append] at h
      injection h with h1 _
      subst h1
      exact alpha_not_ws _ (halpha _ (by simp))
  refine jsTrimL_ends _ hhead ?_
  rcases ap with _ | pm
  · rcases seD with _ | sD
    · obtain ⟨m1, m2, hm⟩ := list_len2 miD hmi2
      subst hm
      rw [mtForm_shape_min]
      intro c r h
      rw [show ((mn ++ ' ' :: dayD ++ yrPart yr ++ (if cT then [','] else []) ++
        ' ' :: hD) ++ ':' :: [m1, m2]).reverse =
        m2 :: m1 :: ':' :: (mn ++ ' ' :: dayD ++ yrPart yr ++
          (if cT then [','] else []) ++ ' ' :: hD).reverse from by simp] at h
      injection h with h1 _
      subst h1
      exact digit_not_ws _ (hmiD _ (by simp))
    · obtain ⟨hsd, hsl⟩ := hseD sD rfl
      obtain ⟨s1, s2, hs⟩ := list_len2 sD hsl
      subst hs
      rw [mtForm_shape_sec]
      intro c r h
      rw [show ((mn ++ ' ' :: dayD ++ yrPart yr ++ (if cT then [','] else []) ++
        ' ' :: hD ++ ':' :: miD) ++ ':' :: [s1, s2]).reverse =
        s2 :: s1 :: ':' :: (mn ++ ' ' :: dayD ++ yrPart yr ++
          (if cT then [','] else []) ++ ' ' :: hD ++ ':' :: miD).reverse from by
        simp] at h
      injection h with h1 _
      subst h1
      exact digit_not_ws _ (hsd _ (by simp))
  · rw [mtForm_shape_M]
    intro c r h
    rw [show ((mn ++ ' ' :: dayD ++ yrPart yr ++ (if cT then [','] else []) ++
      ' ' :: hD ++ ':' :: miD ++ ssPart seD) ++
        [' ', (if pm then 'P' else 'A'), 'M']).reverse =
      'M' :: (if pm then 'P' else 'A') :: ' ' :: (mn ++ ' ' :: dayD ++ yrPart yr ++
        (if cT then [','] else []) ++ ' ' :: hD ++ ':' :: miD ++
          ssPart seD).reverse from by simp] at h
    injection h with h1 _
    subst h1
    decide

theorem monthIdx_facts (mn : List Char) (mi : Nat) (h : monthIdx mn = some mi) :
    (∀ c ∈ mn, isAlphaC c = true) ∧ 3 ≤ mn.length ∧ mn.length ≤ 9 ∧ mi ≤ 11 ∧
      sufOK ucPats (lowerL mn) = true ∧ sufOK fipPats (lowerL mn) = true := by
  simp only [monthIdx, Option.map_eq_some'] at h
  obtain ⟨p, hfind, hmi⟩ := h
  have hmem := List.mem_of_find?_eq_some hfind
  have hkey := List.find?_some hfind
  simp only [decide_eq_true_eq] at hkey
  obtain ⟨halpha, h3, h9, h11⟩ := monthTable_shape p hmem
  obtain ⟨hu, hf⟩ := monthTable_sufOK p hmem
  rw [hkey] at halpha h3 h9 hu hf
  subst hmi
  refine ⟨?_, ?_, ?_, h11, hu, hf⟩
  · intro c hc
    have hmm : asciiLower c ∈ lowerL mn := List.mem_map_of_mem asciiLower hc
    have h2 := halpha _ hmm
    rw [isAlphaC_asciiLower] at h2
    exact h2
  · rw [lowerL_length] at h3
    exact h3
  · rw [lowerL_length] at h9
    exact h9

theorem displayClean_mtForm (mn dayD : List Char) (yr : Option (Bool × List Char))
    (cT : Bool) (hD miD : List Char) (seD : Option (List Char)) (ap : Option Bool)
    (mi : Nat) (hmidx : monthIdx mn = some mi)
    (hday : ∀ c ∈ dayD, isDigitC c = true)
    (hyr : ∀ cma yD, yr = some (cma, yD) → ∀ c ∈ yD, isDigitC c = true)
    (hh : ∀ c ∈ hD, isDigitC c = true)
    (hmi : ∀ c ∈ miD, isDigitC c = true) (hmi2 : miD.length = 2)
    (hseD : ∀ sD, seD = some sD → (∀ c ∈ sD, isDigitC c = true) ∧ sD.length = 2) :
    displayClean (mtForm mn dayD yr cT hD miD seD ap) =
      mtForm mn dayD yr cT hD miD seD ap := by
  obtain ⟨halpha, h3, h9, h11, hsu, hsf⟩ := monthIdx_facts mn mi hmidx
  have hmn : mn ≠ [] := by
    intro h
    rw [h] at h3
    simp at h3
  have htails := tailCh_mem dayD yr cT hD miD seD ap hday hyr hh hmi
    (fun sD hs => (hseD sD hs).1)
  have hucT : noCI ucPats (' ' :: mtTail dayD yr cT hD miD seD ap) = true :=
    noCI_of_heads ucPats _ (fun c hc => tailCh_patHeads_uc c (htails c hc))
  have hfipT : noCI fipPats (' ' :: mtTail dayD yr cT hD miD seD ap) = true :=
    noCI_of_heads fipPats _ (fun c hc => tailCh_patHeads_fip c (htails c hc))
  have huc : noCI ucPats (mtForm mn dayD yr cT hD miD seD ap) = true := by
    rw [mtForm_eq_tail]
    exact noCI_append ucPats (lowerL mn) hsu mn (List.suffix_refl _) _ hucT
  have hfip : noCI fipPats (mtForm mn dayD yr cT hD miD seD ap) = true := by
    rw [mtForm_eq_tail]
    exact noCI_append fipPats (lowerL mn) hsf mn (List.suffix_refl _) _ hfipT
  unfold displayClean
  rw [ordStrip_id _ _ (ndl_mtForm mn dayD yr cT hD miD seD ap halpha hday hyr hh hmi
    (fun sD hs => (hseD sD hs).1))]
  rw [fipStrip_id _ _ hfip]
  rw [ucStrip_id _ _ huc]
  rw [gmtStrip_mtForm mn dayD yr cT hD miD seD ap hmi hmi2 hseD]
  exact jsTrimL_mtForm mn dayD yr cT hD miD seD ap hmn halpha hmi hmi2 hseD

theorem jsNativeParse_alpha (tz : Int) (c : Char) (t : List Char)
    (hc : isAlphaC c = true) : jsNativeParse tz (c :: t) = none := by
  have hplus : c ≠ '+' := by
    intro h
    subst h
    exact absurd hc (by decide)
  have hminus : c ≠ '-' := by
    intro h
    subst h
    exact absurd hc (by decide)
  unfold jsNativeParse
  split
  · rename_i t2 heq
    injection heq with h1 _
    exact absurd h1 hplus
  · rename_i t2 heq
    injection heq with h1 _
    exact absurd h1 hminus
  · have hd : takeDigits 4 0 (c :: t) = none := by
      show (if isDigitC c = true then takeDigits 3 (0 * 10 + digVal c) t else none) = none
      rw [if_neg (by simp [alpha_not_digit c hc])]
    rw [hd]

theorem mtStep_mtForm (nowYear tz : Int) (mn dayD : List Char)
    (yr : Option (Bool × List Char)) (cT : Bool) (hD miD : List Char)
    (seD : Option (List Char)) (ap : Option Bool) (mi : Nat)
    (hmidx : monthIdx mn = some mi)
    (hdayD : ∀ c ∈ dayD, isDigitC c = true) (hday1 : 1 ≤ dayD.length)
    (hday2 : dayD.length ≤ 2)
    (hyrD : ∀ cma yD, yr = some (cma, yD) → (∀ c ∈ yD, isDigitC c = true) ∧ yD.length = 4)
    (hhD : ∀ c ∈ hD, isDigitC c = true) (hh1 : 1 ≤ hD.length) (hh2 : hD.length ≤ 2)
    (hmiD : ∀ c ∈ miD, isDigitC c = true) (hmi2 : miD.length = 2)
    (hseD : ∀ sD, seD = some sD → (∀ c ∈ sD, isDigitC c = true) ∧ sD.length = 2) :
    mtStep nowYear tz (mtForm mn dayD yr cT hD miD seD ap) =
      some (mkDateLocal tz (yrVal nowYear yr) (mi : Int)
        ((valAcc 0 dayD : Nat) : Int) ((hour24 (valAcc 0 hD) ap : Nat) : Int)
        ((valAcc 0 miD : Nat) : Int) (((seD.map (valAcc 0)).getD 0 : Nat) : Int)) := by
  obtain ⟨halpha, h3, h9, _, _, _⟩ := monthIdx_facts mn mi hmidx
  unfold mtStep
  rw [mtSearch_mtForm mn dayD yr cT hD miD seD ap h3 h9 halpha hdayD hday1 hday2
    hyrD hhD hh1 hh2 hmiD hmi2 hseD]
  show (match monthIdx mn with
    | none => none
    | some mj =>
      let year : Int := match yr.map (fun (p : Bool × List Char) => valAcc 0 p.2) with
        | some y => (y : Int)
        | none => nowYear
      some (mkDateLocal tz year (mj : Int) ((valAcc 0 dayD : Nat) : Int)
        ((hour24 (valAcc 0 hD) ap : Nat) : Int) ((valAcc 0 miD : Nat) : Int)
        (((seD.map (valAcc 0)).getD 0 : Nat) : Int))) = _
  rw [hmidx]
  rcases yr with _ | ⟨cma, yD⟩ <;> rfl

theorem parseCleaned_native_none (nowYear tz : Int) (cleaned : List Char)
    (h : jsNativeParse tz cleaned = none) :
    parseCleaned nowYear tz cleaned =
      match guardSane nowYear tz (mtStep nowYear tz cleaned) with
      | some d => some d
      | none =>
        match guardSane nowYear tz (moStep nowYear tz cleaned) with
        | some d => some d
        | none =>
          match guardSane nowYear tz (ymdStep tz cleaned) with
          | some d => some d
          | none =>
            match guardSane nowYear tz (mdyStep tz cleaned) with
            | some d => some d
            | none => none := by
  unfold parseCleaned
  rw [h]
  rfl

theorem parseCleaned_mt_some (nowYear tz : Int) (cleaned : List Char) (v : Int)
    (hn : jsNativeParse tz cleaned = none)
    (hmt : mtStep nowYear tz cleaned = some v)
    (hsane : saneYear nowYear (getFullYearL tz v) = true) :
    parseCleaned nowYear tz cleaned = some v := by
  rw [parseCleaned_native_none nowYear tz cleaned hn, hmt,
    show guardSane nowYear tz (some v) = some v from by
      show (if saneYear nowYear (getFullYearL tz v) = true then some v else none) = some v
      rw [if_pos hsane]]

/-! ## The claims -/
/-- C7 (amended): every string of the shape `<Month> <day>[, <year>][,]
<H>:<MM>[:<SS>] [AM|PM]` whose month name is in the table parses on the
display path to the local instant with that calendar date and the 24-hour
time derived from the AM/PM marker (missing year defaults to the current
year), provided the effective year passes the `[2000, nowYear+2]` sanity
bound and the fields denote a valid calendar date and time; without the
sanity hypothesis the original claim fails (see the counterexample). -/
theorem c7_thm (nowYear tz : Int) (mn dayD : List Char)
    (yr : Option (Bool × List Char)) (cT : Bool) (hD miD : List Char)
    (seD : Option (List Char)) (ap : Option Bool) (mi : Nat)
    (hmidx : monthIdx mn = some mi)
    (hdayD : ∀ c ∈ dayD, isDigitC c = true) (hday1 : 1 ≤ dayD.length)
    (hday2 : dayD.length ≤ 2)
    (hyrD : ∀ cma yD, yr = some (cma, yD) →
      (∀ c ∈ yD, isDigitC c = true) ∧ yD.length = 4)
    (hhD : ∀ c ∈ hD, isDigitC c = true) (hh1 : 1 ≤ hD.length) (hh2 : hD.length ≤ 2)
    (hmiD : ∀ c ∈ miD, isDigitC c = true) (hmi2 : miD.length = 2)
    (hseD : ∀ sD, seD = some sD → (∀ c ∈ sD, isDigitC c = true) ∧ sD.length = 2)
    (hsane : saneYear nowYear (yrVal nowYear yr) = true)
    (hd1 : 1 ≤ valAcc 0 dayD)
    (hd2 : ((valAcc 0 dayD : Nat) : Int) ≤
      daysInMonth (yrVal nowYear yr) ((mi : Int) + 1))
    (hhour : hour24 (valAcc 0 hD) ap ≤ 23)
    (hmin : valAcc 0 miD ≤ 59)
    (hsec : (seD.map (valAcc 0)).getD 0 ≤ 59) :
    parseDate nowYear tz (some (String.mk (mtForm mn dayD yr cT hD miD seD ap))) =
      some (mkDateLocal tz (yrVal nowYear yr) (mi : Int)
        ((valAcc 0 dayD : Nat) : Int) ((hour24 (valAcc 0 hD) ap : Nat) : Int)
        ((valAcc 0 miD : Nat) : Int) (((seD.map (valAcc 0)).getD 0 : Nat) : Int)) := by
  obtain ⟨halpha, h3, h9, h11, _, _⟩ := monthIdx_facts mn mi hmidx
  have hmn : mn ≠ [] := by
    intro h
    rw [h] at h3
    simp at h3
  have hY : 2000 ≤ yrVal nowYear yr ∧ yrVal nowYear yr ≤ nowYear + 2 := by
    unfold saneYear at hsane
    exact of_decide_eq_true hsane
  have hfields := localFields_mkDateLocal tz (yrVal nowYear yr) (mi : Int)
    ((valAcc 0 dayD : Nat) : Int) ((hour24 (valAcc 0 hD) ap : Nat) : Int)
    ((valAcc 0 miD : Nat) : Int) (((seD.map (valAcc 0)).getD 0 : Nat) : Int)
    (by rintro ⟨-, h99⟩; omega)
    (Int.natCast_nonneg _) (by exact_mod_cast h11)
    (by exact_mod_cast hd1) hd2
    (Int.natCast_nonneg _) (by exact_mod_cast hhour)
    (Int.natCast_nonneg _) (by exact_mod_cast hmin)
    (Int.natCast_nonneg _) (by exact_mod_cast hsec)
  have hne : String.mk (mtForm mn dayD yr cT hD miD seD ap) ≠ "" := by
    intro h
    have h2 := congrArg String.data h
    rw [mtForm_eq_tail] at h2
    rcases List.append_eq_nil.mp h2 with ⟨-, h4⟩
    simp at h4
  have hnp : jsNativeParse tz (mtForm mn dayD yr cT hD miD seD ap) = none := by
    cases hmc : mn with
    | nil => exact absurd hmc hmn
    | cons c0 mr =>
      subst hmc
      exact jsNativeParse_alpha tz c0 _ (halpha c0 (by simp))
  have hsaneV : saneYear nowYear (getFullYearL tz (mkDateLocal tz (yrVal nowYear yr)
      (mi : Int) ((valAcc 0 dayD : Nat) : Int) ((hour24 (valAcc 0 hD) ap : Nat) : Int)
      ((valAcc 0 miD : Nat) : Int)
      (((seD.map (valAcc 0)).getD 0 : Nat) : Int))) = true := by
    rw [hfields.1]
    exact hsane
  show (if String.mk (mtForm mn dayD yr cT hD miD seD ap) = "" then none
    else parseCleaned nowYear tz (displayClean (jsTrimL
      (String.mk (mtForm mn dayD yr cT hD miD seD ap)).data))) = _
  rw [if_neg hne]
  show parseCleaned nowYear tz
    (displayClean (jsTrimL (mtForm mn dayD yr cT hD miD seD ap))) = _
  rw [jsTrimL_mtForm mn dayD yr cT hD miD seD ap hmn halpha hmiD hmi2 hseD]
  rw [displayClean_mtForm mn dayD yr cT hD miD seD ap mi hmidx hdayD
    (fun cma yD h => (hyrD cma yD h).1) hhD hmiD hmi2 hseD]
  exact parseCleaned_mt_some nowYear tz _ _ hnp
    (mtStep_mtForm nowYear tz mn dayD yr cT hD miD seD ap mi hmidx hdayD hday1 hday2
      hyrD hhD hh1 hh2 hmiD hmi2 hseD) hsaneV

theorem c7_witness :
    parseDate 2025 0 (some (String.mk (mtForm "Oct".data "14".data
        (some (true, "2025".data)) true "03".data "14".data none (some false)))) =
      some (mkDateLocal 0 (yrVal 2025 (some (true, "2025".data))) (9 : Int)
        ((valAcc 0 "14".data : Nat) : Int)
        ((hour24 (valAcc 0 "03".data) (some false) : Nat) : Int)
        ((valAcc 0 "14".data : Nat) : Int)
        (((Option.map (valAcc 0) (none : Option (List Char))).getD 0 : Nat) : Int)) :=
  c7_thm 2025 0 "Oct".data "14".data (some (true, "2025".data)) true "03".data
    "14".data none (some false) 9 (by decide) (by decide) (by decide) (by decide)
    (by
      intro cma yD h
      injection h with h1
      injection h1 with h2 h3
      subst h3
      exact ⟨by decide, by decide⟩)
    (by decide) (by decide) (by decide) (by decide) (by decide)
    (fun sD h => nomatch h)
    (by decide) (by decide) (by decide) (by decide) (by decide) (by decide)

/-- C7 counterexample to the unrestricted claim: `"Oct 14, 1990, 03:14 AM"`
has exactly the claimed shape with a table month, yet the display path
returns Unknown (`none`) because the year 1990 fails the `[2000, nowYear+2]`
sanity bound; the same string with year 2025 parses as the claim predicts. -/
theorem c7_cex :
    parseDate 2025 0 (some "Oct 14, 1990, 03:14 AM") = none ∧
    parseDate 2025 0 (some "Oct 14, 2025, 03:14 AM") =
      some (mkDateLocal 0 2025 9 14 3 14 0) := by
  constructor
  · decide
  · decide

/-- C1 (amended): on the display entry point `parseDate`, a parse result is
accepted only if its local calendar year lies within `[2000, currentYear + 2]`;
every string whose parse would yield a year outside that range produces the
Unknown result (`none`).  (The storage entry point `parseDateToMySQL`
applies no year bound — see the counterexample.) -/
theorem c1_thm (nowYear tz : Int) (ts : Option String) (d : Int)
    (h : parseDate nowYear tz ts = some d) :
    2000 ≤ getFullYearL tz d ∧ getFullYearL tz d ≤ nowYear + 2 :=
  parseDate_year_bound nowYear tz ts d h

theorem c1_witness :
    2000 ≤ getFullYearL 0 1735774200000 ∧ getFullYearL 0 1735774200000 ≤ 2025 + 2 :=
  c1_thm 2025 0 (some "2025-01-01T23:30:00Z") 1735774200000 (by decide)

/-- C1 counterexample: with the current instant 2025-10-11T00:00:00Z, the
storage path accepts `"1999-03-04"` although 1999 lies outside
`[2000, 2027]`, and returns that out-of-range date rather than the fallback
current instant. -/
theorem c1_cex :
    parseDateToMySQL 1760140800000 0 (some "1999-03-04") = "1999-03-04 00:00:00" ∧
    getUTCFullYear (parseDateToMySQLms 1760140800000 0 (some "1999-03-04")) = 1999 ∧
    ¬ 2000 ≤ getUTCFullYear (parseDateToMySQLms 1760140800000 0 (some "1999-03-04")) ∧
    parseDateToMySQL 1760140800000 0 (some "1999-03-04") ≠ mysqlFromMs 1760140800000 := by
  decide

/-- C5 (amended): `isIsoUTC` returns true exactly when the trimmed input
*ends with* the digit pattern `\d{4}-\d{2}-\d{2}T\d{2}:\d{2}:\d{2}(\.\d+)?Z`:
no component-range validation and no anchoring at the start of the string,
so it accepts strings that are not valid ISO-8601 instants. -/
theorem c5_thm (s : String) :
    isIsoUTC (some s) = true ↔
      ∃ t, t <:+ jsTrimL s.data ∧ isoZShapeAt t = true :=
  isoZSearch_iff (jsTrimL s.data).length.succ (jsTrimL s.data) (Nat.lt_succ_self _)

theorem c5_witness : isIsoUTC (some "2025-01-01T23:30:00Z") = true :=
  (c5_thm "2025-01-01T23:30:00Z").mpr
    ⟨"2025-01-01T23:30:00Z".data, by decide, by decide⟩

/-- C5 counterexample: the predicate accepts a string whose components are
out of range and a string with leading garbage; neither is a valid
ISO-8601 instant (the ECMA-262 native parse rejects both). -/
theorem c5_cex :
    isIsoUTC (some "2025-13-40T99:99:99Z") = true ∧
    jsNativeParse 0 "2025-13-40T99:99:99Z".data = none ∧
    isIsoUTC (some "x2025-01-01T00:00:00Z") = true ∧
    jsNativeParse 0 "x2025-01-01T00:00:00Z".data = none := by decide

/-- C4 (amended): the display cleanup strips ordinal suffixes, everything
from `from IP` to the end, the words `Updated`/`Created`, a trailing
GMT±HHMM annotation, and surrounding whitespace; the storage cleanup strips
the same *except* the GMT rule.  Each parser depends on its input only
through its cleanup, so two non-empty strings with equal cleanups parse
identically.  (Noise removal does not always preserve the parse result
relative to the noise-free string: stripping from `from IP` deletes any
date text that follows the IP — see the counterexample.) -/
theorem c4_thm :
    (∀ (nowYear tz : Int) (s t : String), s ≠ "" → t ≠ "" →
      displayClean (jsTrimL s.data) = displayClean (jsTrimL t.data) →
      parseDate nowYear tz (some s) = parseDate nowYear tz (some t)) ∧
    (∀ (now tz : Int) (s t : String), s ≠ "" → t ≠ "" →
      routeClean s.data = routeClean t.data →
      parseDateToMySQL now tz (some s) = parseDateToMySQL now tz (some t)) := by
  constructor
  · intro nowYear tz s t hs ht hc
    simp only [parseDate, if_neg hs, if_neg ht, hc]
  · intro now tz s t hs ht hc
    unfold parseDateToMySQL
    simp only [parseDateToMySQLms, if_neg hs, if_neg ht, hc]

theorem c4_witness :
    parseDate 2025 0 (some "Oct 13th, 2025") = parseDate 2025 0 (some "Oct 13, 2025") ∧
    parseDateToMySQL 1760140800000 0 (some "Closed Oct 13, 2025 02:19:42 PM") =
      parseDateToMySQL 1760140800000 0 (some "Closed Oct 13, 2025 02:19:42 PM ") :=
  ⟨c4_thm.1 2025 0 _ _ (by decide) (by decide) (by decide),
   c4_thm.2 1760140800000 0 _ _ (by decide) (by decide) (by decide)⟩

/-- C3 (amended): `parseDateToMySQL` is total and always returns the
rendering of some instant — the parsed one, or the current instant for
absent or unparseable input — and whenever the UTC year of that instant
lies in 0..9999 (which holds for every non-expanded-year parse and for the
fallback in any realistic present) the result has the fixed-width
`YYYY-MM-DD HH:MM:SS` shape with no timezone suffix.  Expanded-year ISO
inputs (year above 9999) yield an expanded-format string instead — see the
counterexample. -/
theorem c3_thm (now tz : Int) (ds : Option String)
    (h0 : 0 ≤ getUTCFullYear (parseDateToMySQLms now tz ds))
    (h1 : getUTCFullYear (parseDateToMySQLms now tz ds) ≤ 9999) :
    parseDateToMySQL now tz ds = mysqlFromMs (parseDateToMySQLms now tz ds) ∧
    parseDateToMySQLms now tz none = now ∧
    isMysqlShape (parseDateToMySQL now tz ds) = true := by
  refine ⟨rfl, rfl, ?_⟩
  unfold parseDateToMySQL
  exact mysqlFromMs_shape _ h0 h1

theorem c3_witness :
    parseDateToMySQL 1760140800000 0 (some "garbage") =
      mysqlFromMs (parseDateToMySQLms 1760140800000 0 (some "garbage")) ∧
    parseDateToMySQLms 1760140800000 0 none = 1760140800000 ∧
    isMysqlShape (parseDateToMySQL 1760140800000 0 (some "garbage")) = true :=
  c3_thm 1760140800000 0 (some "garbage") (by decide) (by decide)

/-- C3 counterexample: the expanded-year ISO input `+010000-01-01T00:00:00Z`
is natively parseable, and `toISOString().slice(0, 19)` then yields
`"+010000-01-01 00:00"`, which is not in the fixed `YYYY-MM-DD HH:MM:SS`
format the claim asserts for every return value. -/
theorem c3_cex :
    parseDateToMySQL 1760140800000 0 (some "+010000-01-01T00:00:00Z") =
      "+010000-01-01 00:00" ∧
    isMysqlShape "+010000-01-01 00:00" = false := by decide

/-- C6 (confirmed): in the today/yesterday counting, a UTC-flagged record
counts as "yesterday" iff its UTC day key equals the UTC day key of the
instant exactly 24 hours before the evaluation instant (equivalently, of
the previous UTC calendar day — second conjunct), while a local-path record
counts as "yesterday" iff its local day key equals the key of the local
calendar day before "today".  The hypothesis excludes mount instants whose
local year lies in 0..99, where the `Date` constructor's two-digit-year
rule shifts the anchor into 1900..1999. -/
theorem c6_thm (nowYear tz tMount tNow : Int) (ts : List Ticket)
    (hy : ¬ (0 ≤ getFullYearL tz tMount ∧ getFullYearL tz tMount ≤ 99)) :
    ticketsYesterday nowYear tz tMount tNow ts =
      (ts.filter fun t =>
        match parseDate nowYear tz (selRaw t) with
        | none => false
        | some d =>
          if isIsoUTC (selRaw t) then
            dateKeyUTC d == keyOfCivil (civilFromDays (utcDayNum tNow - 1))
          else
            dateKey tz d == keyOfCivil (civilFromDays (localDayNum tz tMount - 1))).length ∧
    dateKeyUTC (tNow - 24 * 60 * 60 * 1000) =
      keyOfCivil (civilFromDays (utcDayNum tNow - 1)) := by
  refine ⟨?_, dateKeyUTC_sub_day tNow⟩
  unfold ticketsYesterday
  congr 1
  apply List.filter_congr
  intro t _
  cases hp : parseDate nowYear tz (selRaw t) with
  | none => simp only [hp]
  | some d =>
    simp only [hp]
    by_cases hu : isIsoUTC (selRaw t) = true
    · rw [if_pos hu, if_pos hu, dateKeyUTC_sub_day tNow, if_pos hu]
    · rw [if_neg hu, if_neg hu, anchorKey tz tMount hy, if_neg hu]

theorem c6_witness :
    ticketsYesterday 2025 0 1760396400000 1760401800000
        [⟨some "2025-10-13T22:00:00Z", none, none⟩] =
      (List.filter (fun t =>
        match parseDate 2025 0 (selRaw t) with
        | none => false
        | some d =>
          if isIsoUTC (selRaw t) then
            dateKeyUTC d == keyOfCivil (civilFromDays (utcDayNum 1760401800000 - 1))
          else
            dateKey 0 d == keyOfCivil (civilFromDays (localDayNum 0 1760396400000 - 1)))
        [⟨some "2025-10-13T22:00:00Z", none, none⟩]).length ∧
    dateKeyUTC (1760401800000 - 24 * 60 * 60 * 1000) =
      keyOfCivil (civilFromDays (utcDayNum 1760401800000 - 1)) :=
  c6_thm 2025 0 1760396400000 1760401800000
    [⟨some "2025-10-13T22:00:00Z", none, none⟩] (by decide)

/-- C9 (amended): each aggregation call takes several wall-clock readings
(the mount-time `todayDate` anchor, a fresh `new Date()` inside the
`ticketsToday` filter, the `Date.now()` reading of `ticketsYesterday`, and
`parseDate`'s own current-year reading); both `ticketsToday` and
`ticketsYesterday` coincide with the single-instant evaluation at the
mount anchor whenever those readings fall on the same UTC calendar day and
share the same local calendar year, and in particular two evaluations with
identical readings are equal. -/
theorem c9_thm (tz tMount tFresh tNow : Int) (ts : List Ticket)
    (hku : dateKeyUTC tMount = dateKeyUTC tFresh)
    (hyr : getFullYearL tz tMount = getFullYearL tz tFresh)
    (hdn : utcDayNum tMount = utcDayNum tNow)
    (hyr2 : getFullYearL tz tMount = getFullYearL tz tNow) :
    ticketsToday (getFullYearL tz tFresh) tz tMount tFresh ts =
      ticketsToday (getFullYearL tz tMount) tz tMount tMount ts ∧
    ticketsYesterday (getFullYearL tz tNow) tz tMount tNow ts =
      ticketsYesterday (getFullYearL tz tMount) tz tMount tMount ts := by
  constructor
  · rw [hyr]
    unfold ticketsToday
    congr 1
    apply List.filter_congr
    intro t _
    rw [← hku]
  · rw [← hyr2]
    unfold ticketsYesterday
    congr 1
    apply List.filter_congr
    intro t _
    cases hp : parseDate (getFullYearL tz tMount) tz (selRaw t) with
    | none => simp only [hp]
    | some d =>
      simp only [hp]
      by_cases hu : isIsoUTC (selRaw t) = true
      · rw [if_pos hu, if_pos hu, if_pos hu, dateKeyUTC_sub_day tNow,
          dateKeyUTC_sub_day tMount, hdn]
      · rw [if_neg hu, if_neg hu, if_neg hu]

theorem c9_witness :
    (ticketsToday (getFullYearL 0 1760396460000) 0 1760396400000 1760396460000
        [⟨some "2025-10-13T22:00:00Z", none, none⟩] =
      ticketsToday (getFullYearL 0 1760396400000) 0 1760396400000 1760396400000
        [⟨some "2025-10-13T22:00:00Z", none, none⟩]) ∧
    (ticketsYesterday (getFullYearL 0 1760396460000) 0 1760396400000 1760396460000
        [⟨some "2025-10-13T22:00:00Z", none, none⟩] =
      ticketsYesterday (getFullYearL 0 1760396400000) 0 1760396400000 1760396400000
        [⟨some "2025-10-13T22:00:00Z", none, none⟩]) :=
  c9_thm 0 1760396400000 1760396460000 1760396460000
    [⟨some "2025-10-13T22:00:00Z", none, none⟩] (by decide) (by decide) (by decide)
    (by decide)

/-- C9 counterexample: with the component mounted at 2025-10-13T23:00Z and
the filter's fresh `new Date()` reading at 2025-10-14T00:30Z, a record
updated at 2025-10-13T22:00Z is not counted as "today", whereas the
single-instant evaluation at the start of the pass counts it: the
aggregation is not a function of one wall-clock reading. -/
theorem c9_cex :
    ticketsToday 2025 0 1760396400000 1760401800000
        [⟨some "2025-10-13T22:00:00Z", none, none⟩] = 0 ∧
    ticketsToday 2025 0 1760396400000 1760396400000
        [⟨some "2025-10-13T22:00:00Z", none, none⟩] = 1 := by decide

/-- C4 counterexample: (i) on the display path, a string whose date follows
the `from IP` noise parses to `Unknown` while its noise-free counterpart
parses successfully — the claimed noise-equivalence fails; (ii) the storage
cleanup does not strip a trailing GMT±HHMM annotation, contradicting the
claim that the GMT rule applies on both entry points. -/
theorem c4_cex :
    parseDate 2025 0 (some "Closed from IP 10.0.0.1 on Oct 13, 2025") = none ∧
    parseDate 2025 0 (some "Closed on Oct 13, 2025") =
      some (mkDateLocal 0 2025 9 13 0 0 0) ∧
    routeClean "Jan 2, 2025 GMT+0700".data = "Jan 2, 2025 GMT+0700".data := by decide

/-- C2 (amended): `ticketsPerDay` skips records whose selected date parses
to `Unknown` and buckets every remaining record by its *local* `dateKey` —
never by `dateKeyUTC`, whatever `isIsoUTC` says about the raw string
(`dayKeysOf` is exactly that multiset of local keys).  The emitted list has
its keys sorted ascending lexicographically, pairwise distinct, each paired
with the exact number of surviving records on that key, and a key appears in
the output iff some record yields it. -/
theorem c2_thm (nowYear tz : Int) (ts : List Ticket) :
    ((ticketsPerDay nowYear tz ts).map (fun p => p.1)).Pairwise
        (fun a b => strLe a b = true) ∧
    ((ticketsPerDay nowYear tz ts).map (fun p => p.1)).Nodup ∧
    (∀ p ∈ ticketsPerDay nowYear tz ts,
        p.2 = countS p.1 (dayKeysOf nowYear tz ts)) ∧
    (∀ k, k ∈ (ticketsPerDay nowYear tz ts).map (fun p => p.1) ↔
        k ∈ dayKeysOf nowYear tz ts) := by
  have hmapfst : (ticketsPerDay nowYear tz ts).map (fun p => p.1) =
      sortLe strLe ((foldCounts (dayKeysOf nowYear tz ts)).map (fun p => p.1)) := by
    simp [ticketsPerDay, List.map_map]
    rw [show ((fun p : String × Nat => p.1) ∘
        fun k => (k, lookupCnt (foldCounts (dayKeysOf nowYear tz ts)) k)) =
        fun k : String => k from rfl]
    simp
  have hnodup0 : ((foldCounts (dayKeysOf nowYear tz ts)).map (fun p => p.1)).Nodup := by
    apply foldl_bump_nodup
    simp
  refine ⟨?_, ?_, ?_, ?_⟩
  · rw [hmapfst]
    exact sortLe_pairwise strLe strLe_total strLe_trans _
  · rw [hmapfst]
    exact ((sortLe_perm strLe _).nodup_iff).mpr hnodup0
  · intro p hp
    simp only [ticketsPerDay, List.mem_map] at hp
    obtain ⟨k, hk, rfl⟩ := hp
    have h := foldl_bump_lookup k (dayKeysOf nowYear tz ts) []
    simpa [foldCounts, lookupCnt] using h
  · intro k
    rw [hmapfst, (sortLe_perm strLe _).mem_iff]
    have h := foldl_bump_keys_mem k (dayKeysOf nowYear tz ts) []
    simpa [foldCounts] using h

/-- C2 counterexample to the original claim: a record whose raw date string
carries the UTC precision flag (`isIsoUTC` true) is still bucketed under its
*local* day key.  At timezone UTC+2 (tz = 120 minutes), the instant
2025-01-01T23:30:00Z falls on local day 2025-01-02, and `ticketsPerDay` emits
the key "2025-01-02", not the UTC key "2025-01-01" the claim requires. -/
theorem c2_cex :
    isIsoUTC (some "2025-01-01T23:30:00Z") = true ∧
    parseDate 2025 120 (some "2025-01-01T23:30:00Z") = some 1735774200000 ∧
    dateKeyUTC 1735774200000 = "2025-01-01" ∧
    ticketsPerDay 2025 120 [⟨some "2025-01-01T23:30:00Z", none, none⟩] =
      [("2025-01-02", 1)] := by decide

/-- C10: a record with an absent or empty `brand` normalizes to the
literal label "Unknown" and is not dropped by the brand aggregation: the
"Unknown" group is present in `ticketsByBrand` whenever such a record exists,
every group's count is the exact number of records normalizing to its label
(so the counts over all groups sum to the full record count), and the groups
are ranked by count descending. -/
theorem c10_thm (ts : List Ticket) :
    (∀ b : Option String, b = none ∨ b = some "" → normalizeBrand b = "Unknown") ∧
    (((ticketsByBrand ts).map (fun p => p.2)).sum = ts.length) ∧
    (∀ t ∈ ts, t.brand = none ∨ t.brand = some "" →
        "Unknown" ∈ (ticketsByBrand ts).map (fun p => p.1)) ∧
    (∀ p ∈ ticketsByBrand ts,
        p.2 = countS p.1 (ts.map (fun t => normalizeBrand t.brand))) ∧
    (ticketsByBrand ts).Pairwise (fun a b => descCnt a b = true) := by
  have hnd : ((foldCounts (ts.map (fun t => normalizeBrand t.brand))).map
      (fun p => p.1)).Nodup := by
    apply foldl_bump_nodup
    simp
  refine ⟨?_, ?_, ?_, ?_, ?_⟩
  · rintro b (rfl | rfl) <;> decide
  · have hperm := (sortLe_perm descCnt
      (foldCounts (ts.map (fun t => normalizeBrand t.brand)))).map (fun p => p.2)
    calc ((ticketsByBrand ts).map (fun p => p.2)).sum
        = ((foldCounts (ts.map (fun t => normalizeBrand t.brand))).map
            (fun p => p.2)).sum := hperm.sum_eq
      _ = (ts.map (fun t => normalizeBrand t.brand)).length := by
            simpa [foldCounts] using
              foldl_bump_sum (ts.map (fun t => normalizeBrand t.brand)) []
      _ = ts.length := by simp
  · intro t ht hb
    have hu : normalizeBrand t.brand = "Unknown" := by
      rcases hb with hb | hb <;> rw [hb] <;> decide
    have hbl : "Unknown" ∈ ts.map (fun t => normalizeBrand t.brand) :=
      List.mem_map.mpr ⟨t, ht, hu⟩
    have hcnt : "Unknown" ∈ (foldCounts (ts.map (fun t => normalizeBrand t.brand))).map
        (fun p => p.1) := by
      have h := foldl_bump_keys_mem "Unknown" (ts.map (fun t => normalizeBrand t.brand)) []
      simpa [foldCounts] using (Iff.mpr (by simpa [foldCounts] using h) hbl)
    obtain ⟨p, hpmem, hp1⟩ := List.mem_map.mp hcnt
    exact List.mem_map.mpr
      ⟨p, (sortLe_perm descCnt _).mem_iff.mpr hpmem, hp1⟩
  · intro p hp
    obtain ⟨k, c⟩ := p
    have hpmem : (k, c) ∈ foldCounts (ts.map (fun t => normalizeBrand t.brand)) :=
      (sortLe_perm descCnt _).mem_iff.mp hp
    have hl := lookupCnt_eq_of_mem k c _ hnd hpmem
    have h := foldl_bump_lookup k (ts.map (fun t => normalizeBrand t.brand)) []
    simp only [foldCounts] at hl
    simp only [lookupCnt] at h
    simpa using hl.symm.trans h
  · exact sortLe_pairwise descCnt descCnt_total descCnt_trans _

/-- C10 witness at concrete inputs: `normalizeBrand` of an absent brand is
"Unknown", and for a two-record list with one absent-brand record the
"Unknown" group is present in `ticketsByBrand`. -/
theorem c10_witness :
    normalizeBrand (none : Option String) = "Unknown" ∧
    "Unknown" ∈ (ticketsByBrand
        [⟨some "2025-01-01T23:30:00Z", none, none⟩,
         ⟨none, none, some "acme"⟩]).map (fun p => p.1) :=
  ⟨(c10_thm []).1 none (Or.inl rfl),
   (c10_thm [⟨some "2025-01-01T23:30:00Z", none, none⟩,
       ⟨none, none, some "acme"⟩]).2.2.1
     ⟨some "2025-01-01T23:30:00Z", none, none⟩ (by decide) (Or.inl rfl)⟩

/-- C8 (amended): `normalizeBrand` is a pure function (determinism), and
re-normalizing its output is the identity on every input whose normalized
label is non-empty.  (An input that collapses to the empty label — e.g. a
brand consisting only of underscores — re-normalizes to "Unknown" instead,
because the empty string is falsy; see the counterexample.) -/
theorem c8_thm (b : Option String) (h : normalizeBrand b ≠ "") :
    normalizeBrand (some (normalizeBrand b)) = normalizeBrand b := by
  cases b with
  | none => decide
  | some s =>
    by_cases he : s = ""
    · subst he
      decide
    · have hs : normalizeBrand (some s) = brandPipeline s := by
        simp [normalizeBrand, he]
      rw [hs] at h ⊢
      have hb : normalizeBrand (some (brandPipeline s)) =
          brandPipeline (brandPipeline s) := by
        simp [normalizeBrand, h]
      rw [hb, brandPipeline_idem]

/-- C8 witness at a concrete input: "shopify" normalizes to the non-empty
label "Shopify", and re-normalizing that label leaves it unchanged. -/
theorem c8_witness :
    normalizeBrand (some "shopify") ≠ "" ∧
    normalizeBrand (some (normalizeBrand (some "shopify"))) =
      normalizeBrand (some "shopify") :=
  ⟨by decide, c8_thm (some "shopify") (by decide)⟩

/-- C8 counterexample to the unrestricted claim: the brand "_" normalizes to
the empty string (trim and underscore-stripping leave nothing), and
re-normalizing that output yields "Unknown" ≠ "", so `normalizeBrand` is not
idempotent on every input. -/
theorem c8_cex :
    normalizeBrand (some "_") = "" ∧
    normalizeBrand (some (normalizeBrand (some "_"))) = "Unknown" := by decide

end TD
